import Mathlib

/-!
# Tick-to-trade engine of `assign_2/hft_sim.cpp`

A shallow embedding of the rolling price window (`PriceHistory<CAP>`), the four
trading signals and the per-tick loop body of `TradeEngine::process`.

Modelling conventions.
* `double` is modelled by `ℚ`.  The engine is modelled with exact arithmetic:
  comparisons and the field operations are the mathematical ones.  Where a
  property turns on rounding, the rounding of an exact result to a `double` is
  an explicit argument `fl : ℚ → ℚ` (namespace `Rounded`, `pctIndex`);
  `roundDouble` is the rounding of IEEE 754 binary64, and the identity gives
  exact arithmetic back.
* `std::sqrt` is library code; every function that reaches it takes the
  square root as an explicit argument `sqrt : ℚ → ℚ`.
* `Clock::now()` is an input: the loop body receives the instant `now` that
  the clock returns for the tick, `process` receives a function from the
  position of the tick in the feed to that instant.  Instants are integers
  (nanoseconds).
* `bool f(..., double& out)` becomes an `Option`; `bool f(..., int& buy,
  int& sell)` returns the flag together with the updated counters.
* The preprocessor switch `ENABLE_VOL_SIGNAL` is an explicit boolean argument.
* Indexing `price_hist` outside its bounds is undefined behaviour in the
  source; the model returns `none` there.
-/

namespace HftSim

/-! ## Market data and orders -/

/-- One tick of the feed (`struct MarketData`). -/
structure MarketData where
  instrument_id : Int
  price : ℚ
  timestamp : Int
deriving DecidableEq

/-- One emitted order (`struct Order`). -/
structure Order where
  instrument_id : Int
  price : ℚ
  is_buy : Bool
  signal_mask : Nat
  timestamp : Int
deriving DecidableEq

/-! ## The rolling window -/

/-- The ring buffer with running sums (`struct PriceHistory<CAP>`); the field
defaults are the in-class initialisers of the source. -/
structure PriceHistory (CAP : Nat) where
  buf : List ℚ := List.replicate CAP 0
  size : Nat := 0
  head : Nat := 0
  sum : ℚ := 0
  sumsq : ℚ := 0
deriving DecidableEq

namespace PriceHistory

variable {CAP : Nat}

/-- `PriceHistory::add`. -/
def add (h : PriceHistory CAP) (x : ℚ) : PriceHistory CAP :=
  if h.size < CAP then
    { buf := h.buf.set h.head x
      head := (h.head + 1) % CAP
      size := h.size + 1
      sum := h.sum + x
      sumsq := h.sumsq + x * x }
  else
    let old := h.buf.getD h.head 0
    { buf := h.buf.set h.head x
      head := (h.head + 1) % CAP
      size := h.size
      sum := h.sum - old + x
      sumsq := h.sumsq - old * old + x * x }

/-- `PriceHistory::full`. -/
def full (h : PriceHistory CAP) : Bool := h.size == CAP

/-- `PriceHistory::avg`. -/
def avg (h : PriceHistory CAP) : ℚ :=
  if h.size ≠ 0 then h.sum / (h.size : ℚ) else 0

/-- `PriceHistory::stddev`, with `std::sqrt` passed in. -/
def stddev (sqrt : ℚ → ℚ) (h : PriceHistory CAP) : ℚ :=
  if h.size < 2 then 0
  else
    let m := h.avg
    let var := h.sumsq / (h.size : ℚ) - m * m
    if var > 0 then sqrt var else 0

/-- `PriceHistory::last`: the value written to `out`, or `none` for `false`. -/
def last (h : PriceHistory CAP) : Option ℚ :=
  if h.size = 0 then none
  else
    let idx := (h.head + CAP - 1) % CAP
    some (h.buf.getD idx 0)

/-- `PriceHistory::last2`: the pair `(prev, lastv)`, or `none` for `false`. -/
def last2 (h : PriceHistory CAP) : Option (ℚ × ℚ) :=
  if h.size < 2 then none
  else
    let i1 := (h.head + CAP - 2) % CAP
    let i2 := (h.head + CAP - 1) % CAP
    some (h.buf.getD i1 0, h.buf.getD i2 0)

/-- `PriceHistory::last3`: the triple `(a, b, c)`, or `none` for `false`. -/
def last3 (h : PriceHistory CAP) : Option (ℚ × ℚ × ℚ) :=
  if h.size < 3 then none
  else
    let i0 := (h.head + CAP - 3) % CAP
    let i1 := (h.head + CAP - 2) % CAP
    let i2 := (h.head + CAP - 1) % CAP
    some (h.buf.getD i0 0, h.buf.getD i1 0, h.buf.getD i2 0)

/-- The window reached from `h` by calling `add` on each price in turn. -/
def addAll (h : PriceHistory CAP) (xs : List ℚ) : PriceHistory CAP :=
  xs.foldl add h

end PriceHistory

/-! ## Signals -/

/-- What a signal call leaves behind: the returned flag and the two vote
counters it received by reference. -/
structure SignalResult where
  fired : Bool
  buy : Int
  sell : Int
deriving DecidableEq

/-- `TradeEngine::signal1`. -/
def signal1 (tick : MarketData) (buy sell : Int) : SignalResult :=
  if tick.price < 105.0 then ⟨true, buy + 1, sell⟩
  else if tick.price > 195.0 then ⟨true, buy, sell + 1⟩
  else ⟨false, buy, sell⟩

/-- `TradeEngine::signal2`. -/
def signal2 (tick : MarketData) (buy sell : Int) (hist : PriceHistory 32) : SignalResult :=
  if hist.size < 5 then ⟨false, buy, sell⟩
  else
    let avg := hist.avg
    if avg = 0.0 then ⟨false, buy, sell⟩
    else if tick.price < avg * 0.98 then ⟨true, buy + 1, sell⟩
    else if tick.price > avg * 1.02 then ⟨true, buy, sell + 1⟩
    else ⟨false, buy, sell⟩

/-- `TradeEngine::signal3`; the tick is not read by the source either. -/
def signal3 (_tick : MarketData) (buy sell : Int) (hist : PriceHistory 32) : SignalResult :=
  match hist.last3 with
  | none => ⟨false, buy, sell⟩
  | some (a, b, c) =>
    let d1 := b - a
    let d2 := c - b
    if d1 > 0 ∧ d2 > 0 then ⟨true, buy + 1, sell⟩
    else if d1 < 0 ∧ d2 < 0 then ⟨true, buy, sell + 1⟩
    else ⟨false, buy, sell⟩

/-- `TradeEngine::signal4_vol_breakout`, with `std::sqrt` passed in. -/
def signal4_vol_breakout (sqrt : ℚ → ℚ) (tick : MarketData) (buy sell : Int)
    (hist : PriceHistory 32) : SignalResult :=
  if hist.size < 12 then ⟨false, buy, sell⟩
  else
    let sd := hist.stddev sqrt
    match hist.last with
    | none => ⟨false, buy, sell⟩
    | some prev =>
      let chg := tick.price - prev
      let k : ℚ := 1.75
      if sd ≤ 1e-9 then ⟨false, buy, sell⟩
      else if chg > k * sd then ⟨true, buy + 1, sell⟩
      else if chg < -k * sd then ⟨true, buy, sell + 1⟩
      else ⟨false, buy, sell⟩

/-! ## Rounding to `double` -/

/-- The integer nearest to `q`, the even one of the two when `q` lies half-way
between them. -/
def roundHalfEven (q : ℚ) : Int :=
  if q - ⌊q⌋ < 1 / 2 then ⌊q⌋
  else if q - ⌊q⌋ > 1 / 2 then ⌊q⌋ + 1
  else if ⌊q⌋ % 2 = 0 then ⌊q⌋ else ⌊q⌋ + 1

/-- The `double` that an exact result `x` is rounded to: 53 significant bits,
round to nearest, ties to even (the IEEE 754 default).  The exponent range is
not bounded: overflow to infinity and subnormal numbers are not modelled. -/
def roundDouble (x : ℚ) : ℚ :=
  if x = 0 then 0
  else
    let e := Int.log 2 |x|
    (roundHalfEven (x / 2 ^ (e - 52)) : ℚ) * 2 ^ (e - 52)

/-! The functions of the source that a vote of `signal2` depends on, with the
rounding of each `double` operation explicit: every operation is rounded once,
there is no fused multiply-add and no excess precision. -/

namespace Rounded

/-- `PriceHistory::add` with every `double` operation rounded by `fl`: the
sums are updated by one rounded subtraction and one rounded addition, the
squares are rounded products. -/
def add {CAP : Nat} (fl : ℚ → ℚ) (h : PriceHistory CAP) (x : ℚ) : PriceHistory CAP :=
  if h.size < CAP then
    { buf := h.buf.set h.head x
      head := (h.head + 1) % CAP
      size := h.size + 1
      sum := fl (h.sum + x)
      sumsq := fl (h.sumsq + fl (x * x)) }
  else
    let old := h.buf.getD h.head 0
    { buf := h.buf.set h.head x
      head := (h.head + 1) % CAP
      size := h.size
      sum := fl (fl (h.sum - old) + x)
      sumsq := fl (fl (h.sumsq - fl (old * old)) + fl (x * x)) }

/-- The window reached from `h` by calling the rounded `add` on each price in
turn. -/
def addAll {CAP : Nat} (fl : ℚ → ℚ) (h : PriceHistory CAP) (xs : List ℚ) :
    PriceHistory CAP :=
  xs.foldl (add fl) h

/-- `PriceHistory::avg` with the rounded division `sum / double(size)`. -/
def avg {CAP : Nat} (fl : ℚ → ℚ) (h : PriceHistory CAP) : ℚ :=
  if h.size ≠ 0 then fl (h.sum / fl (h.size : ℚ)) else 0

/-- `TradeEngine::signal2` with the rounded products `avg * 0.98` and
`avg * 1.02`; the literals are the `double`s nearest 0.98 and 1.02. -/
def signal2 (fl : ℚ → ℚ) (tick : MarketData) (buy sell : Int) (hist : PriceHistory 32) :
    SignalResult :=
  if hist.size < 5 then ⟨false, buy, sell⟩
  else
    let avg := avg fl hist
    if avg = 0.0 then ⟨false, buy, sell⟩
    else if tick.price < fl (avg * fl 0.98) then ⟨true, buy + 1, sell⟩
    else if tick.price > fl (avg * fl 1.02) then ⟨true, buy, sell + 1⟩
    else ⟨false, buy, sell⟩

end Rounded

/-! ## The engine -/

/-- The vote counters and the mask after the signals have run on one tick. -/
structure Votes where
  buy_votes : Int
  sell_votes : Int
  mask : Nat
deriving DecidableEq

/-- Lines 146 to 161 of `TradeEngine::process`: the four signal calls on the
updated window `hist`, each setting its bit of `mask` when it returns true.
`volSignal` is the value of `ENABLE_VOL_SIGNAL`. -/
def castVotes (sqrt : ℚ → ℚ) (volSignal : Bool) (tick : MarketData)
    (hist : PriceHistory 32) : Votes :=
  let r1 := signal1 tick 0 0
  let mask1 : Nat := if r1.fired then 0 ||| (1 <<< 0) else 0
  let r2 := signal2 tick r1.buy r1.sell hist
  let mask2 : Nat := if r2.fired then mask1 ||| (1 <<< 1) else mask1
  let r3 := signal3 tick r2.buy r2.sell hist
  let mask3 : Nat := if r3.fired then mask2 ||| (1 <<< 2) else mask2
  if volSignal then
    let r4 := signal4_vol_breakout sqrt tick r3.buy r3.sell hist
    let mask4 : Nat := if r4.fired then mask3 ||| (1 <<< 3) else mask3
    ⟨r4.buy, r4.sell, mask4⟩
  else ⟨r3.buy, r3.sell, mask3⟩

/-- Lines 173 and 174: the attribution loop over `s = 0, 1, 2, 3`. -/
def bumpCounts (mask : Nat) (counts : List Nat) : List Nat :=
  (List.range 4).foldl
    (fun c s => if mask &&& (1 <<< s) ≠ 0 then c.set s (c.getD s 0 + 1) else c) counts

/-- The mutable members of `class TradeEngine` together with the feed it
refers to. -/
structure TradeEngine where
  market_data : List MarketData
  orders : List Order
  latencies : List Int
  price_hist : List (PriceHistory 32)
  per_signal_counts : List Nat
deriving DecidableEq

namespace TradeEngine

/-- The constructor `TradeEngine(feed, n_instruments)`, for a non-negative
`n_instruments`; the two `reserve` calls do not change the contents of the
vectors.  The constructor does not look at the ids of the feed. -/
def new (feed : List MarketData) (n_instruments : Nat) : TradeEngine :=
  { market_data := feed
    orders := []
    latencies := []
    price_hist := List.replicate n_instruments {}
    per_signal_counts := [0, 0, 0, 0] }

/-- Lines 142 and 143: the window of the tick's instrument after `add`. -/
def updatedWindow (e : TradeEngine) (tick : MarketData) : PriceHistory 32 :=
  (e.price_hist.getD tick.instrument_id.toNat {}).add tick.price

/-- Lines 164 to 167: the order built for a tick that received the votes `v`,
`now` being the value of `Clock::now()`.  The test `tick.instrument_id & 1`
is non-zero exactly when the id is odd, here `tick.instrument_id % 2 ≠ 0`. -/
def makeOrder (now : Int) (tick : MarketData) (v : Votes) : Order :=
  let is_buy : Bool :=
    decide (v.buy_votes > v.sell_votes) ||
      (decide (v.buy_votes = v.sell_votes) && decide (tick.instrument_id % 2 ≠ 0))
  let px := tick.price + (if is_buy then 0.01 else -0.01)
  ⟨tick.instrument_id, px, is_buy, v.mask, now⟩

/-- The body of the loop of `TradeEngine::process` for one tick, with `now`
the value `Clock::now()` returns on line 165.  An instrument id without a
window is an out-of-bounds access in the source and gives `none`. -/
def processTick (sqrt : ℚ → ℚ) (volSignal : Bool) (now : Int) (e : TradeEngine)
    (tick : MarketData) : Option TradeEngine :=
  if tick.instrument_id < 0 ∨ (e.price_hist.length : Int) ≤ tick.instrument_id then none
  else
    let hist := e.updatedWindow tick
    let e1 := { e with price_hist := e.price_hist.set tick.instrument_id.toNat hist }
    let v := castVotes sqrt volSignal tick hist
    if v.buy_votes ≠ 0 ∨ v.sell_votes ≠ 0 then
      some { e1 with
        orders := e1.orders ++ [makeOrder now tick v]
        latencies := e1.latencies ++ [now - tick.timestamp]
        per_signal_counts := bumpCounts v.mask e1.per_signal_counts }
    else some e1

/-- The loop of `TradeEngine::process` over the ticks that remain, `i` being
the position of the first of them in the feed. -/
def processFrom (sqrt : ℚ → ℚ) (volSignal : Bool) (clock : Nat → Int) :
    Nat → TradeEngine → List MarketData → Option TradeEngine
  | _, e, [] => some e
  | i, e, tick :: rest =>
    match processTick sqrt volSignal (clock i) e tick with
    | none => none
    | some e1 => processFrom sqrt volSignal clock (i + 1) e1 rest

/-- `TradeEngine::process`. -/
def process (sqrt : ℚ → ℚ) (volSignal : Bool) (clock : Nat → Int) (e : TradeEngine) :
    Option TradeEngine :=
  processFrom sqrt volSignal clock 0 e e.market_data

end TradeEngine

/-! ## Reference notions used to state the properties -/

/-- The last `C` elements of a list (all of it when it is shorter). -/
def lastN (C : Nat) (xs : List ℚ) : List ℚ := xs.drop (xs.length - C)

/-- Arithmetic mean by direct summation. -/
def mean (xs : List ℚ) : ℚ := xs.sum / (xs.length : ℚ)

/-- Population variance by direct summation: the mean squared deviation from
the mean. -/
def popVariance (xs : List ℚ) : ℚ :=
  (xs.map (fun x => (x - mean xs) ^ 2)).sum / (xs.length : ℚ)

/-- Population standard deviation: the square root of the population
variance. -/
def popStddev (sqrt : ℚ → ℚ) (xs : List ℚ) : ℚ := sqrt (popVariance xs)

namespace PriceHistory

/-- The ring invariant: `h` is a window of capacity `CAP` into which exactly
the prices `xs` have been inserted, oldest first. -/
structure Tracks {CAP : Nat} (h : PriceHistory CAP) (xs : List ℚ) : Prop where
  len : h.buf.length = CAP
  size_eq : h.size = min xs.length CAP
  head_eq : h.head = xs.length % CAP
  slot : ∀ j, j < xs.length → xs.length ≤ j + CAP → h.buf[j % CAP]? = xs[j]?
  sum_eq : h.sum = (lastN CAP xs).sum
  sumsq_eq : h.sumsq = ((lastN CAP xs).map (fun x => x * x)).sum

end PriceHistory

/-- A tick of the feed together with its position and the votes it received. -/
structure TickVotes where
  pos : Nat
  tick : MarketData
  votes : Votes
deriving DecidableEq

/-- The votes every tick of a feed receives, in arrival order, when the feed is
played from position `k` against the windows `hists`: each tick is inserted
into the window of its instrument and the signals run on the updated window. -/
def voteTrace (sqrt : ℚ → ℚ) (volSignal : Bool) :
    Nat → List (PriceHistory 32) → List MarketData → List TickVotes
  | _, _, [] => []
  | k, hists, tick :: rest =>
    let hist := (hists.getD tick.instrument_id.toNat {}).add tick.price
    ⟨k, tick, castVotes sqrt volSignal tick hist⟩ ::
      voteTrace sqrt volSignal (k + 1) (hists.set tick.instrument_id.toNat hist) rest

/-- The ticks of a trace that received at least one vote. -/
def votedTicks (trace : List TickVotes) : List TickVotes :=
  trace.filter (fun r => decide (1 ≤ r.votes.buy_votes + r.votes.sell_votes))

/-! ## Concrete inputs -/

/-- A window holding five samples, all equal to 100. -/
def fiveSampleWindow : PriceHistory 32 :=
  PriceHistory.addAll {} [100, 100, 100, 100, 100]

/-- A window holding five samples, all equal to -100. -/
def negativeMeanWindow : PriceHistory 32 :=
  PriceHistory.addAll {} [-100, -100, -100, -100, -100]

/-- A tick priced -100. -/
def negativeMeanTick : MarketData := ⟨0, -100, 0⟩

/-- The fifth price of a feed on which rounding decides the vote of
`signal2`: the `double` `0x1.b0f4898d5f85cp+6`, about 108.2388. -/
def boundaryPrice : ℚ := 1904157211852311 / 2 ^ 44

/-- Four prices of 111 followed by `boundaryPrice`. -/
def boundaryPrices : List ℚ := [111, 111, 111, 111, boundaryPrice]

/-- The end-to-end feed: three falling prices for instrument 0, observed at
`t0`, `t1`, `t2`. -/
def scenarioFeed (t0 t1 t2 : Int) : List MarketData :=
  [⟨0, 104.0, t0⟩, ⟨0, 103.0, t1⟩, ⟨0, 102.0, t2⟩]

/-- Twelve prices with mean 150 and population variance 4 whose last move is
from 148 up to 152. -/
def breakoutPrices : List ℚ := [152, 152, 152, 152, 152, 148, 148, 148, 148, 148, 148, 152]

/-- The feed that offers `breakoutPrices` for instrument 0. -/
def breakoutFeed : List MarketData := breakoutPrices.map (fun p => ⟨0, p, 0⟩)

namespace TradeEngine

/-- An engine with two instruments whose windows both hold 104.0 and 103.0. -/
def twoSampleEngine : TradeEngine :=
  { market_data := []
    orders := []
    latencies := []
    price_hist := [PriceHistory.addAll {} [104.0, 103.0], PriceHistory.addAll {} [104.0, 103.0]]
    per_signal_counts := [0, 0, 0, 0] }

/-- An engine whose only window holds the first eleven of `breakoutPrices`. -/
def elevenSampleEngine : TradeEngine :=
  { market_data := breakoutFeed
    orders := []
    latencies := []
    price_hist := [PriceHistory.addAll {} (breakoutPrices.take 11)]
    per_signal_counts := [0, 0, 0, 0] }

end TradeEngine

/-- A feed whose second tick names instrument 5 although only instrument 0
has a window. -/
def strayIdFeed : List MarketData := [⟨0, 104.0, 0⟩, ⟨5, 100.0, 0⟩]

/-- What the claim about instrument isolation compares of an order: price,
side and signal mask. -/
def decisionOf (o : Order) : ℚ × Bool × Nat := (o.price, o.is_buy, o.signal_mask)

/-- A feed that interleaves ticks of instruments 0 and 1. -/
def mixedFeed : List MarketData := [⟨0, 104.0, 0⟩, ⟨1, 200.0, 0⟩, ⟨0, 103.0, 0⟩]

/-! ## The percentile helper of `reportStats` -/

/-- The index `size_t(p * (sorted.size()-1))` of line 187 for a vector of `n`
elements: the element count less one is converted to `double`, the product is
rounded to a `double`, and the conversion to `size_t` drops the fractional
part.  `fl` is the rounding of an exact result to a `double`. -/
def pctIndex (fl : ℚ → ℚ) (p : ℚ) (n : Nat) : Nat :=
  (⌊fl (p * fl (((n - 1 : Nat)) : ℚ))⌋).toNat

/-- The lambda `pct` of `TradeEngine::reportStats` (lines 185 to 190).  It
captures the working copy `sorted` by reference, so the model takes the copy and
returns it together with the result.  `std::nth_element` is library code and is
passed in: `nth_element v idx` is the vector after
`nth_element(v.begin(), v.begin() + idx, v.end())`. -/
def pct (fl : ℚ → ℚ) (nth_element : List Int → Nat → List Int) (sorted : List Int) (p : ℚ) :
    Int × List Int :=
  if sorted.isEmpty then (0, sorted)
  else
    let idx := pctIndex fl p sorted.length
    let sorted1 := nth_element sorted idx
    (sorted1.getD idx 0, sorted1)

/-- Several calls of `pct` in a row on the same working copy, as on line 198:
the results in call order and the final state of the copy. -/
def pctCalls (fl : ℚ → ℚ) (nth_element : List Int → Nat → List Int) :
    List Int → List ℚ → List Int × List Int
  | sorted, [] => ([], sorted)
  | sorted, p :: ps =>
    let r := pct fl nth_element sorted p
    let rest := pctCalls fl nth_element r.2 ps
    (r.1 :: rest.1, rest.2)

/-- The samples in ascending order. -/
def ascending (l : List Int) : List Int := l.insertionSort (fun a b => a ≤ b)

/-- What the C++ standard promises of `std::nth_element` on a range of `long
long` for a position inside it: the range is permuted, and the element at the
position is the one a full sort would put there. -/
def NthElementSpec (nth_element : List Int → Nat → List Int) : Prop :=
  ∀ (l : List Int) (idx : Nat), idx < l.length →
    (nth_element l idx).Perm l ∧ (nth_element l idx)[idx]? = (ascending l)[idx]?

/-- One admissible `std::nth_element`: sort the whole range. -/
def nthElementBySorting (l : List Int) (_idx : Nat) : List Int := ascending l

end HftSim

/-!
# Dense linear-algebra kernels of `proj_1/main.cpp`

Arrays reached through `double*` are lists of rationals (exact arithmetic), a
null pointer is `none`.  A function that writes through its last pointer
returns the array behind that pointer after the call.  Reading outside an array
is undefined behaviour in the source and yields 0 here; writing outside leaves
the array as it is.  Dimensions are natural numbers: a non-positive `int`
dimension runs no iteration of its loop.  Index arithmetic is done in `size_t`
in the source and does not wrap for arrays that fit in memory, so it is done in
the naturals here.
-/

namespace MatMul

/-- `idx_row`: position of entry `(i, j)` in a row-major array with `cols`
columns. -/
def idx_row (i j cols : Nat) : Nat := i * cols + j

/-- `idx_col`: position of entry `(i, j)` in a column-major array with `rows`
rows. -/
def idx_col (i j rows : Nat) : Nat := j * rows + i

/-- `multiply_mv_row_major`. -/
def multiply_mv_row_major (matrix : Option (List ℚ)) (rows cols : Nat)
    (vec res : Option (List ℚ)) : Option (List ℚ) :=
  match matrix, vec, res with
  | some matrix, some vec, some res =>
    some ((List.range rows).foldl
      (fun res i =>
        let sum := (List.range cols).foldl
          (fun sum j => sum + matrix.getD (i * cols + j) 0 * vec.getD j 0) 0
        res.set i sum)
      res)
  | _, _, _ => res

/-- `multiply_mv_col_major`. -/
def multiply_mv_col_major (matrix : Option (List ℚ)) (rows cols : Nat)
    (vec res : Option (List ℚ)) : Option (List ℚ) :=
  match matrix, vec, res with
  | some matrix, some vec, some res =>
    let res0 := (List.range rows).foldl (fun res i => res.set i 0) res
    some ((List.range cols).foldl
      (fun res j =>
        let vj := vec.getD j 0
        (List.range rows).foldl
          (fun res i => res.set i (res.getD i 0 + matrix.getD (j * rows + i) 0 * vj)) res)
      res0)
  | _, _, _ => res

/-- `multiply_mm_naive`. -/
def multiply_mm_naive (A : Option (List ℚ)) (rA cA : Nat) (B : Option (List ℚ))
    (rB cB : Nat) (C : Option (List ℚ)) : Option (List ℚ) :=
  match A, B, C with
  | some A, some B, some C =>
    if cA ≠ rB then some C
    else
      some ((List.range rA).foldl
        (fun C i =>
          (List.range cB).foldl
            (fun C j =>
              let sum := (List.range cA).foldl
                (fun sum k => sum + A.getD (idx_row i k cA) 0 * B.getD (idx_row k j cB) 0) 0
              C.set (idx_row i j cB) sum)
            C)
        C)
  | _, _, _ => C

/-- `multiply_mm_transposed_b`. -/
def multiply_mm_transposed_b (A : Option (List ℚ)) (rA cA : Nat) (BT : Option (List ℚ))
    (rB cB : Nat) (C : Option (List ℚ)) : Option (List ℚ) :=
  match A, BT, C with
  | some A, some BT, some C =>
    if cA ≠ rB then some C
    else
      some ((List.range rA).foldl
        (fun C i =>
          (List.range cB).foldl
            (fun C j =>
              let sum := (List.range cA).foldl
                (fun sum k => sum + A.getD (i * cA + k) 0 * BT.getD (j * rB + k) 0) 0
              C.set (idx_row i j cB) sum)
            C)
        C)
  | _, _, _ => C

/-- The transpose loop of `test_small` (lines 176 to 179): the row-major
transpose of the `rB × cB` matrix `B`. -/
def transposeRowMajor (B : List ℚ) (rB cB : Nat) : List ℚ :=
  (List.range rB).foldl
    (fun BT i =>
      (List.range cB).foldl (fun BT j => BT.set (idx_row j i rB) (B.getD (idx_row i j cB) 0)) BT)
    (List.replicate (cB * rB) 0)

end MatMul

/-! # Matrix sums (`src/assign_1/assign1.cpp`)

`int` and `long long` values are integers; a signed addition or multiplication
whose result does not fit its type is undefined behaviour and yields `none`, as
does a read outside a vector.  `SIZE` is a parameter, pointers are indices
into the vector they point into. -/

namespace MatSum

/-- Signed addition in a `w`-bit type; `none` on overflow. -/
def checkedAdd (w : Nat) (a b : Int) : Option Int :=
  if -(2 : Int) ^ (w - 1) ≤ a + b ∧ a + b < (2 : Int) ^ (w - 1) then some (a + b) else none

/-- The conversion of a `long long` to `int`: reduction modulo `2^32` into the
range of `int`. -/
def toInt (x : Int) : Int := (x + 2 ^ 31) % 2 ^ 32 - 2 ^ 31

/-- `getElement`: `m[r][c]`. -/
def getElement (m : List (List Int)) (r c : Nat) : Option Int :=
  (m[r]?).bind fun row => row[c]?

/-- `add`: the sum of two `int`s, as an `int`. -/
def add (a b : Int) : Option Int := checkedAdd 32 a b

/-- `sumMatrixBasic`: `sum = add(sum, getElement(matrix, i, j))`, where the
`long long` sum is converted to `int` on the way in. -/
def sumMatrixBasic (SIZE : Nat) (matrix : List (List Int)) : Option Int :=
  (List.range SIZE).foldlM
    (fun sum i =>
      (List.range SIZE).foldlM
        (fun sum j => (getElement matrix i j).bind fun e => add (toInt sum) e)
        sum)
    0

/-- The `int` expression `p[0] + p[1] + ... + p[n-1]` of an unrolled loop body,
with `p` at index `pos`, added from left to right. -/
def unrolledSum (p : List Int) (pos n : Nat) : Option Int :=
  (p[pos]?).bind fun first =>
    (List.range' (pos + 1) (n - 1)).foldlM
      (fun acc k => (p[k]?).bind fun e => checkedAdd 32 acc e)
      first

/-- The unrolled loop `for (; pos + (n-1) < stop; pos += n) sum += p[0] + ... + p[n-1];`
with a `long long` sum: the index and the sum on exit. -/
def unrolledLoop (n stop : Nat) (p : List Int) (pos : Nat) (sum : Int) : Option (Nat × Int) :=
  if _h : pos + (n - 1) < stop ∧ 0 < n then
    match unrolledSum p pos n with
    | none => none
    | some s =>
      match checkedAdd 64 sum s with
      | none => none
      | some sum1 => unrolledLoop n stop p (pos + n) sum1
  else some (pos, sum)
termination_by stop - pos
decreasing_by omega

/-- The clean-up loop `for (; pos < stop; ++pos) sum += *p++;`. -/
def tailLoop (stop : Nat) (p : List Int) (pos : Nat) (sum : Int) : Option Int :=
  (List.range' pos (stop - pos)).foldlM
    (fun sum k => (p[k]?).bind fun e => checkedAdd 64 sum e)
    sum

/-- `sumMatrixOptimizedRows`: per row, blocks of 8 and then the rest. -/
def sumMatrixOptimizedRows (SIZE : Nat) (matrix : List (List Int)) : Option Int :=
  (List.range SIZE).foldlM
    (fun sum i =>
      (matrix[i]?).bind fun p =>
        (unrolledLoop 8 SIZE p 0 sum).bind fun r => tailLoop SIZE p r.1 r.2)
    0

/-- `sumMatrixOptimizedFlat`: `end = p + SIZE * SIZE` with the product taken in
`int`, blocks of 16 and then the rest. -/
def sumMatrixOptimizedFlat (SIZE : Nat) (flat : List Int) : Option Int :=
  if SIZE * SIZE < 2 ^ 31 then
    (unrolledLoop 16 (SIZE * SIZE) flat 0 0).bind fun r => tailLoop (SIZE * SIZE) flat r.1 r.2
  else none

/-- `build2DFromFlat`: row `i` is the copy of `flat[i*SIZE .. i*SIZE + SIZE)`. -/
def build2DFromFlat (SIZE : Nat) (flat : List Int) : List (List Int) :=
  (List.range SIZE).map fun i => (flat.drop (i * SIZE)).take SIZE

/-- A 9 × 9 matrix with entries between -100 and 100; 9 is a multiple neither
of 8 nor, squared, of 16, so both loops of each unrolled version run. -/
def sampleMatrix : List (List Int) :=
  (List.range 9).map fun i =>
    (List.range 9).map fun j => ((((i * 9 + j) * 37 % 201 : Nat) : Int) - 100)

/-- The row-major flattening of `sampleMatrix`. -/
def sampleFlat : List Int :=
  (List.range 81).map fun k => (((k * 37 % 201 : Nat) : Int) - 100)

end MatSum

namespace HftSim

/-- The number of set bits among bits 0 to 3 of a mask. -/
def setBits (mask : Nat) : Nat :=
  (List.range 4).countP (fun s => decide (mask &&& (1 <<< s) ≠ 0))

/-- The mask `process` builds from the four return values of the signals
(lines 147 to 161); the fourth flag is false when the volatility signal is
compiled out. -/
def maskOf (f1 f2 f3 f4 : Bool) : Nat :=
  let mask1 : Nat := if f1 then 0 ||| (1 <<< 0) else 0
  let mask2 : Nat := if f2 then mask1 ||| (1 <<< 1) else mask1
  let mask3 : Nat := if f3 then mask2 ||| (1 <<< 2) else mask2
  if f4 then mask3 ||| (1 <<< 3) else mask3

/-! ## The rolling window tracks the inserted prices -/

namespace PriceHistory

variable {CAP : Nat}

theorem tracks_empty : Tracks ({} : PriceHistory CAP) [] where
  len := by simp
  size_eq := by simp
  head_eq := by simp
  slot := by intro j hj; simp at hj
  sum_eq := by simp [lastN]
  sumsq_eq := by simp [lastN]

theorem mod_ne_of_lt_of_lt {C j n : Nat} (hjn : j < n) (hn : n < j + C) : n % C ≠ j % C := by
  intro h
  have h1 : (n - j) % C = 0 := Nat.sub_mod_eq_zero_of_mod_eq h
  have h2 : (n - j) % C = n - j := Nat.mod_eq_of_lt (by omega)
  omega

theorem lastN_concat_of_lt {C : Nat} {xs : List ℚ} (x : ℚ) (h : xs.length < C) :
    lastN C (xs ++ [x]) = lastN C xs ++ [x] := by
  have h1 : (xs ++ [x]).length - C = 0 := by simp; omega
  have h2 : xs.length - C = 0 := by omega
  unfold lastN
  rw [h1, h2]; simp

theorem lastN_concat_of_le {C : Nat} {xs : List ℚ} (x : ℚ) (hC : 0 < C) (h : C ≤ xs.length) :
    ∃ old, xs[xs.length - C]? = some old ∧ lastN C xs = old :: List.drop (xs.length - C + 1) xs ∧
      lastN C (xs ++ [x]) = List.drop (xs.length - C + 1) xs ++ [x] := by
  have hlt : xs.length - C < xs.length := by omega
  refine ⟨xs[xs.length - C], List.getElem?_eq_getElem hlt, ?_, ?_⟩
  · exact List.drop_eq_getElem_cons hlt
  · have h1 : (xs ++ [x]).length - C = xs.length - C + 1 := by simp; omega
    unfold lastN
    rw [h1, List.drop_append_of_le_length (by omega)]

theorem tracks_add {h : PriceHistory CAP} {xs : List ℚ} (hC : 0 < CAP) (ht : Tracks h xs)
    (x : ℚ) : Tracks (h.add x) (xs ++ [x]) := by
  have hhead : h.head < h.buf.length := by rw [ht.len, ht.head_eq]; exact Nat.mod_lt _ hC
  have hslot : ∀ j, j < (xs ++ [x]).length → (xs ++ [x]).length ≤ j + CAP →
      (h.buf.set h.head x)[j % CAP]? = (xs ++ [x])[j]? := by
    intro j hj hjc
    simp only [List.length_append, List.length_singleton] at hj hjc
    rcases Nat.lt_or_ge j xs.length with hlt | hge
    · have hne : h.head ≠ j % CAP := by
        rw [ht.head_eq]; exact mod_ne_of_lt_of_lt hlt (by omega)
      rw [List.getElem?_set_ne hne, List.getElem?_append_left hlt]
      exact ht.slot j hlt (by omega)
    · have hj' : j = xs.length := by omega
      subst hj'
      rw [← ht.head_eq, List.getElem?_set_self hhead, List.getElem?_concat_length]
  by_cases hs : h.size < CAP
  · have hn : xs.length < CAP := by
      have := ht.size_eq
      rcases Nat.lt_or_ge xs.length CAP with h1 | h1
      · exact h1
      · rw [Nat.min_eq_right h1] at this; omega
    have hadd : h.add x =
        ⟨h.buf.set h.head x, h.size + 1, (h.head + 1) % CAP, h.sum + x, h.sumsq + x * x⟩ := by
      simp [add, hs]
    rw [hadd]
    constructor
    · simp [ht.len]
    · simp only [List.length_append, List.length_singleton]
      rw [ht.size_eq, Nat.min_eq_left (by omega), Nat.min_eq_left (by omega)]
    · simp only [List.length_append, List.length_singleton]
      rw [ht.head_eq, Nat.mod_add_mod]
    · exact hslot
    · simp [lastN_concat_of_lt x hn, ht.sum_eq]
    · simp [lastN_concat_of_lt x hn, ht.sumsq_eq]
  · have hn : CAP ≤ xs.length := by
      have := ht.size_eq
      rcases Nat.lt_or_ge xs.length CAP with h1 | h1
      · rw [Nat.min_eq_left (by omega)] at this; omega
      · exact h1
    obtain ⟨old, hold, hl1, hl2⟩ := lastN_concat_of_le x hC hn
    have hget : h.buf.getD h.head 0 = old := by
      have h1 := ht.slot (xs.length - CAP) (by omega) (by omega)
      have h2 : (xs.length - CAP) % CAP = h.head := by
        rw [ht.head_eq]
        conv_rhs => rw [← Nat.sub_add_cancel hn, Nat.add_mod_right]
      rw [h2, hold] at h1
      rw [List.getD_eq_getElem?_getD, h1]; rfl
    have hadd : h.add x = ⟨h.buf.set h.head x, h.size, (h.head + 1) % CAP, h.sum - old + x,
        h.sumsq - old * old + x * x⟩ := by
      unfold add
      rw [if_neg hs]
      simp only [hget]
    rw [hadd]
    constructor
    · simp [ht.len]
    · simp only [List.length_append, List.length_singleton]
      rw [ht.size_eq, Nat.min_eq_right (by omega), Nat.min_eq_right (by omega)]
    · simp only [List.length_append, List.length_singleton]
      rw [ht.head_eq, Nat.mod_add_mod]
    · exact hslot
    · simp only [ht.sum_eq, hl1, hl2, List.sum_append, List.sum_cons, List.sum_singleton,
        List.sum_nil]
      ring
    · simp only [ht.sumsq_eq, hl1, hl2, List.map_append, List.map_cons, List.sum_append,
        List.sum_cons, List.map_nil, List.sum_nil]
      ring

theorem tracks_addAll {h : PriceHistory CAP} {xs : List ℚ} (hC : 0 < CAP) (ht : Tracks h xs)
    (ys : List ℚ) : Tracks (h.addAll ys) (xs ++ ys) := by
  induction ys generalizing h xs with
  | nil => simpa [addAll] using ht
  | cons y ys ih =>
    have := ih (tracks_add hC ht y)
    simpa [addAll] using this

theorem tracks_of_empty (hC : 0 < CAP) (xs : List ℚ) :
    Tracks (addAll ({} : PriceHistory CAP) xs) xs := by
  simpa using tracks_addAll hC tracks_empty xs


theorem back_index {C n k : Nat} (hkn : k ≤ n) (hkC : k ≤ C) :
    (n % C + C - k) % C = (n - k) % C := by
  have h : (n % C + C - k) + k ≡ (n - k) + k [MOD C] := by
    rw [Nat.sub_add_cancel hkn, Nat.sub_add_cancel (by omega)]
    show (n % C + C) % C = n % C
    rw [Nat.add_mod_right, Nat.mod_mod]
  exact Nat.ModEq.add_right_cancel' k h

theorem getD_back {h : PriceHistory CAP} {xs : List ℚ} (ht : Tracks h xs) (k : Nat)
    (hk0 : 0 < k) (hkn : k ≤ xs.length) (hkC : k ≤ CAP) :
    h.buf.getD ((h.head + CAP - k) % CAP) 0 = xs.getD (xs.length - k) 0 := by
  rw [ht.head_eq, back_index hkn hkC, List.getD_eq_getElem?_getD, List.getD_eq_getElem?_getD,
    ht.slot (xs.length - k) (by omega) (by omega)]

theorem last3_of_tracks {h : PriceHistory CAP} {pre : List ℚ} {a b c : ℚ} (hC : 3 ≤ CAP)
    (ht : Tracks h (pre ++ [a, b, c])) : h.last3 = some (a, b, c) := by
  have hsz : ¬ h.size < 3 := by
    rw [ht.size_eq]; simp; omega
  have hlen : (pre ++ [a, b, c]).length = pre.length + 3 := by simp
  have e3 := getD_back ht 3 (by omega) (by omega) hC
  have e2 := getD_back ht 2 (by omega) (by omega) (by omega)
  have e1 := getD_back ht 1 (by omega) (by omega) (by omega)
  rw [hlen] at e1 e2 e3
  simp only [Nat.add_sub_cancel, show pre.length + 3 - 2 = pre.length + 1 by omega,
    show pre.length + 3 - 1 = pre.length + 2 by omega] at e1 e2 e3
  have r3 : (pre ++ [a, b, c]).getD pre.length 0 = a := by
    rw [List.getD_eq_getElem?_getD, List.getElem?_append_right (le_refl _)]; simp
  have r2 : (pre ++ [a, b, c]).getD (pre.length + 1) 0 = b := by
    rw [List.getD_eq_getElem?_getD, List.getElem?_append_right (by omega)]; simp
  have r1 : (pre ++ [a, b, c]).getD (pre.length + 2) 0 = c := by
    rw [List.getD_eq_getElem?_getD, List.getElem?_append_right (by omega)]; simp
  unfold last3
  rw [if_neg hsz]
  simp only [e1, e2, e3, r1, r2, r3]

theorem sum_sq_dev (l : List ℚ) (m : ℚ) :
    (l.map (fun x => (x - m) ^ 2)).sum =
      (l.map (fun x => x * x)).sum - 2 * m * l.sum + (l.length : ℚ) * m ^ 2 := by
  induction l with
  | nil => simp
  | cons a l ih => simp only [List.map_cons, List.sum_cons, List.length_cons, ih]; push_cast; ring

theorem popVariance_eq (l : List ℚ) :
    popVariance l =
      (l.map (fun x => x * x)).sum / (l.length : ℚ) - (l.sum / (l.length : ℚ)) * (l.sum / (l.length : ℚ)) := by
  unfold popVariance mean
  rw [sum_sq_dev]
  by_cases h : (l.length : ℚ) = 0
  · simp [h]
  · field_simp
    ring

theorem popVariance_nonneg (l : List ℚ) : 0 ≤ popVariance l := by
  unfold popVariance
  apply div_nonneg
  · apply List.sum_nonneg
    intro y hy
    obtain ⟨x, -, rfl⟩ := List.mem_map.1 hy
    positivity
  · positivity

theorem popVariance_short (l : List ℚ) (h : l.length < 2) : popVariance l = 0 := by
  match l, h with
  | [], _ => simp [popVariance]
  | [a], _ => simp [popVariance, mean]

theorem length_lastN (C : Nat) (xs : List ℚ) : (lastN C xs).length = min xs.length C := by
  simp [lastN]; omega

theorem size_of_tracks {h : PriceHistory CAP} {xs : List ℚ} (ht : Tracks h xs) :
    h.size = (lastN CAP xs).length := by
  rw [ht.size_eq, length_lastN]

theorem avg_of_tracks {h : PriceHistory CAP} {xs : List ℚ} (ht : Tracks h xs) :
    h.avg = mean (lastN CAP xs) := by
  unfold avg mean
  rw [size_of_tracks ht, ht.sum_eq]
  by_cases h0 : (lastN CAP xs).length = 0
  · simp [h0]
  · simp [h0]

theorem stddev_of_tracks {h : PriceHistory CAP} {xs : List ℚ} (sqrt : ℚ → ℚ)
    (hsqrt : sqrt 0 = 0) (ht : Tracks h xs) :
    h.stddev sqrt = popStddev sqrt (lastN CAP xs) := by
  have hvar : h.sumsq / (h.size : ℚ) - h.avg * h.avg = popVariance (lastN CAP xs) := by
    rw [popVariance_eq, avg_of_tracks ht, size_of_tracks ht, ht.sumsq_eq]; rfl
  unfold stddev popStddev
  simp only [hvar]
  by_cases h2 : h.size < 2
  · rw [if_pos h2, popVariance_short _ (by rw [← size_of_tracks ht]; exact h2), hsqrt]
  · rw [if_neg h2]
    by_cases hp : popVariance (lastN CAP xs) > 0
    · rw [if_pos hp]
    · rw [if_neg hp]
      have : popVariance (lastN CAP xs) = 0 :=
        le_antisymm (not_lt.1 hp) (popVariance_nonneg _)
      rw [this, hsqrt]

end PriceHistory

/-! ## Votes and the per-tick step -/

theorem signal1_mono (tick : MarketData) (b s : Int) :
    b ≤ (signal1 tick b s).buy ∧ s ≤ (signal1 tick b s).sell := by
  unfold signal1; split_ifs <;> simp

theorem signal2_mono (tick : MarketData) (b s : Int) (hist : PriceHistory 32) :
    b ≤ (signal2 tick b s hist).buy ∧ s ≤ (signal2 tick b s hist).sell := by
  unfold signal2; simp only; split_ifs <;> simp

theorem signal3_mono (tick : MarketData) (b s : Int) (hist : PriceHistory 32) :
    b ≤ (signal3 tick b s hist).buy ∧ s ≤ (signal3 tick b s hist).sell := by
  unfold signal3
  split
  · simp
  · simp only; split_ifs <;> simp

theorem signal4_mono (sqrt : ℚ → ℚ) (tick : MarketData) (b s : Int) (hist : PriceHistory 32) :
    b ≤ (signal4_vol_breakout sqrt tick b s hist).buy ∧
      s ≤ (signal4_vol_breakout sqrt tick b s hist).sell := by
  unfold signal4_vol_breakout
  split_ifs
  · simp
  · split
    · simp
    · simp only; split_ifs <;> simp

theorem castVotes_nonneg (sqrt : ℚ → ℚ) (vol : Bool) (tick : MarketData)
    (hist : PriceHistory 32) :
    0 ≤ (castVotes sqrt vol tick hist).buy_votes ∧ 0 ≤ (castVotes sqrt vol tick hist).sell_votes := by
  have h1 := signal1_mono tick 0 0
  have h2 := signal2_mono tick (signal1 tick 0 0).buy (signal1 tick 0 0).sell hist
  have h3 := signal3_mono tick (signal2 tick (signal1 tick 0 0).buy (signal1 tick 0 0).sell hist).buy
    (signal2 tick (signal1 tick 0 0).buy (signal1 tick 0 0).sell hist).sell hist
  have h4 := signal4_mono sqrt tick
    (signal3 tick (signal2 tick (signal1 tick 0 0).buy (signal1 tick 0 0).sell hist).buy
      (signal2 tick (signal1 tick 0 0).buy (signal1 tick 0 0).sell hist).sell hist).buy
    (signal3 tick (signal2 tick (signal1 tick 0 0).buy (signal1 tick 0 0).sell hist).buy
      (signal2 tick (signal1 tick 0 0).buy (signal1 tick 0 0).sell hist).sell hist).sell hist
  unfold castVotes
  cases vol
  · simp only [Bool.false_eq_true, if_false]; omega
  · simp only [if_true]; omega

theorem voted_iff (sqrt : ℚ → ℚ) (vol : Bool) (tick : MarketData) (hist : PriceHistory 32) :
    ((castVotes sqrt vol tick hist).buy_votes ≠ 0 ∨ (castVotes sqrt vol tick hist).sell_votes ≠ 0) ↔
      1 ≤ (castVotes sqrt vol tick hist).buy_votes + (castVotes sqrt vol tick hist).sell_votes := by
  have := castVotes_nonneg sqrt vol tick hist
  omega

namespace TradeEngine

theorem processTick_eq (sqrt : ℚ → ℚ) (vol : Bool) (now : Int) (e : TradeEngine)
    (tick : MarketData) (hlo : 0 ≤ tick.instrument_id)
    (hhi : tick.instrument_id < (e.price_hist.length : Int)) :
    processTick sqrt vol now e tick =
      some (if 1 ≤ (castVotes sqrt vol tick (e.updatedWindow tick)).buy_votes +
              (castVotes sqrt vol tick (e.updatedWindow tick)).sell_votes then
          { market_data := e.market_data
            orders := e.orders ++ [makeOrder now tick (castVotes sqrt vol tick (e.updatedWindow tick))]
            latencies := e.latencies ++ [now - tick.timestamp]
            price_hist := e.price_hist.set tick.instrument_id.toNat (e.updatedWindow tick)
            per_signal_counts :=
              bumpCounts (castVotes sqrt vol tick (e.updatedWindow tick)).mask e.per_signal_counts }
        else { e with price_hist := e.price_hist.set tick.instrument_id.toNat (e.updatedWindow tick) }) := by
  have hr : ¬ (tick.instrument_id < 0 ∨ (e.price_hist.length : Int) ≤ tick.instrument_id) := by
    omega
  unfold processTick
  rw [if_neg hr]
  simp only
  by_cases hv : 1 ≤ (castVotes sqrt vol tick (e.updatedWindow tick)).buy_votes +
              (castVotes sqrt vol tick (e.updatedWindow tick)).sell_votes
  · rw [if_pos ((voted_iff sqrt vol tick _).2 hv), if_pos hv]
  · rw [if_neg (fun h => hv ((voted_iff sqrt vol tick _).1 h)), if_neg hv]


theorem processTick_spec (sqrt : ℚ → ℚ) (vol : Bool) (now : Int) (e : TradeEngine)
    (tick : MarketData) (hlo : 0 ≤ tick.instrument_id)
    (hhi : tick.instrument_id < (e.price_hist.length : Int)) :
    ∃ e1, processTick sqrt vol now e tick = some e1 ∧
      e1.price_hist = e.price_hist.set tick.instrument_id.toNat (e.updatedWindow tick) ∧
      e1.market_data = e.market_data ∧
      (1 ≤ (castVotes sqrt vol tick (e.updatedWindow tick)).buy_votes +
          (castVotes sqrt vol tick (e.updatedWindow tick)).sell_votes →
        e1.orders = e.orders ++ [makeOrder now tick (castVotes sqrt vol tick (e.updatedWindow tick))] ∧
        e1.latencies = e.latencies ++ [now - tick.timestamp] ∧
        e1.per_signal_counts =
          bumpCounts (castVotes sqrt vol tick (e.updatedWindow tick)).mask e.per_signal_counts) ∧
      (¬ 1 ≤ (castVotes sqrt vol tick (e.updatedWindow tick)).buy_votes +
          (castVotes sqrt vol tick (e.updatedWindow tick)).sell_votes →
        e1.orders = e.orders ∧ e1.latencies = e.latencies ∧
        e1.per_signal_counts = e.per_signal_counts) := by
  refine ⟨_, processTick_eq sqrt vol now e tick hlo hhi, ?_, ?_, ?_, ?_⟩
  · split_ifs <;> rfl
  · split_ifs <;> rfl
  · intro hv; rw [if_pos hv]; exact ⟨rfl, rfl, rfl⟩
  · intro hv; rw [if_neg hv]; exact ⟨rfl, rfl, rfl⟩

theorem votedTicks_cons (r : TickVotes) (tr : List TickVotes) :
    votedTicks (r :: tr) =
      if 1 ≤ r.votes.buy_votes + r.votes.sell_votes then r :: votedTicks tr else votedTicks tr := by
  unfold votedTicks
  by_cases h : 1 ≤ r.votes.buy_votes + r.votes.sell_votes
  · simp [List.filter_cons, h]
  · simp [List.filter_cons, h]

theorem processFrom_spec (sqrt : ℚ → ℚ) (vol : Bool) (clock : Nat → Int) :
    ∀ (ticks : List MarketData) (k : Nat) (e : TradeEngine),
      (∀ t ∈ ticks, 0 ≤ t.instrument_id ∧ t.instrument_id < (e.price_hist.length : Int)) →
      ∃ e', processFrom sqrt vol clock k e ticks = some e' ∧
        e'.orders = e.orders ++
          (votedTicks (voteTrace sqrt vol k e.price_hist ticks)).map
            (fun r => makeOrder (clock r.pos) r.tick r.votes) ∧
        e'.latencies = e.latencies ++
          (votedTicks (voteTrace sqrt vol k e.price_hist ticks)).map
            (fun r => clock r.pos - r.tick.timestamp) ∧
        e'.per_signal_counts =
          (votedTicks (voteTrace sqrt vol k e.price_hist ticks)).foldl
            (fun c r => bumpCounts r.votes.mask c) e.per_signal_counts ∧
        e'.market_data = e.market_data ∧
        e'.price_hist.length = e.price_hist.length := by
  intro ticks
  induction ticks with
  | nil =>
    intro k e _
    exact ⟨e, rfl, by simp [voteTrace, votedTicks], by simp [voteTrace, votedTicks],
      by simp [voteTrace, votedTicks], rfl, rfl⟩
  | cons t rest ih =>
    intro k e hids
    have ht := hids t (List.mem_cons_self _ _)
    obtain ⟨e1, hstep, hph, hmd, hyes, hno⟩ := processTick_spec sqrt vol (clock k) e t ht.1 ht.2
    have hlen : e1.price_hist.length = e.price_hist.length := by rw [hph, List.length_set]
    have hids1 : ∀ u ∈ rest, 0 ≤ u.instrument_id ∧
        u.instrument_id < (e1.price_hist.length : Int) := by
      intro u hu; rw [hlen]; exact hids u (List.mem_cons_of_mem _ hu)
    obtain ⟨e', hrun, hord, hlat, hcnt, hmd', hlen'⟩ := ih (k + 1) e1 hids1
    have htrace : voteTrace sqrt vol k e.price_hist (t :: rest) =
        ⟨k, t, castVotes sqrt vol t (e.updatedWindow t)⟩ ::
          voteTrace sqrt vol (k + 1) e1.price_hist rest := by
      rw [hph]; rfl
    refine ⟨e', ?_, ?_, ?_, ?_, hmd'.trans hmd, hlen'.trans hlen⟩
    · simp only [processFrom, hstep]; exact hrun
    all_goals
      rw [htrace, votedTicks_cons]
      by_cases hv : 1 ≤ (castVotes sqrt vol t (e.updatedWindow t)).buy_votes +
          (castVotes sqrt vol t (e.updatedWindow t)).sell_votes
      · obtain ⟨h1, h2, h3⟩ := hyes hv
        simp only [hv, if_true, List.map_cons, List.foldl_cons]
        first
          | rw [hord, h1, List.append_assoc]; rfl
          | rw [hlat, h2, List.append_assoc]; rfl
          | rw [hcnt, h3]
      · obtain ⟨h1, h2, h3⟩ := hno hv
        simp only [hv, if_false]
        first
          | rw [hord, h1]
          | rw [hlat, h2]
          | rw [hcnt, h3]

end TradeEngine

/-! ## Rounding to `double` -/

theorem roundHalfEven_of_near (q : ℚ) (k : Int) (h1 : (k : ℚ) - 1 / 2 < q)
    (h2 : q < (k : ℚ) + 1 / 2) : roundHalfEven q = k := by
  unfold roundHalfEven
  by_cases hk : (k : ℚ) ≤ q
  · have hf : ⌊q⌋ = k := by
      rw [Int.floor_eq_iff]; exact ⟨hk, by linarith⟩
    rw [hf, if_pos (by linarith)]
  · have hf : ⌊q⌋ = k - 1 := by
      rw [Int.floor_eq_iff]; push_cast; exact ⟨by linarith, by linarith⟩
    rw [hf]
    push_cast
    rw [if_neg (by linarith), if_pos (by linarith)]
    ring

theorem roundHalfEven_tie_up (q : ℚ) (k : Int) (hq : q = (k : ℚ) - 1 / 2) (hk : k % 2 = 0) :
    roundHalfEven q = k := by
  unfold roundHalfEven
  have hf : ⌊q⌋ = k - 1 := by
    rw [Int.floor_eq_iff]; push_cast; exact ⟨by linarith, by linarith⟩
  rw [hf]
  push_cast
  rw [if_neg (by linarith), if_neg (by linarith), if_neg (by omega)]
  ring

theorem roundHalfEven_tie_down (q : ℚ) (k : Int) (hq : q = (k : ℚ) + 1 / 2) (hk : k % 2 = 0) :
    roundHalfEven q = k := by
  unfold roundHalfEven
  have hf : ⌊q⌋ = k := by
    rw [Int.floor_eq_iff]; exact ⟨by linarith, by linarith⟩
  rw [hf, if_neg (by linarith), if_neg (by linarith), if_pos hk]

theorem log_of_binade (x : ℚ) (e : Int) (hlo : (2 : ℚ) ^ e ≤ |x|) (hhi : |x| < (2 : ℚ) ^ (e + 1)) :
    Int.log 2 |x| = e := by
  have hpos : 0 < |x| := lt_of_lt_of_le (zpow_pos (by norm_num) e) hlo
  apply le_antisymm
  · have := (Int.lt_zpow_iff_log_lt (b := 2) (by norm_num) hpos (x := e + 1)).1
      (by exact_mod_cast hhi)
    omega
  · exact (Int.zpow_le_iff_le_log (b := 2) (by norm_num) hpos).1 (by exact_mod_cast hlo)

/-- How `roundDouble` is evaluated once the binade of `x` is known. -/
theorem roundDouble_eval (x : ℚ) (e k : Int) (hlo : (2 : ℚ) ^ e ≤ |x|)
    (hhi : |x| < (2 : ℚ) ^ (e + 1)) (hk : roundHalfEven (x / 2 ^ (e - 52)) = k) :
    roundDouble x = (k : ℚ) * 2 ^ (e - 52) := by
  have hpos : 0 < |x| := lt_of_lt_of_le (zpow_pos (by norm_num) e) hlo
  have hx : x ≠ 0 := abs_pos.1 hpos
  unfold roundDouble
  rw [if_neg hx]
  simp only [log_of_binade x e hlo hhi, hk]

theorem roundHalfEven_ge (q : ℚ) (a : Int) (h : (a : ℚ) ≤ q) : a ≤ roundHalfEven q := by
  have hf : a ≤ ⌊q⌋ := Int.le_floor.2 h
  unfold roundHalfEven
  split_ifs <;> omega

theorem roundHalfEven_le (q : ℚ) (b : Int) (h : q ≤ (b : ℚ)) : roundHalfEven q ≤ b := by
  have hfl : (⌊q⌋ : ℚ) ≤ q := Int.floor_le q
  have hf : ⌊q⌋ ≤ b := by exact_mod_cast le_trans hfl h
  rcases lt_or_eq_of_le hf with hlt | heq
  · unfold roundHalfEven
    split_ifs <;> omega
  · have hq : q = (b : ℚ) := by
      apply le_antisymm h
      rw [← heq]; exact hfl
    unfold roundHalfEven
    rw [hq, Int.floor_intCast, if_pos (by norm_num)]

/-- Rounding does not cross an integer: up to `2^53` every integer is a
`double`, so the rounded value of `x` lies between the floor and the ceiling
of `x`. -/
theorem roundDouble_between (x : ℚ) (h0 : 0 ≤ x) (h53 : x ≤ 2 ^ 53) :
    (⌊x⌋ : ℚ) ≤ roundDouble x ∧ roundDouble x ≤ (⌈x⌉ : ℚ) := by
  rcases eq_or_lt_of_le h0 with hx0 | hpos
  · rw [← hx0]; simp [roundDouble]
  have habs : |x| = x := abs_of_pos hpos
  have hlo : (2 : ℚ) ^ Int.log 2 x ≤ x := by
    exact_mod_cast Int.zpow_log_le_self (b := 2) (by norm_num) hpos
  have hhi : x < (2 : ℚ) ^ (Int.log 2 x + 1) := by
    exact_mod_cast Int.lt_zpow_succ_log_self (b := 2) (by norm_num) x
  have hfl : roundDouble x =
      (roundHalfEven (x / 2 ^ (Int.log 2 x - 52)) : ℚ) * 2 ^ (Int.log 2 x - 52) :=
    roundDouble_eval x (Int.log 2 x) _ (by rw [habs]; exact hlo) (by rw [habs]; exact hhi) rfl
  by_cases he : Int.log 2 x ≤ 52
  · obtain ⟨d, hd⟩ : ∃ d : Nat, Int.log 2 x - 52 = -(d : Int) :=
      ⟨(52 - Int.log 2 x).toNat, by omega⟩
    have hu : (2 : ℚ) ^ (Int.log 2 x - 52) = ((2 : ℚ) ^ d)⁻¹ := by
      rw [hd, zpow_neg, zpow_natCast]
    have hpow : (0 : ℚ) < 2 ^ d := pow_pos (by norm_num) d
    rw [hfl, hu, div_inv_eq_mul]
    constructor
    · have h1 : ((⌊x⌋ * 2 ^ d : Int) : ℚ) ≤ x * 2 ^ d := by
        push_cast
        exact mul_le_mul_of_nonneg_right (Int.floor_le x) hpow.le
      have h2 := roundHalfEven_ge _ _ h1
      have h3 : ((⌊x⌋ * 2 ^ d : Int) : ℚ) ≤ (roundHalfEven (x * 2 ^ d) : ℚ) := by
        exact_mod_cast h2
      push_cast at h3
      rw [le_mul_inv_iff₀ hpow]
      exact h3
    · have h1 : x * 2 ^ d ≤ ((⌈x⌉ * 2 ^ d : Int) : ℚ) := by
        push_cast
        exact mul_le_mul_of_nonneg_right (Int.le_ceil x) hpow.le
      have h2 := roundHalfEven_le _ _ h1
      have h3 : (roundHalfEven (x * 2 ^ d) : ℚ) ≤ ((⌈x⌉ * 2 ^ d : Int) : ℚ) := by
        exact_mod_cast h2
      push_cast at h3
      rw [mul_inv_le_iff₀ hpow]
      exact h3
  · have he53 : 53 ≤ Int.log 2 x := by omega
    have h2 : (2 : ℚ) ^ (53 : Int) ≤ 2 ^ Int.log 2 x := zpow_le_zpow_right₀ (by norm_num) he53
    have hx : x = 2 ^ 53 := by
      apply le_antisymm h53
      have : (2 : ℚ) ^ (53 : Int) = 2 ^ 53 := by norm_num
      linarith
    have hval : roundDouble x = 2 ^ 53 := by
      rw [hx, roundDouble_eval (2 ^ 53) 53 (2 ^ 52) (by norm_num [abs_of_pos])
        (by norm_num [abs_of_pos]) (roundHalfEven_of_near _ _ (by norm_num) (by norm_num))]
      norm_num
    rw [hval, hx]
    have hc : ((2 : ℚ) ^ 53) = ((2 ^ 53 : Int) : ℚ) := by norm_num
    rw [hc, Int.floor_intCast, Int.ceil_intCast]
    exact ⟨le_refl _, le_refl _⟩

theorem roundDouble_natCast (k : Nat) (hk : k ≤ 2 ^ 53) : roundDouble (k : ℚ) = k := by
  have h := roundDouble_between (k : ℚ) (Nat.cast_nonneg k) (by exact_mod_cast hk)
  have hi : (k : ℚ) = ((k : Int) : ℚ) := by push_cast; rfl
  rw [hi, Int.floor_intCast, Int.ceil_intCast] at h
  rw [hi]
  exact le_antisymm h.2 h.1

/-- A number with a 53-bit significand is a `double`: rounding leaves it as it
is. -/
theorem roundDouble_of_significand (m j : Int) (h1 : 2 ^ 52 ≤ |m|) (h2 : |m| < 2 ^ 53) :
    roundDouble ((m : ℚ) * 2 ^ j) = (m : ℚ) * 2 ^ j := by
  have hpow : (0 : ℚ) < 2 ^ j := zpow_pos (by norm_num) j
  have habs : |(m : ℚ) * 2 ^ j| = (|m| : ℚ) * 2 ^ j := by
    rw [abs_mul, abs_of_pos hpow]
  have h1q : (2 : ℚ) ^ 52 ≤ (|m| : ℚ) := by exact_mod_cast h1
  have h2q : (|m| : ℚ) < 2 ^ 53 := by exact_mod_cast h2
  have hsub : j + 52 - 52 = j := by omega
  rw [roundDouble_eval ((m : ℚ) * 2 ^ j) (j + 52) m ?_ ?_ ?_, hsub]
  · rw [habs, zpow_add₀ (by norm_num)]
    have : (2 : ℚ) ^ (52 : Int) = 2 ^ 52 := by norm_num
    rw [this, mul_comm]
    exact mul_le_mul_of_nonneg_right h1q hpow.le
  · rw [habs, show j + 52 + 1 = j + 53 by omega, zpow_add₀ (by norm_num)]
    have : (2 : ℚ) ^ (53 : Int) = 2 ^ 53 := by norm_num
    rw [this, mul_comm ((2 : ℚ) ^ j)]
    exact mul_lt_mul_of_pos_right h2q hpow
  · rw [hsub, mul_div_assoc, div_self hpow.ne', mul_one]
    exact roundHalfEven_of_near _ _ (by linarith) (by linarith)

theorem roundHalfEven_floor_le (q : ℚ) : ⌊q⌋ ≤ roundHalfEven q := by
  unfold roundHalfEven
  split_ifs <;> omega

theorem roundHalfEven_le_floor_succ (q : ℚ) : roundHalfEven q ≤ ⌊q⌋ + 1 := by
  unfold roundHalfEven
  split_ifs <;> omega

theorem roundHalfEven_mono {q1 q2 : ℚ} (h : q1 ≤ q2) : roundHalfEven q1 ≤ roundHalfEven q2 := by
  have hf : ⌊q1⌋ ≤ ⌊q2⌋ := Int.floor_le_floor h
  rcases lt_or_eq_of_le hf with hlt | heq
  · have h1 := roundHalfEven_le_floor_succ q1
    have h2 := roundHalfEven_floor_le q2
    omega
  · unfold roundHalfEven
    rw [← heq]
    split_ifs <;> first | omega | linarith

theorem roundHalfEven_neg (q : ℚ) : roundHalfEven (-q) = -roundHalfEven q := by
  by_cases hq : (⌊q⌋ : ℚ) = q
  · have hn : ⌊-q⌋ = -⌊q⌋ := by
      rw [← hq, ← Int.cast_neg, Int.floor_intCast, Int.floor_intCast]
    unfold roundHalfEven
    rw [hn]
    push_cast
    rw [if_pos (by rw [hq]; norm_num), if_pos (by rw [hq]; norm_num)]
  · have hlt : (⌊q⌋ : ℚ) < q := lt_of_le_of_ne (Int.floor_le q) hq
    have hlt2 : q < (⌊q⌋ : ℚ) + 1 := Int.lt_floor_add_one q
    have hn : ⌊-q⌋ = -⌊q⌋ - 1 := by
      rw [Int.floor_eq_iff]
      push_cast
      constructor <;> linarith
    unfold roundHalfEven
    rw [hn]
    push_cast
    split_ifs <;> first | omega | linarith

theorem roundDouble_neg (x : ℚ) : roundDouble (-x) = -roundDouble x := by
  unfold roundDouble
  by_cases hx : x = 0
  · simp [hx]
  · rw [if_neg hx, if_neg (neg_ne_zero.2 hx)]
    simp only [abs_neg, neg_div, roundHalfEven_neg]
    push_cast
    ring

theorem roundDouble_pos_bounds (x : ℚ) (hx : 0 < x) :
    (2 : ℚ) ^ Int.log 2 x ≤ roundDouble x ∧ roundDouble x ≤ (2 : ℚ) ^ (Int.log 2 x + 1) := by
  have habs : |x| = x := abs_of_pos hx
  have hlo : (2 : ℚ) ^ Int.log 2 x ≤ x := by
    exact_mod_cast Int.zpow_log_le_self (b := 2) (by norm_num) hx
  have hhi : x < (2 : ℚ) ^ (Int.log 2 x + 1) := by
    exact_mod_cast Int.lt_zpow_succ_log_self (b := 2) (by norm_num) x
  have hfl : roundDouble x =
      (roundHalfEven (x / 2 ^ (Int.log 2 x - 52)) : ℚ) * 2 ^ (Int.log 2 x - 52) :=
    roundDouble_eval x (Int.log 2 x) _ (by rw [habs]; exact hlo) (by rw [habs]; exact hhi) rfl
  have hu : (0 : ℚ) < 2 ^ (Int.log 2 x - 52) := zpow_pos (by norm_num) _
  have he1 : (2 : ℚ) ^ Int.log 2 x = 2 ^ 52 * 2 ^ (Int.log 2 x - 52) := by
    rw [← zpow_natCast, ← zpow_add₀ (by norm_num)]
    congr 1
    push_cast
    ring
  have he2 : (2 : ℚ) ^ (Int.log 2 x + 1) = 2 ^ 53 * 2 ^ (Int.log 2 x - 52) := by
    rw [← zpow_natCast, ← zpow_add₀ (by norm_num)]
    congr 1
    push_cast
    ring
  have c52 : (((2 ^ 52 : Int)) : ℚ) = 2 ^ 52 := by norm_cast
  have c53 : (((2 ^ 53 : Int)) : ℚ) = 2 ^ 53 := by norm_cast
  have hq1 : (((2 ^ 52 : Int)) : ℚ) ≤ x / 2 ^ (Int.log 2 x - 52) := by
    rw [le_div_iff₀ hu, c52, ← he1]
    exact hlo
  have hq2 : x / 2 ^ (Int.log 2 x - 52) ≤ (((2 ^ 53 : Int)) : ℚ) := by
    rw [div_le_iff₀ hu, c53, ← he2]
    exact hhi.le
  have h1 : (((2 ^ 52 : Int)) : ℚ) ≤ (roundHalfEven (x / 2 ^ (Int.log 2 x - 52)) : ℚ) :=
    Int.cast_le.2 (roundHalfEven_ge _ _ hq1)
  have h2 : (roundHalfEven (x / 2 ^ (Int.log 2 x - 52)) : ℚ) ≤ (((2 ^ 53 : Int)) : ℚ) :=
    Int.cast_le.2 (roundHalfEven_le _ _ hq2)
  rw [c52] at h1
  rw [c53] at h2
  rw [hfl, he1, he2]
  exact ⟨mul_le_mul_of_nonneg_right h1 hu.le, mul_le_mul_of_nonneg_right h2 hu.le⟩

theorem roundDouble_mono_pos (x y : ℚ) (hx : 0 < x) (hxy : x ≤ y) :
    roundDouble x ≤ roundDouble y := by
  have hy : 0 < y := lt_of_lt_of_le hx hxy
  have hlog : Int.log 2 x ≤ Int.log 2 y := Int.log_mono_right hx hxy
  rcases lt_or_eq_of_le hlog with hlt | heq
  · have h1 := (roundDouble_pos_bounds x hx).2
    have h2 := (roundDouble_pos_bounds y hy).1
    have h3 : (2 : ℚ) ^ (Int.log 2 x + 1) ≤ 2 ^ Int.log 2 y :=
      zpow_le_zpow_right₀ (by norm_num) (by omega)
    linarith
  · have hfx : roundDouble x =
        (roundHalfEven (x / 2 ^ (Int.log 2 x - 52)) : ℚ) * 2 ^ (Int.log 2 x - 52) := by
      unfold roundDouble
      rw [if_neg hx.ne', abs_of_pos hx]
    have hfy : roundDouble y =
        (roundHalfEven (y / 2 ^ (Int.log 2 y - 52)) : ℚ) * 2 ^ (Int.log 2 y - 52) := by
      unfold roundDouble
      rw [if_neg hy.ne', abs_of_pos hy]
    have hu : (0 : ℚ) < 2 ^ (Int.log 2 y - 52) := zpow_pos (by norm_num) _
    rw [hfx, hfy, heq]
    apply mul_le_mul_of_nonneg_right _ hu.le
    have : roundHalfEven (x / 2 ^ (Int.log 2 y - 52)) ≤
        roundHalfEven (y / 2 ^ (Int.log 2 y - 52)) :=
      roundHalfEven_mono (div_le_div_of_nonneg_right hxy hu.le)
    exact_mod_cast this

theorem roundDouble_zero : roundDouble 0 = 0 := by
  simp [roundDouble]

theorem roundDouble_nonneg (x : ℚ) (hx : 0 ≤ x) : 0 ≤ roundDouble x := by
  rcases eq_or_lt_of_le hx with h0 | hpos
  · rw [← h0, roundDouble_zero]
  · exact le_trans (zpow_pos (by norm_num) _).le (roundDouble_pos_bounds x hpos).1

/-- Rounding to `double` preserves the order. -/
theorem roundDouble_monotone : Monotone roundDouble := by
  intro x y hxy
  rcases lt_trichotomy x 0 with hx | hx | hx
  · rcases lt_trichotomy y 0 with hy | hy | hy
    · have h := roundDouble_mono_pos (-y) (-x) (by linarith) (by linarith)
      rw [roundDouble_neg, roundDouble_neg] at h
      linarith
    · have h := roundDouble_nonneg (-x) (by linarith)
      rw [roundDouble_neg] at h
      rw [hy, roundDouble_zero]
      linarith
    · have h := roundDouble_nonneg (-x) (by linarith)
      rw [roundDouble_neg] at h
      have h2 := roundDouble_nonneg y hy.le
      linarith
  · rw [hx, roundDouble_zero]
    exact roundDouble_nonneg y (by linarith)
  · exact roundDouble_mono_pos x y hx hxy

/-! ## Properties of the signals -/

/-- C6: `signal1` casts exactly one buy vote and returns true iff the price is
below 105.0, casts exactly one sell vote and returns true iff the price is
above 195.0, and otherwise leaves both counters alone and returns false; it
takes no window.  At 105.0 there is no vote, at 104.999999 a buy and at
195.000001 a sell. -/
theorem signal1_thresholds (tick : MarketData) (buy sell : Int) :
    (signal1 tick buy sell = ⟨true, buy + 1, sell⟩ ↔ tick.price < 105.0) ∧
    (signal1 tick buy sell = ⟨true, buy, sell + 1⟩ ↔ tick.price > 195.0) ∧
    (signal1 tick buy sell = ⟨false, buy, sell⟩ ↔
      105.0 ≤ tick.price ∧ tick.price ≤ 195.0) ∧
    signal1 ⟨tick.instrument_id, 105.0, tick.timestamp⟩ buy sell = ⟨false, buy, sell⟩ ∧
    signal1 ⟨tick.instrument_id, 104.999999, tick.timestamp⟩ buy sell = ⟨true, buy + 1, sell⟩ ∧
    signal1 ⟨tick.instrument_id, 195.000001, tick.timestamp⟩ buy sell = ⟨true, buy, sell + 1⟩ := by
  refine ⟨?_, ?_, ?_, ?_, ?_, ?_⟩
  · unfold signal1
    split_ifs with h1 h2
    · simp [h1]
    · simp [h1]
    · simp [h1]
  · unfold signal1
    split_ifs with h1 h2
    · have : ¬ tick.price > 195.0 := by norm_num at h1 ⊢; linarith
      simp [this]
    · simp [h2]
    · simp [h2]
  · unfold signal1
    split_ifs with h1 h2
    · have : ¬ (105.0 ≤ tick.price) := not_le.2 h1
      simp [this]
    · have : ¬ (tick.price ≤ 195.0) := not_le.2 h2
      simp [this]
    · simp [not_lt.1 h1, not_lt.1 h2]
  · norm_num [signal1]
  · norm_num [signal1]
  · norm_num [signal1]

theorem roundDouble_98 : roundDouble 0.98 = 2206763817411543 / 2 ^ 51 := by
  rw [roundDouble_eval 0.98 (-1) 8827055269646172 (by norm_num [abs_of_pos])
    (by norm_num [abs_of_pos]) (roundHalfEven_of_near _ _ (by norm_num) (by norm_num))]
  norm_num

theorem roundDouble_102 : roundDouble 1.02 = 2296835809958953 / 2 ^ 51 := by
  rw [roundDouble_eval 1.02 0 4593671619917906 (by norm_num [abs_of_pos])
    (by norm_num [abs_of_pos]) (roundHalfEven_of_near _ _ (by norm_num) (by norm_num))]
  norm_num

theorem rounded_signal2_eq (fl : ℚ → ℚ) (tick : MarketData) (buy sell : Int)
    (hist : PriceHistory 32) (h5 : 5 ≤ hist.size) (h0 : Rounded.avg fl hist ≠ 0) :
    Rounded.signal2 fl tick buy sell hist =
      if tick.price < fl (Rounded.avg fl hist * fl 0.98) then ⟨true, buy + 1, sell⟩
      else if tick.price > fl (Rounded.avg fl hist * fl 1.02) then ⟨true, buy, sell + 1⟩
      else ⟨false, buy, sell⟩ := by
  have hs : ¬ hist.size < 5 := by omega
  have h0a : ¬ Rounded.avg fl hist = 0.0 := by norm_num; exact h0
  unfold Rounded.signal2
  rw [if_neg hs]
  simp only [if_neg h0a]

theorem rounded_exact (tick : MarketData) (buy sell : Int) (hist : PriceHistory 32) :
    Rounded.avg (fun q => q) hist = hist.avg ∧
      Rounded.signal2 (fun q => q) tick buy sell hist = signal2 tick buy sell hist := by
  have ha : Rounded.avg (fun q => q) hist = hist.avg := rfl
  exact ⟨ha, rfl⟩

theorem rounded_add_size {C : Nat} (fl : ℚ → ℚ) (h : PriceHistory C) (x : ℚ)
    (hs : h.size < C) :
    (Rounded.add fl h x).size = h.size + 1 ∧ (Rounded.add fl h x).sum = fl (h.sum + x) := by
  unfold Rounded.add
  rw [if_pos hs]
  exact ⟨rfl, rfl⟩

theorem boundaryWindow_stats :
    (Rounded.addAll roundDouble ({} : PriceHistory 32) boundaryPrices).size = 5 ∧
      (Rounded.addAll roundDouble ({} : PriceHistory 32) boundaryPrices).sum =
        1214385976946627 / 2 ^ 41 := by
  have n111 : roundDouble 111 = 111 := by
    have := roundDouble_natCast 111 (by norm_num); exact_mod_cast this
  have n222 : roundDouble 222 = 222 := by
    have := roundDouble_natCast 222 (by norm_num); exact_mod_cast this
  have n333 : roundDouble 333 = 333 := by
    have := roundDouble_natCast 333 (by norm_num); exact_mod_cast this
  have n444 : roundDouble 444 = 444 := by
    have := roundDouble_natCast 444 (by norm_num); exact_mod_cast this
  have hlast : roundDouble (444 + boundaryPrice) = 1214385976946627 / 2 ^ 41 := by
    unfold boundaryPrice
    rw [roundDouble_eval _ 9 4857543907786508 (by norm_num [abs_of_pos])
      (by norm_num [abs_of_pos]) (roundHalfEven_tie_up _ _ (by norm_num) (by norm_num))]
    norm_num
  obtain ⟨s1, t1⟩ := rounded_add_size roundDouble ({} : PriceHistory 32) 111 (by decide)
  obtain ⟨s2, t2⟩ := rounded_add_size roundDouble _ 111
    (show (Rounded.add roundDouble ({} : PriceHistory 32) 111).size < 32 by rw [s1]; decide)
  obtain ⟨s3, t3⟩ := rounded_add_size roundDouble _ 111
    (show (Rounded.add roundDouble (Rounded.add roundDouble ({} : PriceHistory 32) 111)
      111).size < 32 by rw [s2, s1]; decide)
  obtain ⟨s4, t4⟩ := rounded_add_size roundDouble _ 111
    (show (Rounded.add roundDouble (Rounded.add roundDouble
      (Rounded.add roundDouble ({} : PriceHistory 32) 111) 111) 111).size < 32 by
      rw [s3, s2, s1]; decide)
  obtain ⟨s5, t5⟩ := rounded_add_size roundDouble _ boundaryPrice
    (show (Rounded.add roundDouble (Rounded.add roundDouble (Rounded.add roundDouble
      (Rounded.add roundDouble ({} : PriceHistory 32) 111) 111) 111) 111).size < 32 by
      rw [s4, s3, s2, s1]; decide)
  have e1 : (Rounded.add roundDouble ({} : PriceHistory 32) 111).sum = 111 := by
    rw [t1]; norm_num; exact n111
  have e2 : (Rounded.add roundDouble (Rounded.add roundDouble ({} : PriceHistory 32) 111)
      111).sum = 222 := by
    rw [t2, e1]; norm_num; exact n222
  have e3 : (Rounded.add roundDouble (Rounded.add roundDouble
      (Rounded.add roundDouble ({} : PriceHistory 32) 111) 111) 111).sum = 333 := by
    rw [t3, e2]; norm_num; exact n333
  have e4 : (Rounded.add roundDouble (Rounded.add roundDouble (Rounded.add roundDouble
      (Rounded.add roundDouble ({} : PriceHistory 32) 111) 111) 111) 111).sum = 444 := by
    rw [t4, e3]; norm_num; exact n444
  have hall : Rounded.addAll roundDouble ({} : PriceHistory 32) boundaryPrices =
      Rounded.add roundDouble (Rounded.add roundDouble (Rounded.add roundDouble
        (Rounded.add roundDouble (Rounded.add roundDouble ({} : PriceHistory 32) 111) 111)
        111) 111) boundaryPrice := rfl
  rw [hall]
  constructor
  · rw [s5, s4, s3, s2, s1]
  · rw [t5, e4, hlast]

theorem boundaryWindow_avg :
    Rounded.avg roundDouble (Rounded.addAll roundDouble ({} : PriceHistory 32) boundaryPrices) =
      7772070252458413 / 2 ^ 46 := by
  obtain ⟨hs, hsum⟩ := boundaryWindow_stats
  have n5 : roundDouble ((5 : Nat) : ℚ) = 5 := by
    have := roundDouble_natCast 5 (by norm_num); exact_mod_cast this
  unfold Rounded.avg
  rw [hs, hsum, if_pos (by decide), n5,
    roundDouble_eval _ 6 7772070252458413 (by norm_num [abs_of_pos])
      (by norm_num [abs_of_pos]) (roundHalfEven_of_near _ _ (by norm_num) (by norm_num))]
  norm_num

theorem boundaryWindow_threshold :
    roundDouble (7772070252458413 / 2 ^ 46 * roundDouble 0.98) = 7616628847409245 / 2 ^ 46 := by
  rw [roundDouble_98,
    roundDouble_eval _ 6 7616628847409245 (by norm_num [abs_of_pos])
      (by norm_num [abs_of_pos]) (roundHalfEven_of_near _ _ (by norm_num) (by norm_num))]
  norm_num

/-- On the feed 111, 111, 111, 111, `boundaryPrice` the rounded computation
votes buy: the price is one unit in the last place below the rounded
threshold. -/
theorem boundary_rounded_votes_buy :
    Rounded.signal2 roundDouble ⟨0, boundaryPrice, 0⟩ 0 0
      (Rounded.addAll roundDouble {} boundaryPrices) = ⟨true, 1, 0⟩ := by
  rw [rounded_signal2_eq _ _ _ _ _ (by rw [boundaryWindow_stats.1])
    (by rw [boundaryWindow_avg]; norm_num), boundaryWindow_avg, boundaryWindow_threshold,
    if_pos (by norm_num [boundaryPrice])]
  rfl

/-- On the same feed the exact computation casts no vote. -/
theorem boundary_exact_no_vote :
    signal2 ⟨0, boundaryPrice, 0⟩ 0 0 (PriceHistory.addAll {} boundaryPrices) =
      ⟨false, 0, 0⟩ := by
  norm_num [signal2, boundaryPrices, boundaryPrice, PriceHistory.addAll, PriceHistory.add,
    PriceHistory.avg]

/-- C7, amended: `signal2` casts no vote when the window holds fewer than 5
samples or `avg()` is exactly 0.  With at least 5 samples and a non-zero
`avg()` it votes buy iff price < `avg() * 0.98`, votes sell iff price >
`avg() * 1.02` and the buy test failed, and casts no vote iff the price lies
between the two products; for a positive `avg()` and a rounding that preserves
the order the sell vote is cast iff price > `avg() * 1.02`.  Here `avg()` is the
rounded quotient of the running sum by the sample count and each product is
rounded, `fl` being any rounding.  Without rounding this is `signal2` of the exact model,
which compares with 0.98 × mean and 1.02 × mean; with the rounding of `double`
the two differ on the feed 111, 111, 111, 111, `boundaryPrice`, where the
rounded computation votes buy and the exact one casts no vote. -/
theorem signal2_mean_reversion (fl : ℚ → ℚ) (tick : MarketData) (buy sell : Int)
    (hist : PriceHistory 32) :
    (hist.size < 5 → Rounded.signal2 fl tick buy sell hist = ⟨false, buy, sell⟩) ∧
    (Rounded.avg fl hist = 0 → Rounded.signal2 fl tick buy sell hist = ⟨false, buy, sell⟩) ∧
    (5 ≤ hist.size → Rounded.avg fl hist ≠ 0 →
      (Rounded.signal2 fl tick buy sell hist = ⟨true, buy + 1, sell⟩ ↔
        tick.price < fl (Rounded.avg fl hist * fl 0.98)) ∧
      (Rounded.signal2 fl tick buy sell hist = ⟨true, buy, sell + 1⟩ ↔
        tick.price > fl (Rounded.avg fl hist * fl 1.02) ∧
          ¬ tick.price < fl (Rounded.avg fl hist * fl 0.98)) ∧
      (Rounded.signal2 fl tick buy sell hist = ⟨false, buy, sell⟩ ↔
        fl (Rounded.avg fl hist * fl 0.98) ≤ tick.price ∧
          tick.price ≤ fl (Rounded.avg fl hist * fl 1.02)) ∧
      (Monotone fl → 0 < Rounded.avg fl hist →
        (Rounded.signal2 fl tick buy sell hist = ⟨true, buy, sell + 1⟩ ↔
          tick.price > fl (Rounded.avg fl hist * fl 1.02)))) ∧
    Rounded.avg (fun q => q) hist = hist.avg ∧
    Rounded.signal2 (fun q => q) tick buy sell hist = signal2 tick buy sell hist ∧
    (5 ≤ hist.size → hist.avg ≠ 0 →
      (signal2 tick buy sell hist = ⟨true, buy + 1, sell⟩ ↔ tick.price < 0.98 * hist.avg) ∧
      (signal2 tick buy sell hist = ⟨true, buy, sell + 1⟩ ↔
        tick.price > 1.02 * hist.avg ∧ ¬ tick.price < 0.98 * hist.avg) ∧
      (signal2 tick buy sell hist = ⟨false, buy, sell⟩ ↔
        0.98 * hist.avg ≤ tick.price ∧ tick.price ≤ 1.02 * hist.avg)) ∧
    Rounded.signal2 roundDouble ⟨0, boundaryPrice, 0⟩ 0 0
      (Rounded.addAll roundDouble {} boundaryPrices) = ⟨true, 1, 0⟩ ∧
    signal2 ⟨0, boundaryPrice, 0⟩ 0 0 (PriceHistory.addAll {} boundaryPrices) =
      ⟨false, 0, 0⟩ := by
  have key : ∀ (g : ℚ → ℚ), 5 ≤ hist.size → Rounded.avg g hist ≠ 0 →
      (Rounded.signal2 g tick buy sell hist = ⟨true, buy + 1, sell⟩ ↔
        tick.price < g (Rounded.avg g hist * g 0.98)) ∧
      (Rounded.signal2 g tick buy sell hist = ⟨true, buy, sell + 1⟩ ↔
        tick.price > g (Rounded.avg g hist * g 1.02) ∧
          ¬ tick.price < g (Rounded.avg g hist * g 0.98)) ∧
      (Rounded.signal2 g tick buy sell hist = ⟨false, buy, sell⟩ ↔
        g (Rounded.avg g hist * g 0.98) ≤ tick.price ∧
          tick.price ≤ g (Rounded.avg g hist * g 1.02)) := by
    intro g h5 h0
    rw [rounded_signal2_eq g tick buy sell hist h5 h0]
    refine ⟨?_, ?_, ?_⟩
    · split_ifs with h1 h2
      · simp [h1]
      · simp [h1]
      · simp [h1]
    · split_ifs with h1 h2
      · simp [h1]
      · simp [h1, h2]
      · simp [h2]
    · split_ifs with h1 h2
      · simp [h1]
      · simp [h2]
      · simp [not_lt.1 h1, not_lt.1 h2]
  obtain ⟨hexa, hexs⟩ := rounded_exact tick buy sell hist
  refine ⟨?_, ?_, ?_, hexa, hexs, ?_, boundary_rounded_votes_buy, boundary_exact_no_vote⟩
  · intro h; simp [Rounded.signal2, h]
  · intro h
    have h0 : Rounded.avg fl hist = 0.0 := by rw [h]; norm_num
    unfold Rounded.signal2
    split_ifs with h5
    · rfl
    · simp only [if_pos h0]
  · intro h5 h0
    obtain ⟨hb, hs, hn⟩ := key fl h5 h0
    refine ⟨hb, hs, hn, ?_⟩
    intro hmono hpos
    have hord : fl (Rounded.avg fl hist * fl 0.98) ≤ fl (Rounded.avg fl hist * fl 1.02) :=
      hmono (mul_le_mul_of_nonneg_left (hmono (by norm_num)) hpos.le)
    rw [hs]
    constructor
    · exact fun h => h.1
    · intro h
      exact ⟨h, not_lt.2 (le_trans hord h.le)⟩
  · intro h5 h0
    have h0r : Rounded.avg (fun q => q) hist ≠ 0 := by rw [hexa]; exact h0
    obtain ⟨hb, hs, hn⟩ := key (fun q => q) h5 h0r
    rw [hexs, hexa] at hb hs hn
    simp only [mul_comm hist.avg] at hb hs hn
    exact ⟨hb, hs, hn⟩

theorem roundDouble_neg_hundred : roundDouble (-100) = -100 := by
  have h := roundDouble_of_significand (-7036874417766400) (-46) (by norm_num) (by norm_num)
  norm_num at h ⊢
  exact h

theorem roundDouble_hundred : roundDouble 100 = 100 := by
  have := roundDouble_natCast 100 (by norm_num); exact_mod_cast this

theorem roundDouble_five : roundDouble ((5 : Nat) : ℚ) = 5 := by
  have := roundDouble_natCast 5 (by norm_num); exact_mod_cast this

theorem negativeMeanWindow_stats :
    negativeMeanWindow.size = 5 ∧ negativeMeanWindow.avg = -100 ∧
      Rounded.avg roundDouble negativeMeanWindow = -100 := by
  have hs : negativeMeanWindow.size = 5 := by
    norm_num [negativeMeanWindow, PriceHistory.addAll, PriceHistory.add]
  have hsum : negativeMeanWindow.sum = -500 := by
    norm_num [negativeMeanWindow, PriceHistory.addAll, PriceHistory.add]
  refine ⟨hs, ?_, ?_⟩
  · norm_num [negativeMeanWindow, PriceHistory.addAll, PriceHistory.add, PriceHistory.avg]
  · unfold Rounded.avg
    rw [hs, hsum, if_pos (by decide), roundDouble_five]
    norm_num
    exact roundDouble_neg_hundred

theorem negativeMean_thresholds :
    roundDouble (-100 * roundDouble 0.98) = -98 ∧
      roundDouble (-100 * roundDouble 1.02) = -102 := by
  rw [roundDouble_98, roundDouble_102]
  constructor
  · rw [roundDouble_eval _ 6 (-6896136929411072) (by norm_num [abs_of_neg])
      (by norm_num [abs_of_neg]) (roundHalfEven_of_near _ _ (by norm_num) (by norm_num))]
    norm_num
  · rw [roundDouble_eval _ 6 (-7177611906121728) (by norm_num [abs_of_neg])
      (by norm_num [abs_of_neg]) (roundHalfEven_of_near _ _ (by norm_num) (by norm_num))]
    norm_num

/-- C7, counterexample: on a window of five samples of -100 (mean -100, also
as computed in `double`) and a tick priced -100, price > 1.02 × mean = -102
holds, yet `signal2` casts a buy vote and no sell vote, because
price < 0.98 × mean = -98 is tested first; so in exact arithmetic and with the
rounding of `double` alike. -/
theorem signal2_negative_mean_votes_buy :
    5 ≤ negativeMeanWindow.size ∧ negativeMeanWindow.avg ≠ 0 ∧
      negativeMeanTick.price > 1.02 * negativeMeanWindow.avg ∧
      Rounded.avg roundDouble negativeMeanWindow = -100 ∧
      roundDouble (Rounded.avg roundDouble negativeMeanWindow * roundDouble 1.02) = -102 ∧
      negativeMeanTick.price >
        roundDouble (Rounded.avg roundDouble negativeMeanWindow * roundDouble 1.02) ∧
      Rounded.signal2 roundDouble negativeMeanTick 0 0 negativeMeanWindow ≠ ⟨true, 0, 1⟩ ∧
      Rounded.signal2 roundDouble negativeMeanTick 0 0 negativeMeanWindow = ⟨true, 1, 0⟩ ∧
      signal2 negativeMeanTick 0 0 negativeMeanWindow = ⟨true, 1, 0⟩ := by
  obtain ⟨hs, ha, har⟩ := negativeMeanWindow_stats
  obtain ⟨h98, h102⟩ := negativeMean_thresholds
  have hr : Rounded.signal2 roundDouble negativeMeanTick 0 0 negativeMeanWindow =
      ⟨true, 1, 0⟩ := by
    rw [rounded_signal2_eq _ _ _ _ _ (by rw [hs]) (by rw [har]; norm_num), har, h98,
      if_pos (by norm_num [negativeMeanTick])]
    rfl
  have he : signal2 negativeMeanTick 0 0 negativeMeanWindow = ⟨true, 1, 0⟩ := by
    unfold signal2
    simp only [hs, ha]
    norm_num [negativeMeanTick]
  refine ⟨by rw [hs], by rw [ha]; norm_num, by rw [ha]; norm_num [negativeMeanTick], har,
    by rw [har, h102], by rw [har, h102]; norm_num [negativeMeanTick], ?_, hr, he⟩
  rw [hr]; decide

theorem fiveSampleWindow_stats :
    fiveSampleWindow.size = 5 ∧ Rounded.avg roundDouble fiveSampleWindow = 100 ∧
      roundDouble (100 * roundDouble 0.98) = 98 ∧
      roundDouble (100 * roundDouble 1.02) = 102 := by
  have hs : fiveSampleWindow.size = 5 := by
    norm_num [fiveSampleWindow, PriceHistory.addAll, PriceHistory.add]
  have hsum : fiveSampleWindow.sum = 500 := by
    norm_num [fiveSampleWindow, PriceHistory.addAll, PriceHistory.add]
  refine ⟨hs, ?_, ?_, ?_⟩
  · unfold Rounded.avg
    rw [hs, hsum, if_pos (by decide), roundDouble_five]
    norm_num
    exact roundDouble_hundred
  · rw [roundDouble_98, roundDouble_eval _ 6 6896136929411072 (by norm_num [abs_of_pos])
      (by norm_num [abs_of_pos]) (roundHalfEven_of_near _ _ (by norm_num) (by norm_num))]
    norm_num
  · rw [roundDouble_102, roundDouble_eval _ 6 7177611906121728 (by norm_num [abs_of_pos])
      (by norm_num [abs_of_pos]) (roundHalfEven_of_near _ _ (by norm_num) (by norm_num))]
    norm_num

/-- C7, witness: with the rounding of `double`, which preserves the order, on
the window of five samples of 100 the guards pass and the products are 98 and
102; `signal2` votes buy at 97.5, casts no vote at 98 and votes sell at
102.5. -/
theorem signal2_mean_reversion_witness :
    5 ≤ fiveSampleWindow.size ∧ Rounded.avg roundDouble fiveSampleWindow ≠ 0 ∧
      Monotone roundDouble ∧ 0 < Rounded.avg roundDouble fiveSampleWindow ∧
      Rounded.signal2 roundDouble ⟨0, 97.5, 0⟩ 0 0 fiveSampleWindow = ⟨true, 1, 0⟩ ∧
      Rounded.signal2 roundDouble ⟨0, 98, 0⟩ 0 0 fiveSampleWindow = ⟨false, 0, 0⟩ ∧
      Rounded.signal2 roundDouble ⟨0, 102.5, 0⟩ 0 0 fiveSampleWindow = ⟨true, 0, 1⟩ :=
  have h5 : 5 ≤ fiveSampleWindow.size := by rw [fiveSampleWindow_stats.1]
  have h0 : Rounded.avg roundDouble fiveSampleWindow ≠ 0 := by
    rw [fiveSampleWindow_stats.2.1]; norm_num
  have hpos : 0 < Rounded.avg roundDouble fiveSampleWindow := by
    rw [fiveSampleWindow_stats.2.1]; norm_num
  have h98 : roundDouble (Rounded.avg roundDouble fiveSampleWindow * roundDouble 0.98) = 98 := by
    rw [fiveSampleWindow_stats.2.1]; exact fiveSampleWindow_stats.2.2.1
  have h102 : roundDouble (Rounded.avg roundDouble fiveSampleWindow * roundDouble 1.02) =
      102 := by
    rw [fiveSampleWindow_stats.2.1]; exact fiveSampleWindow_stats.2.2.2
  ⟨h5, h0, roundDouble_monotone, hpos,
    ((signal2_mean_reversion roundDouble ⟨0, 97.5, 0⟩ 0 0 fiveSampleWindow).2.2.1 h5 h0).1.2
      (by rw [h98]; norm_num),
    ((signal2_mean_reversion roundDouble ⟨0, 98, 0⟩ 0 0 fiveSampleWindow).2.2.1 h5 h0).2.2.1.2
      (by rw [h98, h102]; norm_num),
    (((signal2_mean_reversion roundDouble ⟨0, 102.5, 0⟩ 0 0 fiveSampleWindow).2.2.1 h5
      h0).2.2.2 roundDouble_monotone hpos).2 (by rw [h102]; norm_num)⟩

theorem signal3_of_last3 (tick : MarketData) (buy sell : Int) (hist : PriceHistory 32)
    (a b c : ℚ) (h : hist.last3 = some (a, b, c)) :
    signal3 tick buy sell hist =
      if b - a > 0 ∧ c - b > 0 then ⟨true, buy + 1, sell⟩
      else if b - a < 0 ∧ c - b < 0 then ⟨true, buy, sell + 1⟩
      else ⟨false, buy, sell⟩ := by
  unfold signal3
  rw [h]

/-- C8: `signal3` casts no vote on a window holding fewer than 3 samples.  On a
window whose last three inserted prices are `a`, `b`, `c`, in that order, it
votes buy iff `b - a > 0` and `c - b > 0`, votes sell iff `b - a < 0` and
`c - b < 0`, and casts no vote in every other case; inserting the tick's price
into a window whose last two prices are `a`, `b` makes that price the `c`. -/
theorem signal3_momentum (tick : MarketData) (buy sell : Int) (small : PriceHistory 32)
    (pre : List ℚ) (a b c : ℚ) :
    (small.size < 3 → signal3 tick buy sell small = ⟨false, buy, sell⟩) ∧
    (signal3 tick buy sell (PriceHistory.addAll {} (pre ++ [a, b, c])) = ⟨true, buy + 1, sell⟩ ↔
      b - a > 0 ∧ c - b > 0) ∧
    (signal3 tick buy sell (PriceHistory.addAll {} (pre ++ [a, b, c])) = ⟨true, buy, sell + 1⟩ ↔
      b - a < 0 ∧ c - b < 0) ∧
    (signal3 tick buy sell (PriceHistory.addAll {} (pre ++ [a, b, c])) = ⟨false, buy, sell⟩ ↔
      ¬ (b - a > 0 ∧ c - b > 0) ∧ ¬ (b - a < 0 ∧ c - b < 0)) ∧
    (PriceHistory.addAll ({} : PriceHistory 32) (pre ++ [a, b])).add tick.price =
      PriceHistory.addAll {} (pre ++ [a, b, tick.price]) := by
  have hl : (PriceHistory.addAll ({} : PriceHistory 32) (pre ++ [a, b, c])).last3 = some (a, b, c) :=
    PriceHistory.last3_of_tracks (by norm_num) (PriceHistory.tracks_of_empty (by norm_num) _)
  have hs := signal3_of_last3 tick buy sell _ a b c hl
  refine ⟨?_, ?_, ?_, ?_, ?_⟩
  · intro h
    simp [signal3, PriceHistory.last3, h]
  · rw [hs]
    split_ifs with h1 h2
    · exact iff_of_true rfl h1
    · exact iff_of_false (by simp) h1
    · exact iff_of_false (by simp) h1
  · rw [hs]
    split_ifs with h1 h2
    · exact iff_of_false (by simp) (fun h => by linarith [h1.1, h.1])
    · exact iff_of_true rfl h2
    · exact iff_of_false (by simp) h2
  · rw [hs]
    split_ifs with h1 h2
    · exact iff_of_false (by simp) (fun h => h.1 h1)
    · exact iff_of_false (by simp) (fun h => h.2 h2)
    · exact iff_of_true rfl ⟨h1, h2⟩
  · simp [PriceHistory.addAll, List.foldl_append]

/-- C8, witness: a window with one sample gives no vote; the window holding
104.0, 103.0, 102.0 gives a sell vote. -/
theorem signal3_momentum_witness :
    (({} : PriceHistory 32).add 104.0).size < 3 ∧
      signal3 ⟨0, 104.0, 0⟩ 0 0 (({} : PriceHistory 32).add 104.0) = ⟨false, 0, 0⟩ ∧
      signal3 ⟨0, 102.0, 0⟩ 1 0 (PriceHistory.addAll {} [104.0, 103.0, 102.0]) = ⟨true, 1, 1⟩ :=
  have h : (({} : PriceHistory 32).add 104.0).size < 3 := by
    norm_num [PriceHistory.add]
  ⟨h, (signal3_momentum ⟨0, 104.0, 0⟩ 0 0 _ [] 104.0 103.0 102.0).1 h,
    (signal3_momentum ⟨0, 102.0, 0⟩ 1 0 {} [] 104.0 103.0 102.0).2.2.1.2 (by norm_num)⟩

/-! ## Rolling statistics -/

/-- C3: after at least `C` insertions into an empty window of capacity
`C ≥ 1`, `size` is `C`, and `avg()` is the arithmetic mean and `stddev()` the
population standard deviation of exactly the last `C` inserted prices, both
computed by direct summation (exact arithmetic; the square root maps 0 to 0). -/
theorem rolling_stats_after_fill (sqrt : ℚ → ℚ) (hsqrt : sqrt 0 = 0) (C : Nat) (hC : 1 ≤ C)
    (xs : List ℚ) (hn : C ≤ xs.length) :
    (PriceHistory.addAll ({} : PriceHistory C) xs).size = C ∧
    (lastN C xs).length = C ∧
    (PriceHistory.addAll ({} : PriceHistory C) xs).avg = mean (lastN C xs) ∧
    (PriceHistory.addAll ({} : PriceHistory C) xs).stddev sqrt = popStddev sqrt (lastN C xs) := by
  have ht := @PriceHistory.tracks_of_empty C hC xs
  refine ⟨?_, ?_, PriceHistory.avg_of_tracks ht, PriceHistory.stddev_of_tracks sqrt hsqrt ht⟩
  · rw [ht.size_eq]; exact Nat.min_eq_right hn
  · rw [PriceHistory.length_lastN]; exact Nat.min_eq_right hn

/-- C3, witness: capacity 2 after inserting 1, 2, 4. -/
theorem rolling_stats_after_fill_witness :
    (fun q : ℚ => q) 0 = 0 ∧ 1 ≤ 2 ∧ 2 ≤ ([1, 2, 4] : List ℚ).length ∧
      (PriceHistory.addAll ({} : PriceHistory 2) [1, 2, 4]).size = 2 ∧
      (PriceHistory.addAll ({} : PriceHistory 2) [1, 2, 4]).avg = mean (lastN 2 [1, 2, 4]) ∧
      (PriceHistory.addAll ({} : PriceHistory 2) [1, 2, 4]).stddev (fun q => q) =
        popStddev (fun q => q) (lastN 2 [1, 2, 4]) :=
  have h := rolling_stats_after_fill (fun q => q) rfl 2 (by decide) [1, 2, 4] (by decide)
  ⟨rfl, by decide, by decide, h.1, h.2.2.1, h.2.2.2⟩

/-! ## Properties of the engine -/

namespace TradeEngine

theorem voteTrace_ticks (sqrt : ℚ → ℚ) (vol : Bool) :
    ∀ (ticks : List MarketData) (k : Nat) (hists : List (PriceHistory 32)),
      (voteTrace sqrt vol k hists ticks).map TickVotes.tick = ticks ∧
      (voteTrace sqrt vol k hists ticks).map TickVotes.pos = List.range' k ticks.length := by
  intro ticks
  induction ticks with
  | nil => intro k hists; simp [voteTrace]
  | cons t rest ih =>
    intro k hists
    obtain ⟨h1, h2⟩ := ih (k + 1) (hists.set t.instrument_id.toNat
      ((hists.getD t.instrument_id.toNat {}).add t.price))
    simp only [voteTrace, List.map_cons, h1, h2, List.length_cons, List.range'_succ]
    exact ⟨trivial, trivial⟩

theorem process_new_spec (sqrt : ℚ → ℚ) (vol : Bool) (clock : Nat → Int)
    (feed : List MarketData) (n : Nat)
    (hids : ∀ t ∈ feed, 0 ≤ t.instrument_id ∧ t.instrument_id < (n : Int)) :
    ∃ e', process sqrt vol clock (new feed n) = some e' ∧
      e'.orders = (votedTicks (voteTrace sqrt vol 0 (List.replicate n {}) feed)).map
        (fun r => makeOrder (clock r.pos) r.tick r.votes) ∧
      e'.latencies = (votedTicks (voteTrace sqrt vol 0 (List.replicate n {}) feed)).map
        (fun r => clock r.pos - r.tick.timestamp) := by
  have hids' : ∀ t ∈ feed, 0 ≤ t.instrument_id ∧
      t.instrument_id < ((new feed n).price_hist.length : Int) := by
    intro t ht; simpa [new] using hids t ht
  obtain ⟨e', hrun, hord, hlat, -, -, -⟩ := processFrom_spec sqrt vol clock feed 0 (new feed n) hids'
  refine ⟨e', hrun, ?_, ?_⟩
  · simpa [new] using hord
  · simpa [new] using hlat

/-- C9: from a fresh engine and a feed whose ids all have a window, `process`
returns, and the orders and the latency samples correspond one to one, in
arrival order, to the ticks that received at least one vote: both lists have
as many entries as there are such ticks, the k-th order carries the id of the
k-th such tick and the instant read for it, and the k-th latency is that
instant minus the tick's timestamp.  The trace lists every tick of the feed once,
at its position; ticks without a vote contribute nothing. -/
theorem one_order_and_latency_per_voted_tick (sqrt : ℚ → ℚ) (volSignal : Bool)
    (clock : Nat → Int) (feed : List MarketData) (n : Nat)
    (hids : ∀ t ∈ feed, 0 ≤ t.instrument_id ∧ t.instrument_id < (n : Int)) :
    ∃ e', process sqrt volSignal clock (new feed n) = some e' ∧
      (voteTrace sqrt volSignal 0 (List.replicate n {}) feed).map TickVotes.tick = feed ∧
      (voteTrace sqrt volSignal 0 (List.replicate n {}) feed).map TickVotes.pos =
        List.range' 0 feed.length ∧
      e'.orders.length =
        (votedTicks (voteTrace sqrt volSignal 0 (List.replicate n {}) feed)).length ∧
      e'.latencies.length =
        (votedTicks (voteTrace sqrt volSignal 0 (List.replicate n {}) feed)).length ∧
      e'.orders.map (fun o => (o.instrument_id, o.timestamp)) =
        (votedTicks (voteTrace sqrt volSignal 0 (List.replicate n {}) feed)).map
          (fun r => (r.tick.instrument_id, clock r.pos)) ∧
      e'.latencies =
        (votedTicks (voteTrace sqrt volSignal 0 (List.replicate n {}) feed)).map
          (fun r => clock r.pos - r.tick.timestamp) := by
  obtain ⟨e', hrun, hord, hlat⟩ := process_new_spec sqrt volSignal clock feed n hids
  refine ⟨e', hrun, (voteTrace_ticks sqrt volSignal feed 0 _).1,
    (voteTrace_ticks sqrt volSignal feed 0 _).2, ?_, ?_, ?_, hlat⟩
  · rw [hord, List.length_map]
  · rw [hlat, List.length_map]
  · rw [hord, List.map_map]; rfl

/-- C10: from a fresh engine and a feed whose ids all have a window, every
order `process` emits carries the instrument id of the tick it was emitted for
and is priced at that tick's price plus 0.01 when it is a buy and minus 0.01
when it is a sell. -/
theorem order_carries_tick_id_and_offset_price (sqrt : ℚ → ℚ) (volSignal : Bool)
    (clock : Nat → Int) (feed : List MarketData) (n : Nat)
    (hids : ∀ t ∈ feed, 0 ≤ t.instrument_id ∧ t.instrument_id < (n : Int)) :
    ∃ e', process sqrt volSignal clock (new feed n) = some e' ∧
      List.Forall₂
        (fun o r => o.instrument_id = r.tick.instrument_id ∧
          (o.is_buy = true → o.price = r.tick.price + 0.01) ∧
          (o.is_buy = false → o.price = r.tick.price - 0.01))
        e'.orders (votedTicks (voteTrace sqrt volSignal 0 (List.replicate n {}) feed)) := by
  obtain ⟨e', hrun, hord, -⟩ := process_new_spec sqrt volSignal clock feed n hids
  refine ⟨e', hrun, ?_⟩
  rw [hord, List.forall₂_map_left_iff, List.forall₂_same]
  intro r _
  refine ⟨rfl, ?_, ?_⟩
  · intro hb
    have hb' : (makeOrder (clock r.pos) r.tick r.votes).price =
        r.tick.price + (if (makeOrder (clock r.pos) r.tick r.votes).is_buy then 0.01 else -0.01) := rfl
    rw [hb', hb]; simp
  · intro hb
    have hb' : (makeOrder (clock r.pos) r.tick r.votes).price =
        r.tick.price + (if (makeOrder (clock r.pos) r.tick r.votes).is_buy then 0.01 else -0.01) := rfl
    rw [hb', hb]; norm_num; ring

/-- C5: when a tick receives different numbers of buy and sell votes,
`process` emits one order for it, a buy if the buy votes are more and a sell if
the sell votes are more, whatever the instrument id. -/
theorem majority_decides_side (sqrt : ℚ → ℚ) (volSignal : Bool) (now : Int)
    (e : TradeEngine) (tick : MarketData) (hlo : 0 ≤ tick.instrument_id)
    (hhi : tick.instrument_id < (e.price_hist.length : Int))
    (hne : (castVotes sqrt volSignal tick (e.updatedWindow tick)).buy_votes ≠
      (castVotes sqrt volSignal tick (e.updatedWindow tick)).sell_votes) :
    ∃ e' o, processTick sqrt volSignal now e tick = some e' ∧ e'.orders = e.orders ++ [o] ∧
      ((castVotes sqrt volSignal tick (e.updatedWindow tick)).buy_votes >
          (castVotes sqrt volSignal tick (e.updatedWindow tick)).sell_votes → o.is_buy = true) ∧
      ((castVotes sqrt volSignal tick (e.updatedWindow tick)).sell_votes >
          (castVotes sqrt volSignal tick (e.updatedWindow tick)).buy_votes → o.is_buy = false) := by
  obtain ⟨e1, hstep, -, -, hyes, -⟩ := processTick_spec sqrt volSignal now e tick hlo hhi
  have hnn := castVotes_nonneg sqrt volSignal tick (e.updatedWindow tick)
  obtain ⟨hord, -, -⟩ := hyes (by omega)
  refine ⟨e1, _, hstep, hord, ?_, ?_⟩
  · intro hgt
    simp [makeOrder, hgt]
  · intro hlt
    have h1 : ¬ (castVotes sqrt volSignal tick (e.updatedWindow tick)).sell_votes <
        (castVotes sqrt volSignal tick (e.updatedWindow tick)).buy_votes := by omega
    simp [makeOrder, h1, hne]

theorem twoSampleEngine_votes (sqrt : ℚ → ℚ) (vol : Bool) (id : Int) (h0 : id = 0 ∨ id = 1) :
    castVotes sqrt vol ⟨id, 102.0, 0⟩ (twoSampleEngine.updatedWindow ⟨id, 102.0, 0⟩) = ⟨1, 1, 5⟩ := by
  rcases h0 with rfl | rfl <;> cases vol <;>
  norm_num [twoSampleEngine, updatedWindow, castVotes, signal1, signal2, signal3,
    signal4_vol_breakout, PriceHistory.addAll, PriceHistory.add, PriceHistory.last3] <;> rfl

/-- C1, amended: when a tick receives equally many buy and sell votes, at
least one of each, `process` emits one order for it whose side is decided by
the parity of the instrument id: an odd id gives a buy order and an even id
gives a sell order. -/
theorem tie_broken_by_parity_odd_buys (sqrt : ℚ → ℚ) (volSignal : Bool) (now : Int)
    (e : TradeEngine) (tick : MarketData) (hlo : 0 ≤ tick.instrument_id)
    (hhi : tick.instrument_id < (e.price_hist.length : Int))
    (htie : (castVotes sqrt volSignal tick (e.updatedWindow tick)).buy_votes =
      (castVotes sqrt volSignal tick (e.updatedWindow tick)).sell_votes)
    (hpos : 1 ≤ (castVotes sqrt volSignal tick (e.updatedWindow tick)).buy_votes) :
    ∃ e' o, processTick sqrt volSignal now e tick = some e' ∧ e'.orders = e.orders ++ [o] ∧
      (tick.instrument_id % 2 = 1 → o.is_buy = true) ∧
      (tick.instrument_id % 2 = 0 → o.is_buy = false) := by
  obtain ⟨e1, hstep, -, -, hyes, -⟩ := processTick_spec sqrt volSignal now e tick hlo hhi
  obtain ⟨hord, -, -⟩ := hyes (by omega)
  refine ⟨e1, _, hstep, hord, ?_, ?_⟩
  · intro hodd
    simp [makeOrder, htie, hodd]
  · intro heven
    simp [makeOrder, htie, heven]

/-- C1, witness: instrument 0 (an even id) with one buy and one sell vote. -/
theorem tie_broken_by_parity_odd_buys_witness :
    (0 : Int) ≤ 0 ∧ (0 : Int) < (twoSampleEngine.price_hist.length : Int) ∧
      (castVotes (fun q => q) true ⟨0, 102.0, 0⟩
          (twoSampleEngine.updatedWindow ⟨0, 102.0, 0⟩)).buy_votes =
        (castVotes (fun q => q) true ⟨0, 102.0, 0⟩
          (twoSampleEngine.updatedWindow ⟨0, 102.0, 0⟩)).sell_votes ∧
      1 ≤ (castVotes (fun q => q) true ⟨0, 102.0, 0⟩
          (twoSampleEngine.updatedWindow ⟨0, 102.0, 0⟩)).buy_votes ∧
      ∃ e' o, processTick (fun q => q) true 7 twoSampleEngine ⟨0, 102.0, 0⟩ = some e' ∧
        e'.orders = twoSampleEngine.orders ++ [o] ∧
        (((0 : Int)) % 2 = 1 → o.is_buy = true) ∧ ((0 : Int) % 2 = 0 → o.is_buy = false) :=
  have hv := twoSampleEngine_votes (fun q => q) true 0 (Or.inl rfl)
  have h1 : (0 : Int) < (twoSampleEngine.price_hist.length : Int) := by decide
  have h2 : (castVotes (fun q => q) true ⟨0, 102.0, 0⟩
          (twoSampleEngine.updatedWindow ⟨0, 102.0, 0⟩)).buy_votes =
        (castVotes (fun q => q) true ⟨0, 102.0, 0⟩
          (twoSampleEngine.updatedWindow ⟨0, 102.0, 0⟩)).sell_votes := by rw [hv]
  have h3 : 1 ≤ (castVotes (fun q => q) true ⟨0, 102.0, 0⟩
          (twoSampleEngine.updatedWindow ⟨0, 102.0, 0⟩)).buy_votes := by rw [hv]
  ⟨le_refl _, h1, h2, h3,
    tie_broken_by_parity_odd_buys (fun q => q) true 7 twoSampleEngine ⟨0, 102.0, 0⟩
      (le_refl _) h1 h2 h3⟩

/-- C1, counterexample: instrument 1 (an odd id) has seen 104.0 and 103.0
and receives a tick at 102.0; the votes are one buy and one sell, and the
order emitted is a buy, not the sell the claim asks for. -/
theorem tie_odd_id_emits_buy :
    castVotes (fun q => q) true ⟨1, 102.0, 0⟩ (twoSampleEngine.updatedWindow ⟨1, 102.0, 0⟩) =
        ⟨1, 1, 5⟩ ∧
      (1 : Int) % 2 = 1 ∧
      (processTick (fun q => q) true 7 twoSampleEngine ⟨1, 102.0, 0⟩).map (fun e => e.orders) =
        some [⟨1, 102.01, true, 5, 7⟩] := by
  have hv := twoSampleEngine_votes (fun q => q) true 1 (Or.inr rfl)
  refine ⟨hv, by decide, ?_⟩
  rw [processTick_eq _ _ _ _ _ (by decide) (by decide), hv]
  norm_num [makeOrder, twoSampleEngine]

theorem scenarioFeed_ids (t0 t1 t2 : Int) :
    ∀ t ∈ scenarioFeed t0 t1 t2, 0 ≤ t.instrument_id ∧ t.instrument_id < ((10 : Nat) : Int) := by
  intro t ht
  simp only [scenarioFeed, List.mem_cons, List.mem_singleton, List.not_mem_nil, or_false] at ht
  rcases ht with rfl | rfl | rfl <;> exact ⟨le_refl _, by norm_num⟩

/-- C9, witness: the three-tick scenario feed on ten instruments. -/
theorem one_order_and_latency_per_voted_tick_witness :
    (∀ t ∈ scenarioFeed 0 0 0, 0 ≤ t.instrument_id ∧ t.instrument_id < ((10 : Nat) : Int)) ∧
      ∃ e', process (fun q => q) true (fun i => (i : Int)) (new (scenarioFeed 0 0 0) 10) = some e' ∧
        e'.orders.length = e'.latencies.length :=
  ⟨scenarioFeed_ids 0 0 0,
    match one_order_and_latency_per_voted_tick (fun q => q) true (fun i => (i : Int))
      (scenarioFeed 0 0 0) 10 (scenarioFeed_ids 0 0 0) with
    | ⟨e', h, _, _, ho, hl, _⟩ => ⟨e', h, ho.trans hl.symm⟩⟩

/-- C10, witness: the three-tick scenario feed on ten instruments. -/
theorem order_carries_tick_id_and_offset_price_witness :
    (∀ t ∈ scenarioFeed 0 0 0, 0 ≤ t.instrument_id ∧ t.instrument_id < ((10 : Nat) : Int)) ∧
      ∃ e', process (fun q => q) true (fun i => (i : Int)) (new (scenarioFeed 0 0 0) 10) = some e' ∧
        List.Forall₂
          (fun o r => o.instrument_id = r.tick.instrument_id ∧
            (o.is_buy = true → o.price = r.tick.price + 0.01) ∧
            (o.is_buy = false → o.price = r.tick.price - 0.01))
          e'.orders
          (votedTicks (voteTrace (fun q => q) true 0 (List.replicate 10 {}) (scenarioFeed 0 0 0))) :=
  ⟨scenarioFeed_ids 0 0 0,
    order_carries_tick_id_and_offset_price (fun q => q) true (fun i => (i : Int))
      (scenarioFeed 0 0 0) 10 (scenarioFeed_ids 0 0 0)⟩

theorem fresh_engine_votes (sqrt : ℚ → ℚ) (vol : Bool) :
    castVotes sqrt vol ⟨0, 104.0, 0⟩ ((new [] 1).updatedWindow ⟨0, 104.0, 0⟩) = ⟨1, 0, 1⟩ := by
  cases vol <;>
  norm_num [new, updatedWindow, castVotes, signal1, signal2, signal3, signal4_vol_breakout,
    PriceHistory.add, PriceHistory.last3]

/-- C5, witness: a first tick at 104.0 gets one buy vote and no sell vote, and
the order emitted for it is a buy. -/
theorem majority_decides_side_witness :
    (0 : Int) ≤ 0 ∧ (0 : Int) < ((new [] 1).price_hist.length : Int) ∧
      (castVotes (fun q => q) true ⟨0, 104.0, 0⟩
          ((new [] 1).updatedWindow ⟨0, 104.0, 0⟩)).buy_votes ≠
        (castVotes (fun q => q) true ⟨0, 104.0, 0⟩
          ((new [] 1).updatedWindow ⟨0, 104.0, 0⟩)).sell_votes ∧
      ∃ e' o, processTick (fun q => q) true 7 (new [] 1) ⟨0, 104.0, 0⟩ = some e' ∧
        e'.orders = (new [] 1).orders ++ [o] ∧ o.is_buy = true :=
  have h1 : (0 : Int) < ((new [] 1).price_hist.length : Int) := by decide
  have hv := fresh_engine_votes (fun q => q) true
  have h2 : (castVotes (fun q => q) true ⟨0, 104.0, 0⟩
          ((new [] 1).updatedWindow ⟨0, 104.0, 0⟩)).buy_votes ≠
        (castVotes (fun q => q) true ⟨0, 104.0, 0⟩
          ((new [] 1).updatedWindow ⟨0, 104.0, 0⟩)).sell_votes := by rw [hv]; decide
  ⟨le_refl _, h1, h2,
    match majority_decides_side (fun q => q) true 7 (new [] 1) ⟨0, 104.0, 0⟩ (le_refl _) h1 h2 with
    | ⟨e', o, hs, ho, hb, _⟩ => ⟨e', o, hs, ho, hb (by rw [hv]; decide)⟩⟩

/-- C4, amended: the feed (0, 104.0), (0, 103.0), (0, 102.0) on a fresh
engine emits an order on every tick.  `signal1` votes buy on all three ticks,
`signal3` casts no vote on the first two and a sell vote on the third, so the
third tick has one buy vote, one sell vote and mask 5; instrument id 0 being
even, the tie-break makes the third order a sell, priced 101.99. -/
theorem decreasing_scenario (sqrt : ℚ → ℚ) (volSignal : Bool) (clock : Nat → Int)
    (t0 t1 t2 : Int) :
    (process sqrt volSignal clock (new (scenarioFeed t0 t1 t2) 10)).map
        (fun e => (e.orders, e.latencies)) =
      some ([⟨0, 104.01, true, 1, clock 0⟩, ⟨0, 103.01, true, 1, clock 1⟩,
          ⟨0, 101.99, false, 5, clock 2⟩],
        [clock 0 - t0, clock 1 - t1, clock 2 - t2]) ∧
    signal1 ⟨0, 104.0, t0⟩ 0 0 = ⟨true, 1, 0⟩ ∧
    signal1 ⟨0, 103.0, t1⟩ 0 0 = ⟨true, 1, 0⟩ ∧
    signal1 ⟨0, 102.0, t2⟩ 0 0 = ⟨true, 1, 0⟩ ∧
    signal3 ⟨0, 104.0, t0⟩ 1 0 (PriceHistory.addAll {} [104.0]) = ⟨false, 1, 0⟩ ∧
    signal3 ⟨0, 103.0, t1⟩ 1 0 (PriceHistory.addAll {} [104.0, 103.0]) = ⟨false, 1, 0⟩ ∧
    signal3 ⟨0, 102.0, t2⟩ 1 0 (PriceHistory.addAll {} [104.0, 103.0, 102.0]) = ⟨true, 1, 1⟩ ∧
    castVotes sqrt volSignal ⟨0, 102.0, t2⟩ (PriceHistory.addAll {} [104.0, 103.0, 102.0]) =
      ⟨1, 1, 5⟩ := by
  refine ⟨?_, ?_, ?_, ?_, ?_, ?_, ?_, ?_⟩
  · cases volSignal <;>
    norm_num [process, processFrom, processTick, new, scenarioFeed, updatedWindow, makeOrder,
      castVotes, signal1, signal2, signal3, signal4_vol_breakout, PriceHistory.add,
      PriceHistory.last3, bumpCounts, List.replicate] <;> rfl
  · norm_num [signal1]
  · norm_num [signal1]
  · norm_num [signal1]
  · norm_num [signal3, PriceHistory.addAll, PriceHistory.add, PriceHistory.last3]
  · norm_num [signal3, PriceHistory.addAll, PriceHistory.add, PriceHistory.last3]
  · norm_num [signal3, PriceHistory.addAll, PriceHistory.add, PriceHistory.last3]
  · cases volSignal <;>
    norm_num [castVotes, signal1, signal2, signal3, signal4_vol_breakout, PriceHistory.addAll,
      PriceHistory.add, PriceHistory.last3] <;> rfl

/-- C4, counterexample: the third order of the scenario is a sell, not the buy
the claim states. -/
theorem decreasing_scenario_third_order_is_sell :
    (process (fun q => q) true (fun i => (i : Int)) (new (scenarioFeed 0 0 0) 10)).map
        (fun e => e.orders.map (fun o => o.is_buy)) = some [true, true, false] := by
  norm_num [process, processFrom, processTick, new, scenarioFeed, updatedWindow, makeOrder,
      castVotes, signal1, signal2, signal3, signal4_vol_breakout, PriceHistory.add,
      PriceHistory.last3, bumpCounts, List.replicate]

theorem breakoutWindow_eq :
    PriceHistory.addAll ({} : PriceHistory 32) breakoutPrices =
      ⟨breakoutPrices ++ List.replicate 20 0, 12, 12, 1800, 270048⟩ := by
  norm_num [breakoutPrices, PriceHistory.addAll, PriceHistory.add, List.replicate]

theorem breakoutWindow_stats (sqrt : ℚ → ℚ) (hs : sqrt 4 = 2) :
    (PriceHistory.addAll ({} : PriceHistory 32) breakoutPrices).stddev sqrt = 2 ∧
    (PriceHistory.addAll ({} : PriceHistory 32) breakoutPrices).last = some 152 ∧
    (PriceHistory.addAll ({} : PriceHistory 32) breakoutPrices).last2 = some (148, 152) := by
  rw [breakoutWindow_eq]
  norm_num [breakoutPrices, PriceHistory.stddev, PriceHistory.avg, PriceHistory.last,
    PriceHistory.last2, hs]

theorem updatedWindow_after_eleven (e : TradeEngine)
    (he : e.price_hist = [PriceHistory.addAll {} (breakoutPrices.take 11)]) :
    e.updatedWindow ⟨0, 152, 0⟩ = PriceHistory.addAll {} breakoutPrices := by
  unfold updatedWindow
  rw [he]
  rfl

/-- C2, the code at the failing input: after the twelve prices of
`breakoutPrices` the window of instrument 0 holds 12 samples with standard
deviation 2 (for a square root with `sqrt 4 = 2`), and the current price
exceeds the second-to-last inserted price by 4 > 1.75 × 2; yet
`signal4_vol_breakout` returns false without a vote, no signal sets a mask bit,
and the loop body of `process`, run on the twelfth tick by an engine whose
window holds the first eleven prices, emits no order and no latency sample. -/
theorem vol_breakout_reads_current_price (sqrt : ℚ → ℚ) (hs : sqrt 4 = 2) (now : Int)
    (e : TradeEngine) (he : e.price_hist = [PriceHistory.addAll {} (breakoutPrices.take 11)]) :
    (PriceHistory.addAll ({} : PriceHistory 32) breakoutPrices).size = 12 ∧
    (PriceHistory.addAll ({} : PriceHistory 32) breakoutPrices).stddev sqrt = 2 ∧
    (PriceHistory.addAll ({} : PriceHistory 32) breakoutPrices).last2 = some (148, 152) ∧
    (152 : ℚ) - 148 >
      1.75 * (PriceHistory.addAll ({} : PriceHistory 32) breakoutPrices).stddev sqrt ∧
    signal4_vol_breakout sqrt ⟨0, 152, 0⟩ 0 0 (PriceHistory.addAll {} breakoutPrices) =
      ⟨false, 0, 0⟩ ∧
    castVotes sqrt true ⟨0, 152, 0⟩ (PriceHistory.addAll {} breakoutPrices) = ⟨0, 0, 0⟩ ∧
    (processTick sqrt true now e ⟨0, 152, 0⟩).map (fun e1 => (e1.orders, e1.latencies)) =
      some (e.orders, e.latencies) := by
  obtain ⟨hsd, hl, hl2⟩ := breakoutWindow_stats sqrt hs
  have hv : castVotes sqrt true ⟨0, 152, 0⟩ (PriceHistory.addAll {} breakoutPrices) =
      ⟨0, 0, 0⟩ := by
    rw [breakoutWindow_eq]
    norm_num [castVotes, signal1, signal2, signal3, signal4_vol_breakout, breakoutPrices,
      PriceHistory.last3, PriceHistory.last, PriceHistory.avg, PriceHistory.stddev, hs]
  refine ⟨by rw [breakoutWindow_eq], hsd, hl2, by rw [hsd]; norm_num, ?_, hv, ?_⟩
  · unfold signal4_vol_breakout
    simp only [hsd, hl]
    rw [breakoutWindow_eq]
    norm_num
  · rw [processTick_eq _ _ _ _ _ (le_refl _) (by rw [he]; decide),
      updatedWindow_after_eleven e he, hv]
    rfl

/-- C2, witness: the failing input with `q / 2` standing in for the square
root at 4. -/
theorem vol_breakout_reads_current_price_witness :
    (fun q : ℚ => q / 2) 4 = 2 ∧
      signal4_vol_breakout (fun q => q / 2) ⟨0, 152, 0⟩ 0 0
        (PriceHistory.addAll {} breakoutPrices) = ⟨false, 0, 0⟩ ∧
      elevenSampleEngine.price_hist = [PriceHistory.addAll {} (breakoutPrices.take 11)] ∧
      (processTick (fun q => q / 2) true 12 elevenSampleEngine ⟨0, 152, 0⟩).map
        (fun e1 => (e1.orders, e1.latencies)) = some ([], []) :=
  have hs : (fun q : ℚ => q / 2) 4 = 2 := by norm_num
  have h := vol_breakout_reads_current_price (fun q => q / 2) hs 12 elevenSampleEngine rfl
  ⟨hs, h.2.2.2.2.1, rfl, h.2.2.2.2.2.2⟩

end TradeEngine

/-! ## Recency accessors and the running sums -/

namespace PriceHistory

variable {CAP : Nat}

theorem last2_of_tracks {h : PriceHistory CAP} {pre : List ℚ} {b c : ℚ} (hC : 2 ≤ CAP)
    (ht : Tracks h (pre ++ [b, c])) : h.last2 = some (b, c) := by
  have hsz : ¬ h.size < 2 := by
    rw [ht.size_eq]; simp; omega
  have hlen : (pre ++ [b, c]).length = pre.length + 2 := by simp
  have e2 := getD_back ht 2 (by omega) (by omega) hC
  have e1 := getD_back ht 1 (by omega) (by omega) (by omega)
  rw [hlen] at e1 e2
  simp only [Nat.add_sub_cancel, show pre.length + 2 - 1 = pre.length + 1 by omega] at e1 e2
  have r2 : (pre ++ [b, c]).getD pre.length 0 = b := by
    rw [List.getD_eq_getElem?_getD, List.getElem?_append_right (le_refl _)]; simp
  have r1 : (pre ++ [b, c]).getD (pre.length + 1) 0 = c := by
    rw [List.getD_eq_getElem?_getD, List.getElem?_append_right (by omega)]; simp
  unfold last2
  rw [if_neg hsz]
  simp only [e1, e2, r1, r2]

theorem last_of_tracks {h : PriceHistory CAP} {pre : List ℚ} {c : ℚ} (hC : 1 ≤ CAP)
    (ht : Tracks h (pre ++ [c])) : h.last = some c := by
  have hsz : ¬ h.size = 0 := by
    rw [ht.size_eq]; simp; omega
  have hlen : (pre ++ [c]).length = pre.length + 1 := by simp
  have e1 := getD_back ht 1 (by omega) (by omega) hC
  rw [hlen] at e1
  simp only [Nat.add_sub_cancel] at e1
  have r1 : (pre ++ [c]).getD pre.length 0 = c := by
    rw [List.getD_eq_getElem?_getD, List.getElem?_append_right (le_refl _)]; simp
  unfold last
  rw [if_neg hsz]
  simp only [e1, r1]

end PriceHistory

/-- C11: for a window of capacity `C ≥ 3`, `last`, `last2` and `last3` report
unavailable exactly when `size` is below 1, 2 and 3; `size` is the number of
insertions capped at `C`; and after any sequence of insertions, however long,
they return the last one, two and three inserted prices, oldest first. -/
theorem lastk_returns_most_recent (C : Nat) (hC : 3 ≤ C) (h : PriceHistory C)
    (xs pre : List ℚ) (a b c : ℚ) :
    (h.last = none ↔ h.size < 1) ∧ (h.last2 = none ↔ h.size < 2) ∧
    (h.last3 = none ↔ h.size < 3) ∧
    (PriceHistory.addAll ({} : PriceHistory C) xs).size = min xs.length C ∧
    ((PriceHistory.addAll ({} : PriceHistory C) xs).last = none ↔ xs.length < 1) ∧
    ((PriceHistory.addAll ({} : PriceHistory C) xs).last2 = none ↔ xs.length < 2) ∧
    ((PriceHistory.addAll ({} : PriceHistory C) xs).last3 = none ↔ xs.length < 3) ∧
    (PriceHistory.addAll ({} : PriceHistory C) (pre ++ [c])).last = some c ∧
    (PriceHistory.addAll ({} : PriceHistory C) (pre ++ [b, c])).last2 = some (b, c) ∧
    (PriceHistory.addAll ({} : PriceHistory C) (pre ++ [a, b, c])).last3 = some (a, b, c) := by
  have h1 : ∀ g : PriceHistory C, g.last = none ↔ g.size < 1 := by
    intro g; unfold PriceHistory.last; split_ifs with h0 <;> simp <;> omega
  have h2 : ∀ g : PriceHistory C, g.last2 = none ↔ g.size < 2 := by
    intro g; unfold PriceHistory.last2; split_ifs with h0 <;> simp <;> omega
  have h3 : ∀ g : PriceHistory C, g.last3 = none ↔ g.size < 3 := by
    intro g; unfold PriceHistory.last3; split_ifs with h0 <;> simp <;> omega
  have hsz := (PriceHistory.tracks_of_empty (by omega : 0 < C) xs).size_eq
  refine ⟨h1 h, h2 h, h3 h, hsz, ?_, ?_, ?_,
    PriceHistory.last_of_tracks (by omega) (PriceHistory.tracks_of_empty (by omega) _),
    PriceHistory.last2_of_tracks (by omega) (PriceHistory.tracks_of_empty (by omega) _),
    PriceHistory.last3_of_tracks hC (PriceHistory.tracks_of_empty (by omega) _)⟩
  · rw [h1, hsz]; omega
  · rw [h2, hsz]; omega
  · rw [h3, hsz]; omega

/-- C11, witness: capacity 3 after four insertions, so the buffer has wrapped. -/
theorem lastk_returns_most_recent_witness :
    3 ≤ 3 ∧ (PriceHistory.addAll ({} : PriceHistory 3) [1, 2, 3, 4]).last3 = some (2, 3, 4) ∧
      (PriceHistory.addAll ({} : PriceHistory 3) [1, 2, 3, 4]).last2 = some (3, 4) ∧
      (PriceHistory.addAll ({} : PriceHistory 3) [1, 2, 3, 4]).last = some 4 ∧
      ((PriceHistory.addAll ({} : PriceHistory 3) [7, 8]).last3 = none ↔
        ([7, 8] : List ℚ).length < 3) :=
  ⟨le_refl 3,
    (lastk_returns_most_recent 3 (le_refl 3) {} [] [1] 2 3 4).2.2.2.2.2.2.2.2.2,
    (lastk_returns_most_recent 3 (le_refl 3) {} [] [1, 2] 2 3 4).2.2.2.2.2.2.2.2.1,
    (lastk_returns_most_recent 3 (le_refl 3) {} [] [1, 2, 3] 2 3 4).2.2.2.2.2.2.2.1,
    (lastk_returns_most_recent 3 (le_refl 3) {} [7, 8] [] 2 3 4).2.2.2.2.2.2.1⟩

/-- C13: after any sequence of `add` calls on an empty window of capacity
`C ≥ 1`, `size` is the number of insertions capped at `C` (so at most `C`),
`head` is below `C`, the samples held are the last `min(n, C)` inserted prices,
each stored in its ring slot, and `sum` and `sumsq` are the sum of the held
samples and of their squares. -/
theorem running_sums_track_window (C : Nat) (hC : 1 ≤ C) (xs : List ℚ) :
    (PriceHistory.addAll ({} : PriceHistory C) xs).size = min xs.length C ∧
    (PriceHistory.addAll ({} : PriceHistory C) xs).size ≤ C ∧
    (PriceHistory.addAll ({} : PriceHistory C) xs).head < C ∧
    (PriceHistory.addAll ({} : PriceHistory C) xs).buf.length = C ∧
    lastN C xs = xs.drop (xs.length - min xs.length C) ∧
    (lastN C xs).length = (PriceHistory.addAll ({} : PriceHistory C) xs).size ∧
    (∀ j, j < xs.length → xs.length ≤ j + C →
      (PriceHistory.addAll ({} : PriceHistory C) xs).buf[j % C]? = xs[j]?) ∧
    (PriceHistory.addAll ({} : PriceHistory C) xs).sum = (lastN C xs).sum ∧
    (PriceHistory.addAll ({} : PriceHistory C) xs).sumsq =
      ((lastN C xs).map (fun x => x * x)).sum := by
  have ht := @PriceHistory.tracks_of_empty C hC xs
  refine ⟨ht.size_eq, ?_, ?_, ht.len, ?_, ?_, ht.slot, ht.sum_eq, ht.sumsq_eq⟩
  · rw [ht.size_eq]; exact Nat.min_le_right _ _
  · rw [ht.head_eq]; exact Nat.mod_lt _ hC
  · unfold lastN
    congr 1
    omega
  · rw [PriceHistory.length_lastN, ht.size_eq]

/-- C13, witness: capacity 2 after one and after three insertions. -/
theorem running_sums_track_window_witness :
    1 ≤ 2 ∧ (PriceHistory.addAll ({} : PriceHistory 2) [5]).sum = (lastN 2 [5]).sum ∧
      (PriceHistory.addAll ({} : PriceHistory 2) [1, 2, 4]).size = min ([1, 2, 4] : List ℚ).length 2 ∧
      (PriceHistory.addAll ({} : PriceHistory 2) [1, 2, 4]).sumsq =
        ((lastN 2 [1, 2, 4]).map (fun x => x * x)).sum :=
  ⟨by decide, (running_sums_track_window 2 (by decide) [5]).2.2.2.2.2.2.2.1,
    (running_sums_track_window 2 (by decide) [1, 2, 4]).1,
    (running_sums_track_window 2 (by decide) [1, 2, 4]).2.2.2.2.2.2.2.2⟩

theorem bumpCounts_getD (mask : Nat) (counts : List Nat) (hlen : counts.length = 4)
    (s : Nat) (hs : s < 4) :
    (bumpCounts mask counts).length = 4 ∧
    (bumpCounts mask counts).getD s 0 =
      counts.getD s 0 + (if mask &&& (1 <<< s) ≠ 0 then 1 else 0) := by
  match counts, hlen with
  | [a, b, c, d], _ =>
    have hr : List.range 4 = [0, 1, 2, 3] := rfl
    unfold bumpCounts
    rw [hr]
    simp only [List.foldl_cons, List.foldl_nil]
    constructor
    · split_ifs <;> simp
    · interval_cases s <;> split_ifs <;> simp_all

theorem counts_fold (s : Nat) (hs : s < 4) :
    ∀ (voted : List TickVotes) (c0 : List Nat), c0.length = 4 →
      (voted.foldl (fun c r => bumpCounts r.votes.mask c) c0).getD s 0 =
        c0.getD s 0 + voted.countP (fun r => decide (r.votes.mask &&& (1 <<< s) ≠ 0)) := by
  intro voted
  induction voted with
  | nil => intro c0 _; simp
  | cons r rest ih =>
    intro c0 hlen
    obtain ⟨h1, h2⟩ := bumpCounts_getD r.votes.mask c0 hlen s hs
    rw [List.foldl_cons, ih _ h1, h2, List.countP_cons]
    by_cases hb : r.votes.mask &&& (1 <<< s) ≠ 0
    · simp [hb]; omega
    · simp [hb]

namespace TradeEngine

/-- C16: from a fresh engine and a feed whose ids all have a window, after
`process` each of the four attribution counters equals the number of emitted
orders whose `signal_mask` has that signal's bit set. -/
theorem counters_match_order_masks (sqrt : ℚ → ℚ) (volSignal : Bool) (clock : Nat → Int)
    (feed : List MarketData) (n : Nat)
    (hids : ∀ t ∈ feed, 0 ≤ t.instrument_id ∧ t.instrument_id < (n : Int))
    (s : Nat) (hs : s < 4) :
    ∃ e', process sqrt volSignal clock (new feed n) = some e' ∧
      e'.per_signal_counts.getD s 0 =
        e'.orders.countP (fun o => decide (o.signal_mask &&& (1 <<< s) ≠ 0)) := by
  have hids' : ∀ t ∈ feed, 0 ≤ t.instrument_id ∧
      t.instrument_id < ((new feed n).price_hist.length : Int) := by
    intro t ht; simpa [new] using hids t ht
  obtain ⟨e', hrun, hord, -, hcnt, -, -⟩ :=
    processFrom_spec sqrt volSignal clock feed 0 (new feed n) hids'
  refine ⟨e', hrun, ?_⟩
  have hc0 : (new feed n).per_signal_counts = [0, 0, 0, 0] := rfl
  have ho0 : (new feed n).orders = [] := rfl
  have hz : (new feed n).per_signal_counts.getD s 0 = 0 := by
    rw [hc0]; interval_cases s <;> rfl
  rw [hcnt, counts_fold s hs _ _ (by rw [hc0]; rfl), hz, Nat.zero_add, hord, ho0,
    List.nil_append, List.countP_map]
  rfl

/-- C16, witness: the momentum counter on the three-tick scenario feed. -/
theorem counters_match_order_masks_witness :
    (∀ t ∈ scenarioFeed 0 0 0, 0 ≤ t.instrument_id ∧ t.instrument_id < ((10 : Nat) : Int)) ∧
      2 < 4 ∧
      ∃ e', process (fun q => q) true (fun i => (i : Int)) (new (scenarioFeed 0 0 0) 10) = some e' ∧
        e'.per_signal_counts.getD 2 0 =
          e'.orders.countP (fun o => decide (o.signal_mask &&& (1 <<< 2) ≠ 0)) :=
  ⟨scenarioFeed_ids 0 0 0, by decide,
    counters_match_order_masks (fun q => q) true (fun i => (i : Int)) (scenarioFeed 0 0 0) 10
      (scenarioFeed_ids 0 0 0) 2 (by decide)⟩

theorem processFrom_append (sqrt : ℚ → ℚ) (vol : Bool) (clock : Nat → Int) :
    ∀ (a b : List MarketData) (k : Nat) (e : TradeEngine),
      processFrom sqrt vol clock k e (a ++ b) =
        (processFrom sqrt vol clock k e a).bind
          (fun e1 => processFrom sqrt vol clock (k + a.length) e1 b) := by
  intro a
  induction a with
  | nil => intro b k e; simp [processFrom]
  | cons t rest ih =>
    intro b k e
    simp only [List.cons_append, processFrom, List.length_cons]
    cases hstep : processTick sqrt vol (clock k) e t with
    | none => rfl
    | some e1 =>
      have : k + (rest.length + 1) = k + 1 + rest.length := by omega
      rw [this]
      exact ih b (k + 1) e1

/-- C15, amended: the constructor builds the engine for every feed without
looking at the instrument ids: it stores the feed as it is and allocates
`n_instruments` empty windows.  A tick whose id has no window is met only
inside `process`: every tick before it is processed first, with its orders
and latency samples recorded, and the lookup `price_hist[tick.instrument_id]`
for the stray tick is then made with an index outside the vector, which still
has `n_instruments` windows.  The source programs no check and no failure for
that access; what it does is not determined by the source and is not
asserted here. -/
theorem stray_id_met_inside_process (sqrt : ℚ → ℚ) (volSignal : Bool) (clock : Nat → Int)
    (pre post : List MarketData) (bad : MarketData) (n : Nat)
    (hpre : ∀ t ∈ pre, 0 ≤ t.instrument_id ∧ t.instrument_id < (n : Int))
    (hbad : bad.instrument_id < 0 ∨ (n : Int) ≤ bad.instrument_id) :
    (new (pre ++ bad :: post) n).price_hist = List.replicate n {} ∧
    (new (pre ++ bad :: post) n).market_data = pre ++ bad :: post ∧
    (new (pre ++ bad :: post) n).orders = [] ∧
    ∃ e1, processFrom sqrt volSignal clock 0 (new (pre ++ bad :: post) n) pre = some e1 ∧
      e1.orders = (votedTicks (voteTrace sqrt volSignal 0 (List.replicate n {}) pre)).map
        (fun r => makeOrder (clock r.pos) r.tick r.votes) ∧
      e1.latencies = (votedTicks (voteTrace sqrt volSignal 0 (List.replicate n {}) pre)).map
        (fun r => clock r.pos - r.tick.timestamp) ∧
      e1.price_hist.length = n ∧
      (bad.instrument_id < 0 ∨ (e1.price_hist.length : Int) ≤ bad.instrument_id) := by
  have hpre1 : ∀ t ∈ pre, 0 ≤ t.instrument_id ∧
      t.instrument_id < ((new (pre ++ bad :: post) n).price_hist.length : Int) := by
    intro t ht; simpa [new] using hpre t ht
  obtain ⟨e1, hrun, hord, hlat, -, -, hlen⟩ :=
    processFrom_spec sqrt volSignal clock pre 0 (new (pre ++ bad :: post) n) hpre1
  have hlen1 : e1.price_hist.length = n := by rw [hlen]; simp [new]
  refine ⟨rfl, rfl, rfl, e1, hrun, ?_, ?_, hlen1, by rw [hlen1]; exact hbad⟩
  · simpa [new] using hord
  · simpa [new] using hlat

theorem strayIdFeed_first_tick :
    ∀ t ∈ [(⟨0, 104.0, 0⟩ : MarketData)],
      0 ≤ t.instrument_id ∧ t.instrument_id < ((1 : Nat) : Int) := by
  intro t ht
  simp only [List.mem_singleton] at ht
  subst ht
  exact ⟨le_refl _, by norm_num⟩

/-- C15, witness: instrument 5 on an engine with one window, after one good
tick: the good tick is processed and the engine still has one window when the
stray tick is reached. -/
theorem stray_id_met_inside_process_witness :
    (∀ t ∈ [(⟨0, 104.0, 0⟩ : MarketData)],
        0 ≤ t.instrument_id ∧ t.instrument_id < ((1 : Nat) : Int)) ∧
      ((5 : Int) < 0 ∨ ((1 : Nat) : Int) ≤ 5) ∧
      ∃ e1, processFrom (fun q => q) true (fun i => (i : Int)) 0
          (new ([⟨0, 104.0, 0⟩] ++ ⟨5, 100.0, 0⟩ :: []) 1) [⟨0, 104.0, 0⟩] = some e1 ∧
        e1.price_hist.length = 1 :=
  have hbad : (5 : Int) < 0 ∨ ((1 : Nat) : Int) ≤ 5 := Or.inr (by norm_num)
  ⟨strayIdFeed_first_tick, hbad,
    match stray_id_met_inside_process (fun q => q) true (fun i => (i : Int))
      [⟨0, 104.0, 0⟩] [] ⟨5, 100.0, 0⟩ 1 strayIdFeed_first_tick hbad with
    | ⟨_, _, _, e1, hrun, _, _, hlen, _⟩ => ⟨e1, hrun, hlen⟩⟩

/-- C15, counterexample: on `strayIdFeed`, whose second tick names instrument
5, with one instrument: the engine is constructed, holding the whole feed and
one window, and the first tick is processed and its order recorded; nothing
was rejected at construction, before any tick was processed. -/
theorem stray_id_not_rejected_at_construction :
    (new strayIdFeed 1).market_data = strayIdFeed ∧
      (new strayIdFeed 1).price_hist.length = 1 ∧
      (strayIdFeed.map (fun t => t.instrument_id)) = [0, 5] ∧
      (processFrom (fun q => q) true (fun i => (i : Int)) 0 (new strayIdFeed 1)
        (strayIdFeed.take 1)).map (fun e => e.orders) = some [⟨0, 104.01, true, 1, 0⟩] := by
  refine ⟨rfl, rfl, rfl, ?_⟩
  norm_num [processFrom, processTick, new, strayIdFeed, updatedWindow, makeOrder,
    castVotes, signal1, signal2, signal3, signal4_vol_breakout, PriceHistory.add,
    PriceHistory.last3, bumpCounts, List.replicate]

end TradeEngine

/-! ## Instruments do not interfere -/

theorem getD_set_other (hists : List (PriceHistory 32)) (j i : Nat) (w : PriceHistory 32)
    (h : j ≠ i) : (hists.set j w).getD i {} = hists.getD i {} := by
  rw [List.getD_eq_getElem?_getD, List.getD_eq_getElem?_getD, List.getElem?_set_ne h]

theorem getD_set_same (hists : List (PriceHistory 32)) (i : Nat) (w : PriceHistory 32)
    (h : i < hists.length) : (hists.set i w).getD i {} = w := by
  rw [List.getD_eq_getElem?_getD, List.getElem?_set_self h]; rfl

theorem voteTrace_filter (sqrt : ℚ → ℚ) (vol : Bool) (i : Int) (hi0 : 0 ≤ i) :
    ∀ (ticks : List MarketData) (k k2 : Nat) (hists hists2 : List (PriceHistory 32)),
      (∀ t ∈ ticks, 0 ≤ t.instrument_id ∧ t.instrument_id < (hists.length : Int) ∧
        t.instrument_id < (hists2.length : Int)) →
      hists.getD i.toNat {} = hists2.getD i.toNat {} →
      ((voteTrace sqrt vol k hists ticks).filter
          (fun r => decide (r.tick.instrument_id = i))).map (fun r => (r.tick, r.votes)) =
        (voteTrace sqrt vol k2 hists2
          (ticks.filter (fun t => decide (t.instrument_id = i)))).map
            (fun r => (r.tick, r.votes)) := by
  intro ticks
  induction ticks with
  | nil => intro k k2 hists hists2 _ _; simp [voteTrace]
  | cons t rest ih =>
    intro k k2 hists hists2 hids heq
    obtain ⟨h0, h1, h2⟩ := hids t (List.mem_cons_self _ _)
    have hrest : ∀ (w : PriceHistory 32) (w2 : PriceHistory 32) (a b : Nat), ∀ u ∈ rest,
        0 ≤ u.instrument_id ∧ u.instrument_id < ((hists.set a w).length : Int) ∧
          u.instrument_id < ((hists2.set b w2).length : Int) := by
      intro w w2 a b u hu
      rw [List.length_set, List.length_set]
      exact hids u (List.mem_cons_of_mem _ hu)
    by_cases hti : t.instrument_id = i
    · have hi1 : i.toNat < hists.length := by omega
      have hi2 : i.toNat < hists2.length := by omega
      simp only [voteTrace, List.filter_cons, hti, decide_True, if_true, List.map_cons]
      rw [heq]
      congr 1
      apply ih
      · exact hrest _ _ _ _
      · rw [getD_set_same _ _ _ hi1, getD_set_same _ _ _ hi2]
    · have hne : t.instrument_id.toNat ≠ i.toNat := by
        intro h
        omega
      simp only [voteTrace, List.filter_cons, hti, decide_False, if_false]
      apply ih
      · intro u hu
        rw [List.length_set]
        exact hids u (List.mem_cons_of_mem _ hu)
      · rw [getD_set_other _ _ _ _ hne]; exact heq

theorem decisions_of_voted (clock : Nat → Int) (l : List TickVotes) :
    ((votedTicks l).map (fun r => TradeEngine.makeOrder (clock r.pos) r.tick r.votes)).map
        decisionOf =
      (((l.map (fun r => (r.tick, r.votes))).filter
        (fun p => decide (1 ≤ p.2.buy_votes + p.2.sell_votes))).map
          (fun p => decisionOf (TradeEngine.makeOrder 0 p.1 p.2))) := by
  induction l with
  | nil => rfl
  | cons r rest ih =>
    rw [TradeEngine.votedTicks_cons]
    by_cases hv : 1 ≤ r.votes.buy_votes + r.votes.sell_votes
    · simp only [hv, if_true, List.map_cons, List.filter_cons, decide_True, ih]
      rfl
    · simp only [hv, if_false, List.map_cons, List.filter_cons, decide_False, ih]
      rfl

namespace TradeEngine

theorem filter_ids (feed : List MarketData) (n : Nat) (i : Int)
    (hids : ∀ t ∈ feed, 0 ≤ t.instrument_id ∧ t.instrument_id < (n : Int)) :
    ∀ t ∈ feed.filter (fun t => decide (t.instrument_id = i)),
      0 ≤ t.instrument_id ∧ t.instrument_id < (n : Int) :=
  fun t ht => hids t (List.mem_filter.1 ht).1

/-- C17: the loop body of `process` replaces only the window of the tick's
instrument and leaves every other window as it was.  Consequently, for a feed
whose ids all have a window and an instrument `i`, the orders emitted for `i`,
read as (price, side, signal mask) in order, are the same as those emitted when
only the ticks of `i` are processed. -/
theorem instruments_do_not_interfere (sqrt : ℚ → ℚ) (volSignal : Bool) (now : Int)
    (e : TradeEngine) (tick : MarketData) (hlo : 0 ≤ tick.instrument_id)
    (hhi : tick.instrument_id < (e.price_hist.length : Int))
    (clock clock2 : Nat → Int) (feed : List MarketData) (n : Nat)
    (hids : ∀ t ∈ feed, 0 ≤ t.instrument_id ∧ t.instrument_id < (n : Int))
    (i : Int) (hi : 0 ≤ i) :
    (∃ e1, processTick sqrt volSignal now e tick = some e1 ∧
      e1.price_hist.length = e.price_hist.length ∧
      ∀ j, j ≠ tick.instrument_id.toNat → e1.price_hist[j]? = e.price_hist[j]?) ∧
    (∃ e' e2, process sqrt volSignal clock (new feed n) = some e' ∧
      process sqrt volSignal clock2
        (new (feed.filter (fun t => decide (t.instrument_id = i))) n) = some e2 ∧
      (e'.orders.filter (fun o => decide (o.instrument_id = i))).map decisionOf =
        e2.orders.map decisionOf) := by
  constructor
  · obtain ⟨e1, hstep, hph, -, -, -⟩ := processTick_spec sqrt volSignal now e tick hlo hhi
    refine ⟨e1, hstep, by rw [hph, List.length_set], ?_⟩
    intro j hj
    rw [hph, List.getElem?_set_ne (Ne.symm hj)]
  · obtain ⟨e', hrun, hord, -⟩ := process_new_spec sqrt volSignal clock feed n hids
    obtain ⟨e2, hrun2, hord2, -⟩ := process_new_spec sqrt volSignal clock2 _ n
      (filter_ids feed n i hids)
    refine ⟨e', e2, hrun, hrun2, ?_⟩
    have hfilter := voteTrace_filter sqrt volSignal i hi feed 0 0 (List.replicate n {})
      (List.replicate n {}) (by
        intro t ht
        have := hids t ht
        simp only [List.length_replicate]
        exact ⟨this.1, this.2, this.2⟩) rfl
    rw [hord, hord2, List.filter_map]
    have hcomp : ((fun o : Order => decide (o.instrument_id = i)) ∘
        fun r : TickVotes => makeOrder (clock r.pos) r.tick r.votes) =
        fun r => decide (r.tick.instrument_id = i) := rfl
    rw [hcomp]
    have hcomm : (votedTicks (voteTrace sqrt volSignal 0 (List.replicate n {}) feed)).filter
        (fun r => decide (r.tick.instrument_id = i)) =
        votedTicks ((voteTrace sqrt volSignal 0 (List.replicate n {}) feed).filter
          (fun r => decide (r.tick.instrument_id = i))) := by
      unfold votedTicks
      rw [List.filter_filter, List.filter_filter]
      congr 1
      funext r
      exact Bool.and_comm _ _
    rw [hcomm, decisions_of_voted clock, decisions_of_voted clock2, hfilter]

theorem mixedFeed_ids :
    ∀ t ∈ mixedFeed, 0 ≤ t.instrument_id ∧ t.instrument_id < ((2 : Nat) : Int) := by
  intro t ht
  simp only [mixedFeed, List.mem_cons, List.mem_singleton, List.not_mem_nil, or_false] at ht
  rcases ht with rfl | rfl | rfl <;> constructor <;> norm_num

/-- C17, witness: instrument 0 in a feed that interleaves instruments 0 and 1. -/
theorem instruments_do_not_interfere_witness :
    (0 : Int) ≤ 1 ∧ (1 : Int) < ((new mixedFeed 2).price_hist.length : Int) ∧
      (∀ t ∈ mixedFeed, 0 ≤ t.instrument_id ∧ t.instrument_id < ((2 : Nat) : Int)) ∧
      (0 : Int) ≤ 0 ∧
      ∃ e' e2, process (fun q => q) true (fun k => (k : Int)) (new mixedFeed 2) = some e' ∧
        process (fun q => q) true (fun k => (k : Int))
          (new (mixedFeed.filter (fun t => decide (t.instrument_id = 0))) 2) = some e2 ∧
        (e'.orders.filter (fun o => decide (o.instrument_id = 0))).map decisionOf =
          e2.orders.map decisionOf :=
  have h1 : (1 : Int) < ((new mixedFeed 2).price_hist.length : Int) := by decide
  ⟨by decide, h1, mixedFeed_ids, le_refl _,
    (instruments_do_not_interfere (fun q => q) true 0 (new mixedFeed 2) ⟨1, 200.0, 0⟩
      (by decide) h1 (fun k => (k : Int)) (fun k => (k : Int)) mixedFeed 2 mixedFeed_ids 0
      (le_refl _)).2⟩

end TradeEngine

/-! ## Percentiles -/

theorem ascending_perm (l : List Int) : (ascending l).Perm l :=
  List.perm_insertionSort _ l

theorem ascending_congr {l1 l2 : List Int} (h : l1.Perm l2) : ascending l1 = ascending l2 :=
  List.eq_of_perm_of_sorted ((ascending_perm l1).trans (h.trans (ascending_perm l2).symm))
    (List.sorted_insertionSort _ l1) (List.sorted_insertionSort _ l2)

theorem nthElementBySorting_spec : NthElementSpec nthElementBySorting := by
  intro l idx _
  exact ⟨ascending_perm l, rfl⟩

theorem ascending_example : ascending [10, 20, 30, 40, 50] = [10, 20, 30, 40, 50] := by
  decide

/-- What is assumed of the rounding in the percentile rule: up to `2^53` it
does not cross an integer. -/
theorem pctIndex_bounds (fl : ℚ → ℚ)
    (hfl : ∀ x : ℚ, 0 ≤ x → x ≤ 2 ^ 53 → (⌊x⌋ : ℚ) ≤ fl x ∧ fl x ≤ (⌈x⌉ : ℚ))
    (p : ℚ) (hp0 : 0 ≤ p) (hp1 : p ≤ 1) (n : Nat) (hn : 0 < n) (hn53 : n ≤ 2 ^ 53) :
    pctIndex fl p n < n ∧
    ⌊p * ((n : ℚ) - 1)⌋ ≤ (pctIndex fl p n : Int) ∧
    (pctIndex fl p n : Int) ≤ ⌊p * ((n : ℚ) - 1)⌋ + 1 ∧
    ((pctIndex fl p n : Int) = ⌊p * ((n : ℚ) - 1)⌋ + 1 ↔
      fl (p * ((n : ℚ) - 1)) = (⌊p * ((n : ℚ) - 1)⌋ : ℚ) + 1) := by
  have hn1 : (1 : ℚ) ≤ n := by exact_mod_cast hn
  have hn53q : (n : ℚ) ≤ 2 ^ 53 := by exact_mod_cast hn53
  have hcast : (((n - 1 : Nat)) : ℚ) = (n : ℚ) - 1 := by
    rw [Nat.cast_sub hn]; simp
  have hconv : fl ((n : ℚ) - 1) = (n : ℚ) - 1 := by
    have h := hfl ((n : ℚ) - 1) (by linarith) (by linarith)
    have hi : (n : ℚ) - 1 = (((n : Int) - 1 : Int) : ℚ) := by push_cast; rfl
    rw [hi, Int.floor_intCast, Int.ceil_intCast] at h
    rw [hi]
    exact le_antisymm h.2 h.1
  have hX0 : 0 ≤ p * ((n : ℚ) - 1) := mul_nonneg hp0 (by linarith)
  have hX1 : p * ((n : ℚ) - 1) ≤ (n : ℚ) - 1 := by nlinarith
  obtain ⟨hlo, hhi⟩ := hfl (p * ((n : ℚ) - 1)) hX0 (by linarith)
  have hidx : (pctIndex fl p n : Int) = ⌊fl (p * ((n : ℚ) - 1))⌋ := by
    unfold pctIndex
    rw [hcast, hconv]
    apply Int.toNat_of_nonneg
    apply Int.floor_nonneg.2
    exact le_trans (by exact_mod_cast Int.floor_nonneg.2 hX0) hlo
  have hfloor_le : ⌊p * ((n : ℚ) - 1)⌋ ≤ ⌊fl (p * ((n : ℚ) - 1))⌋ := Int.le_floor.2 hlo
  have hceil : ⌈p * ((n : ℚ) - 1)⌉ ≤ ⌊p * ((n : ℚ) - 1)⌋ + 1 := Int.ceil_le_floor_add_one _
  have hceilq : (⌈p * ((n : ℚ) - 1)⌉ : ℚ) ≤ (⌊p * ((n : ℚ) - 1)⌋ : ℚ) + 1 := by
    exact_mod_cast hceil
  have hfl_le : fl (p * ((n : ℚ) - 1)) ≤ (⌊p * ((n : ℚ) - 1)⌋ : ℚ) + 1 := le_trans hhi hceilq
  have hfloor_up : ⌊fl (p * ((n : ℚ) - 1))⌋ ≤ ⌊p * ((n : ℚ) - 1)⌋ + 1 := by
    have : ⌊fl (p * ((n : ℚ) - 1))⌋ ≤ ⌊(((⌊p * ((n : ℚ) - 1)⌋ + 1 : Int)) : ℚ)⌋ :=
      Int.floor_le_floor (by push_cast; exact hfl_le)
    rwa [Int.floor_intCast] at this
  have hceil_n : ⌈p * ((n : ℚ) - 1)⌉ ≤ (n : Int) - 1 := by
    apply Int.ceil_le.2
    push_cast
    exact hX1
  have hfl_n : fl (p * ((n : ℚ) - 1)) ≤ (n : ℚ) - 1 := by
    have : (⌈p * ((n : ℚ) - 1)⌉ : ℚ) ≤ (((n : Int) - 1 : Int) : ℚ) := by exact_mod_cast hceil_n
    push_cast at this
    linarith
  have hidx_n : ⌊fl (p * ((n : ℚ) - 1))⌋ ≤ (n : Int) - 1 := by
    have : ⌊fl (p * ((n : ℚ) - 1))⌋ ≤ ⌊((((n : Int) - 1 : Int)) : ℚ)⌋ :=
      Int.floor_le_floor (by push_cast; exact hfl_n)
    rwa [Int.floor_intCast] at this
  refine ⟨by omega, by omega, by omega, ?_⟩
  rw [hidx]
  constructor
  · intro h
    apply le_antisymm hfl_le
    have := Int.floor_le (fl (p * ((n : ℚ) - 1)))
    rw [h] at this
    push_cast at this
    exact this
  · intro h
    rw [h]
    have : ((⌊p * ((n : ℚ) - 1)⌋ : ℚ) + 1) = ((⌊p * ((n : ℚ) - 1)⌋ + 1 : Int) : ℚ) := by
      push_cast; rfl
    rw [this, Int.floor_intCast]

theorem roundDouble_half : roundDouble 0.50 = 1 / 2 := by
  have h := roundDouble_of_significand (2 ^ 52) (-53) (by norm_num) (by norm_num)
  norm_num at h ⊢
  exact h

theorem roundDouble_ninety_five : roundDouble 0.95 = 4278419646001971 / 2 ^ 52 := by
  rw [roundDouble_eval 0.95 (-1) 8556839292003942 (by norm_num [abs_of_pos])
    (by norm_num [abs_of_pos]) (roundHalfEven_of_near _ _ (by norm_num) (by norm_num))]
  norm_num

theorem pctIndex_half : pctIndex roundDouble (roundDouble 0.50) 5 = 2 := by
  unfold pctIndex
  rw [roundDouble_half]
  have h4 : roundDouble (((5 - 1 : Nat)) : ℚ) = 4 := by
    have := roundDouble_natCast 4 (by norm_num)
    exact_mod_cast this
  have h2 : roundDouble (1 / 2 * 4) = 2 := by
    have := roundDouble_natCast 2 (by norm_num)
    norm_num at this ⊢
    exact this
  rw [h4, h2]
  have : ⌊(2 : ℚ)⌋ = 2 := by rw [Int.floor_eq_iff]; norm_num
  rw [this]; rfl

theorem pctIndex_ninety_five : pctIndex roundDouble (roundDouble 0.95) 5 = 3 := by
  unfold pctIndex
  rw [roundDouble_ninety_five]
  have h4 : roundDouble (((5 - 1 : Nat)) : ℚ) = 4 := by
    have := roundDouble_natCast 4 (by norm_num)
    exact_mod_cast this
  have h2 : roundDouble (4278419646001971 / 2 ^ 52 * 4) = 4278419646001971 / 2 ^ 50 := by
    have h := roundDouble_of_significand 8556839292003942 (-51) (by norm_num) (by norm_num)
    norm_num at h ⊢
    exact h
  rw [h4, h2]
  have : ⌊(4278419646001971 / 2 ^ 50 : ℚ)⌋ = 3 := by rw [Int.floor_eq_iff]; norm_num
  rw [this]; rfl

theorem pct_spec (fl : ℚ → ℚ) (nth : List Int → Nat → List Int) (hnth : NthElementSpec nth)
    (samples copy : List Int) (hperm : copy.Perm samples) (p : ℚ)
    (hlt : pctIndex fl p samples.length < samples.length) :
    (ascending samples)[pctIndex fl p samples.length]? = some (pct fl nth copy p).1 ∧
      (pct fl nth copy p).2.Perm samples := by
  have hlen : copy.length = samples.length := hperm.length_eq
  have hce : copy.isEmpty = false := by
    cases copy with
    | nil => simp at hlen; omega
    | cons a t => rfl
  obtain ⟨hp, hel⟩ := hnth copy (pctIndex fl p samples.length) (by rw [hlen]; exact hlt)
  unfold pct
  simp only [hce, Bool.false_eq_true, if_false, hlen]
  refine ⟨?_, hp.trans hperm⟩
  rw [← ascending_congr hperm, ← hel, List.getD_eq_getElem?_getD]
  have hlt1 : pctIndex fl p samples.length <
      (nth copy (pctIndex fl p samples.length)).length := by
    rw [hp.length_eq, hlen]; exact hlt
  rw [List.getElem?_eq_getElem hlt1]
  rfl

theorem pctCalls_spec (fl : ℚ → ℚ) (nth : List Int → Nat → List Int)
    (hnth : NthElementSpec nth) (samples : List Int) :
    ∀ (ps : List ℚ) (copy : List Int), copy.Perm samples →
      (∀ p ∈ ps, pctIndex fl p samples.length < samples.length) →
      (pctCalls fl nth copy ps).1.map some =
        ps.map (fun p => (ascending samples)[pctIndex fl p samples.length]?) := by
  intro ps
  induction ps with
  | nil => intro copy _ _; rfl
  | cons p rest ih =>
    intro copy hperm hps
    obtain ⟨h1, h2⟩ := pct_spec fl nth hnth samples copy hperm p
      (hps p (List.mem_cons_self _ _))
    have := ih (pct fl nth copy p).2 h2 (fun q hq => hps q (List.mem_cons_of_mem _ hq))
    simp only [pctCalls, List.map_cons, this, h1]

/-- C12, amended: for a non-empty list of `n` latency samples and `p` in
[0, 1], with a `std::nth_element` that meets its contract, `pct(p)` returns the
element of the samples in ascending order at the index
`size_t(p * (n - 1))` the program computes, where the product is rounded to a
`double` before its fractional part is dropped; so also in every call of a run
of calls on the same working copy.  With a rounding that does not cross an
integer (as up to `2^53`), that index is inside the list and is
`floor(p × (n − 1))` or one more, one more exactly when the product is rounded
up to the next integer.  On an empty list `pct` returns 0.  For the samples 10,
20, 30, 40, 50 and the literals `0.50` and `0.95`, `pct` gives 30 and 40. -/
theorem pct_picks_floor_rank (fl : ℚ → ℚ) (nth : List Int → Nat → List Int)
    (hnth : NthElementSpec nth)
    (hfl : ∀ x : ℚ, 0 ≤ x → x ≤ 2 ^ 53 → (⌊x⌋ : ℚ) ≤ fl x ∧ fl x ≤ (⌈x⌉ : ℚ))
    (samples : List Int) (hne : samples ≠ []) (hlen : samples.length ≤ 2 ^ 53)
    (p : ℚ) (hp0 : 0 ≤ p) (hp1 : p ≤ 1)
    (ps : List ℚ) (hps : ∀ q ∈ ps, 0 ≤ q ∧ q ≤ 1) :
    pctIndex fl p samples.length < samples.length ∧
    ⌊p * ((samples.length : ℚ) - 1)⌋ ≤ (pctIndex fl p samples.length : Int) ∧
    (pctIndex fl p samples.length : Int) ≤ ⌊p * ((samples.length : ℚ) - 1)⌋ + 1 ∧
    ((pctIndex fl p samples.length : Int) = ⌊p * ((samples.length : ℚ) - 1)⌋ + 1 ↔
      fl (p * ((samples.length : ℚ) - 1)) = (⌊p * ((samples.length : ℚ) - 1)⌋ : ℚ) + 1) ∧
    (ascending samples)[pctIndex fl p samples.length]? = some (pct fl nth samples p).1 ∧
    (pctCalls fl nth samples ps).1.map some =
      ps.map (fun q => (ascending samples)[pctIndex fl q samples.length]?) ∧
    (pct fl nth [] p).1 = 0 ∧
    (pct roundDouble nth [10, 20, 30, 40, 50] (roundDouble 0.50)).1 = 30 ∧
    (pct roundDouble nth [10, 20, 30, 40, 50] (roundDouble 0.95)).1 = 40 ∧
    (pctCalls roundDouble nth [10, 20, 30, 40, 50] [roundDouble 0.50, roundDouble 0.95]).1 =
      [30, 40] := by
  have hpos : 0 < samples.length := List.length_pos.2 hne
  obtain ⟨hlt, hge, hle, hiff⟩ := pctIndex_bounds fl hfl p hp0 hp1 samples.length hpos hlen
  have hlen5 : ([10, 20, 30, 40, 50] : List Int).length = 5 := rfl
  have h50 := (pct_spec roundDouble nth hnth [10, 20, 30, 40, 50] _ (List.Perm.refl _)
    (roundDouble 0.50) (by rw [hlen5, pctIndex_half]; decide)).1
  have h95 := (pct_spec roundDouble nth hnth [10, 20, 30, 40, 50] _ (List.Perm.refl _)
    (roundDouble 0.95) (by rw [hlen5, pctIndex_ninety_five]; decide)).1
  have hcalls := pctCalls_spec roundDouble nth hnth [10, 20, 30, 40, 50]
    [roundDouble 0.50, roundDouble 0.95] _ (List.Perm.refl _) (by
      intro q hq
      simp only [List.mem_cons, List.mem_singleton, List.not_mem_nil, or_false] at hq
      rcases hq with rfl | rfl
      · rw [hlen5, pctIndex_half]; decide
      · rw [hlen5, pctIndex_ninety_five]; decide)
  rw [hlen5, pctIndex_half, ascending_example] at h50
  rw [hlen5, pctIndex_ninety_five, ascending_example] at h95
  simp only [List.map_cons, List.map_nil, hlen5, pctIndex_half, pctIndex_ninety_five,
    ascending_example] at hcalls
  refine ⟨hlt, hge, hle, hiff,
    (pct_spec fl nth hnth samples samples (List.Perm.refl _) p hlt).1,
    pctCalls_spec fl nth hnth samples ps samples (List.Perm.refl _)
      (fun q hq => (pctIndex_bounds fl hfl q (hps q hq).1 (hps q hq).2 samples.length hpos
        hlen).1),
    rfl, ?_, ?_, ?_⟩
  · exact (Option.some.inj h50).symm
  · exact (Option.some.inj h95).symm
  · have : (pctCalls roundDouble nth [10, 20, 30, 40, 50]
        [roundDouble 0.50, roundDouble 0.95]).1.map some = ([30, 40] : List Int).map some :=
      hcalls
    exact List.map_injective_iff.2 (Option.some_injective _) this

/-- C12, witness: the rounding of `double`, `std::nth_element` realised by a
full sort, the samples 50, 10, 40, 20, 30 and the call `pct(0.99)`, whose
argument is the `double` nearest 0.99. -/
theorem pct_picks_floor_rank_witness :
    NthElementSpec nthElementBySorting ∧
      (∀ x : ℚ, 0 ≤ x → x ≤ 2 ^ 53 →
        (⌊x⌋ : ℚ) ≤ roundDouble x ∧ roundDouble x ≤ (⌈x⌉ : ℚ)) ∧
      ([50, 10, 40, 20, 30] : List Int) ≠ [] ∧
      ([50, 10, 40, 20, 30] : List Int).length ≤ 2 ^ 53 ∧
      (0 : ℚ) ≤ 4458563631096791 / 2 ^ 52 ∧ (4458563631096791 / 2 ^ 52 : ℚ) ≤ 1 ∧
      (∀ q ∈ [(1 / 2 : ℚ)], 0 ≤ q ∧ q ≤ 1) ∧
      (ascending [50, 10, 40, 20, 30])[pctIndex roundDouble (4458563631096791 / 2 ^ 52) 5]? =
        some (pct roundDouble nthElementBySorting [50, 10, 40, 20, 30]
          (4458563631096791 / 2 ^ 52)).1 ∧
      (pct roundDouble nthElementBySorting [10, 20, 30, 40, 50] (roundDouble 0.50)).1 = 30 ∧
      (pct roundDouble nthElementBySorting [10, 20, 30, 40, 50] (roundDouble 0.95)).1 = 40 :=
  have hps : ∀ q ∈ [(1 / 2 : ℚ)], 0 ≤ q ∧ q ≤ 1 := by
    intro q hq
    simp only [List.mem_singleton] at hq
    subst hq
    constructor <;> norm_num
  have h := pct_picks_floor_rank roundDouble nthElementBySorting nthElementBySorting_spec
    roundDouble_between [50, 10, 40, 20, 30] (by decide) (by norm_num)
    (4458563631096791 / 2 ^ 52) (by norm_num) (by norm_num) [1 / 2] hps
  ⟨nthElementBySorting_spec, roundDouble_between, by decide, by norm_num, by norm_num,
    by norm_num, hps, h.2.2.2.2.1, h.2.2.2.2.2.2.2.1, h.2.2.2.2.2.2.2.2.1⟩

theorem roundDouble_third :
    roundDouble (6004799503160661 / 2 ^ 54) = 6004799503160661 / 2 ^ 54 := by
  have h := roundDouble_of_significand 6004799503160661 (-54) (by norm_num) (by norm_num)
  norm_num at h ⊢
  exact h

theorem pctIndex_third : pctIndex roundDouble (6004799503160661 / 2 ^ 54) 4 = 1 := by
  unfold pctIndex
  have h3 : roundDouble (((4 - 1 : Nat)) : ℚ) = 3 := by
    have := roundDouble_natCast 3 (by norm_num)
    exact_mod_cast this
  have h1 : roundDouble (6004799503160661 / 2 ^ 54 * 3) = 1 := by
    rw [roundDouble_eval _ (-1) (2 ^ 53) (by norm_num [abs_of_pos]) (by norm_num [abs_of_pos])
      (roundHalfEven_tie_up _ _ (by norm_num) (by norm_num))]
    norm_num
  rw [h3, h1]
  have : ⌊(1 : ℚ)⌋ = 1 := by rw [Int.floor_eq_iff]; norm_num
  rw [this]; rfl

theorem roundDouble_fifty_seven : roundDouble 0.57 = 5134103575202365 / 2 ^ 53 := by
  rw [roundDouble_eval 0.57 (-1) 5134103575202365 (by norm_num [abs_of_pos])
    (by norm_num [abs_of_pos]) (roundHalfEven_of_near _ _ (by norm_num) (by norm_num))]
  norm_num

theorem pctIndex_fifty_seven : pctIndex roundDouble (roundDouble 0.57) 101 = 56 := by
  unfold pctIndex
  rw [roundDouble_fifty_seven]
  have h100 : roundDouble (((101 - 1 : Nat)) : ℚ) = 100 := by
    have := roundDouble_natCast 100 (by norm_num)
    exact_mod_cast this
  have h1 : roundDouble (5134103575202365 / 2 ^ 53 * 100) = 8022036836253695 / 2 ^ 47 := by
    rw [roundDouble_eval _ 5 8022036836253695 (by norm_num [abs_of_pos])
      (by norm_num [abs_of_pos]) (roundHalfEven_of_near _ _ (by norm_num) (by norm_num))]
    norm_num
  rw [h100, h1]
  have : ⌊(8022036836253695 / 2 ^ 47 : ℚ)⌋ = 56 := by rw [Int.floor_eq_iff]; norm_num
  rw [this]; rfl

/-- C12, counterexample: the `double` nearest 1/3 lies in [0, 1] and its
exact product with 3 is below 1, so `floor(p × (n − 1))` is 0 for four
samples; the product rounds to 1.0, and `pct` returns the element at index 1
of the samples in ascending order, 20, not the one at index 0.  Likewise the
call `pct(0.57)` on 101 samples selects index 56, while
floor(0.57 × 100) = 57. -/
theorem pct_rank_differs_from_floor :
    roundDouble (6004799503160661 / 2 ^ 54) = 6004799503160661 / 2 ^ 54 ∧
      (0 : ℚ) ≤ 6004799503160661 / 2 ^ 54 ∧ (6004799503160661 / 2 ^ 54 : ℚ) ≤ 1 ∧
      ⌊(6004799503160661 / 2 ^ 54 : ℚ) * (((4 : Nat) : ℚ) - 1)⌋ = 0 ∧
      pctIndex roundDouble (6004799503160661 / 2 ^ 54) 4 = 1 ∧
      (pct roundDouble nthElementBySorting [10, 20, 30, 40] (6004799503160661 / 2 ^ 54)).1 =
        20 ∧
      (ascending [10, 20, 30, 40])[0]? = some 10 ∧
      pctIndex roundDouble (roundDouble 0.57) 101 = 56 ∧
      ⌊(0.57 : ℚ) * (((101 : Nat) : ℚ) - 1)⌋ = 57 := by
  refine ⟨roundDouble_third, by norm_num, by norm_num, ?_, pctIndex_third, ?_, by decide,
    pctIndex_fifty_seven, ?_⟩
  · rw [Int.floor_eq_iff]; norm_num
  · have hasc : ascending [10, 20, 30, 40] = [10, 20, 30, 40] := by decide
    have hlen4 : ([10, 20, 30, 40] : List Int).length = 4 := rfl
    simp only [pct, List.isEmpty_cons, Bool.false_eq_true, if_false, hlen4, pctIndex_third,
      nthElementBySorting, hasc]
    rfl
  · rw [Int.floor_eq_iff]; norm_num

/-! ## The volatility signal inside `process` -/

theorem signal4_silent (sqrt : ℚ → ℚ) (tick : MarketData) (b s : Int) (hist : PriceHistory 32)
    (hlast : hist.last = some tick.price) :
    signal4_vol_breakout sqrt tick b s hist = ⟨false, b, s⟩ := by
  unfold signal4_vol_breakout
  by_cases h12 : hist.size < 12
  · rw [if_pos h12]
  · rw [if_neg h12, hlast]
    simp only [sub_self]
    by_cases hsd : hist.stddev sqrt ≤ 1e-9
    · rw [if_pos hsd]
    · rw [if_neg hsd]
      have hpos : (0 : ℚ) < hist.stddev sqrt := by
        have : (0 : ℚ) < 1e-9 := by norm_num
        linarith [not_le.1 hsd]
      rw [if_neg (by nlinarith), if_neg (by nlinarith)]

theorem castVotes_vol_irrelevant (sqrt sqrt0 : ℚ → ℚ) (tick : MarketData)
    (hist : PriceHistory 32) (hlast : hist.last = some tick.price) :
    castVotes sqrt true tick hist = castVotes sqrt0 false tick hist := by
  unfold castVotes
  simp only [if_true, Bool.false_eq_true, if_false, signal4_silent sqrt tick _ _ hist hlast]

theorem castVotes_mask_low (sqrt : ℚ → ℚ) (tick : MarketData) (hist : PriceHistory 32) :
    (castVotes sqrt false tick hist).mask &&& (1 <<< 3) = 0 := by
  unfold castVotes
  simp only [Bool.false_eq_true, if_false]
  cases (signal1 tick 0 0).fired <;>
    cases (signal2 tick (signal1 tick 0 0).buy (signal1 tick 0 0).sell hist).fired <;>
    cases (signal3 tick (signal2 tick (signal1 tick 0 0).buy (signal1 tick 0 0).sell hist).buy
      (signal2 tick (signal1 tick 0 0).buy (signal1 tick 0 0).sell hist).sell hist).fired <;>
    rfl

theorem updated_window_last (hists : List (PriceHistory 32))
    (hwf : ∀ w ∈ hists, ∃ xs, PriceHistory.Tracks w xs) (i : Nat) (x : ℚ) :
    (∃ xs, PriceHistory.Tracks ((hists.getD i {}).add x) xs) ∧
      ((hists.getD i {}).add x).last = some x := by
  have hw : ∃ xs, PriceHistory.Tracks (hists.getD i {}) xs := by
    rw [List.getD_eq_getElem?_getD]
    by_cases hi : i < hists.length
    · rw [List.getElem?_eq_getElem hi]
      exact hwf _ (List.getElem_mem _)
    · rw [List.getElem?_eq_none (by omega)]
      exact ⟨[], PriceHistory.tracks_empty⟩
  obtain ⟨xs, ht⟩ := hw
  have ht' := PriceHistory.tracks_add (by norm_num) ht x
  exact ⟨⟨_, ht'⟩, PriceHistory.last_of_tracks (by norm_num) ht'⟩

theorem voteTrace_vol_irrelevant (sqrt sqrt0 : ℚ → ℚ) :
    ∀ (ticks : List MarketData) (k : Nat) (hists : List (PriceHistory 32)),
      (∀ w ∈ hists, ∃ xs, PriceHistory.Tracks w xs) →
      voteTrace sqrt true k hists ticks = voteTrace sqrt0 false k hists ticks := by
  intro ticks
  induction ticks with
  | nil => intro k hists _; rfl
  | cons t rest ih =>
    intro k hists hwf
    obtain ⟨htr, hlast⟩ := updated_window_last hists hwf t.instrument_id.toNat t.price
    simp only [voteTrace]
    rw [castVotes_vol_irrelevant sqrt sqrt0 t _ hlast, ih]
    intro w hw
    rcases List.mem_or_eq_of_mem_set hw with h | h
    · exact hwf w h
    · rw [h]; exact htr

theorem voteTrace_votes (sqrt : ℚ → ℚ) (vol : Bool) :
    ∀ (ticks : List MarketData) (k : Nat) (hists : List (PriceHistory 32)),
      ∀ r ∈ voteTrace sqrt vol k hists ticks,
        ∃ hist, r.votes = castVotes sqrt vol r.tick hist := by
  intro ticks
  induction ticks with
  | nil => intro k hists r hr; simp [voteTrace] at hr
  | cons t rest ih =>
    intro k hists r hr
    simp only [voteTrace, List.mem_cons] at hr
    rcases hr with rfl | hr
    · exact ⟨_, rfl⟩
    · exact ih _ _ r hr

theorem fresh_windows_tracked (n : Nat) :
    ∀ w ∈ List.replicate n ({} : PriceHistory 32), ∃ xs, PriceHistory.Tracks w xs := by
  intro w hw
  rw [List.eq_of_mem_replicate hw]
  exact ⟨[], PriceHistory.tracks_empty⟩

namespace TradeEngine

/-- C22: `process` inserts the tick's price before the signals run, so on every
window reached by insertions `hist.last` is the tick's own price and
`signal4_vol_breakout` returns false without a vote.  Hence, from a fresh engine
and a feed whose ids all have a window, the build with `ENABLE_VOL_SIGNAL` set
emits exactly the orders (and latencies and counters) of the build without it,
no order has bit 3 of its mask set, and `per_signal_counts[3]` is 0. -/
theorem vol_signal_never_votes (sqrt sqrt0 : ℚ → ℚ) (clock : Nat → Int)
    (feed : List MarketData) (n : Nat)
    (hids : ∀ t ∈ feed, 0 ≤ t.instrument_id ∧ t.instrument_id < (n : Int))
    (tick : MarketData) (w : PriceHistory 32) (xs : List ℚ) (hw : PriceHistory.Tracks w xs)
    (b s : Int) :
    (w.add tick.price).last = some tick.price ∧
    signal4_vol_breakout sqrt tick b s (w.add tick.price) = ⟨false, b, s⟩ ∧
    ∃ e' e0, process sqrt true clock (new feed n) = some e' ∧
      process sqrt0 false clock (new feed n) = some e0 ∧
      e'.orders = e0.orders ∧ e'.latencies = e0.latencies ∧
      e'.per_signal_counts = e0.per_signal_counts ∧
      (∀ o ∈ e'.orders, o.signal_mask &&& (1 <<< 3) = 0) ∧
      e'.per_signal_counts.getD 3 0 = 0 := by
  have hlast : (w.add tick.price).last = some tick.price :=
    PriceHistory.last_of_tracks (by norm_num) (PriceHistory.tracks_add (by norm_num) hw _)
  refine ⟨hlast, signal4_silent sqrt tick b s _ hlast, ?_⟩
  have hids' : ∀ t ∈ feed, 0 ≤ t.instrument_id ∧
      t.instrument_id < ((new feed n).price_hist.length : Int) := by
    intro t ht; simpa [new] using hids t ht
  obtain ⟨e', hrun, hord, hlat, hcnt, -, -⟩ :=
    processFrom_spec sqrt true clock feed 0 (new feed n) hids'
  obtain ⟨e0, hrun0, hord0, hlat0, hcnt0, -, -⟩ :=
    processFrom_spec sqrt0 false clock feed 0 (new feed n) hids'
  have htrace : voteTrace sqrt true 0 (new feed n).price_hist feed =
      voteTrace sqrt0 false 0 (new feed n).price_hist feed :=
    voteTrace_vol_irrelevant sqrt sqrt0 feed 0 _ (fresh_windows_tracked n)
  rw [htrace] at hord hlat hcnt
  have hmask : ∀ o ∈ e0.orders, o.signal_mask &&& (1 <<< 3) = 0 := by
    intro o ho
    rw [hord0] at ho
    have ho' : o ∈ (votedTicks (voteTrace sqrt0 false 0 (new feed n).price_hist feed)).map
        (fun r => makeOrder (clock r.pos) r.tick r.votes) := by simpa [new] using ho
    obtain ⟨r, hr, rfl⟩ := List.mem_map.1 ho'
    obtain ⟨h, hv⟩ := voteTrace_votes sqrt0 false feed 0 _ r (List.mem_of_mem_filter hr)
    show r.votes.mask &&& (1 <<< 3) = 0
    rw [hv]
    exact castVotes_mask_low sqrt0 r.tick h
  have hoo : e'.orders = e0.orders := by rw [hord, hord0]
  refine ⟨e', e0, hrun, hrun0, hoo, by rw [hlat, hlat0], by rw [hcnt, hcnt0], ?_, ?_⟩
  · rw [hoo]; exact hmask
  · have hc0 : (new feed n).per_signal_counts = [0, 0, 0, 0] := rfl
    rw [hcnt, counts_fold 3 (by decide) _ _ (by rw [hc0]; rfl), hc0]
    have : List.countP (fun r : TickVotes => decide (r.votes.mask &&& (1 <<< 3) ≠ 0))
        (votedTicks (voteTrace sqrt0 false 0 (new feed n).price_hist feed)) = 0 := by
      rw [List.countP_eq_zero]
      intro r hr
      obtain ⟨h, hv⟩ := voteTrace_votes sqrt0 false feed 0 _ r (List.mem_of_mem_filter hr)
      simp only [ne_eq, decide_not, Bool.not_eq_true', decide_eq_false_iff_not, not_not]
      rw [hv]
      exact castVotes_mask_low sqrt0 r.tick h
    rw [this]
    rfl

theorem breakoutFeed_ids :
    ∀ t ∈ breakoutFeed, 0 ≤ t.instrument_id ∧ t.instrument_id < ((10 : Nat) : Int) := by
  intro t ht
  simp only [breakoutFeed, List.mem_map] at ht
  obtain ⟨p, -, rfl⟩ := ht
  exact ⟨le_refl _, by norm_num⟩

/-- C22, witness: the twelve-tick feed of `breakoutPrices` on ten instruments,
and its twelfth tick on the window of the first eleven prices.  After the
insertion the window holds 12 samples with standard deviation 2, so
`signal4_vol_breakout` passes its guards and reaches the comparisons, where the
change it reads is 0. -/
theorem vol_signal_never_votes_witness :
    (∀ t ∈ breakoutFeed, 0 ≤ t.instrument_id ∧ t.instrument_id < ((10 : Nat) : Int)) ∧
      PriceHistory.Tracks (PriceHistory.addAll ({} : PriceHistory 32) (breakoutPrices.take 11))
        (breakoutPrices.take 11) ∧
      ((PriceHistory.addAll ({} : PriceHistory 32) (breakoutPrices.take 11)).add 152).size =
        12 ∧
      ((PriceHistory.addAll ({} : PriceHistory 32) (breakoutPrices.take 11)).add 152).stddev
        (fun q => q / 2) = 2 ∧
      signal4_vol_breakout (fun q => q / 2) ⟨0, 152, 0⟩ 0 0
        ((PriceHistory.addAll ({} : PriceHistory 32) (breakoutPrices.take 11)).add 152) =
          ⟨false, 0, 0⟩ ∧
      ∃ e1 e0, process (fun q => q / 2) true (fun k => (k : Int)) (new breakoutFeed 10) =
          some e1 ∧
        process (fun q => q) false (fun k => (k : Int)) (new breakoutFeed 10) = some e0 ∧
        e1.orders = e0.orders ∧ e1.per_signal_counts.getD 3 0 = 0 :=
  have hw : PriceHistory.Tracks
      (PriceHistory.addAll ({} : PriceHistory 32) (breakoutPrices.take 11))
      (breakoutPrices.take 11) := PriceHistory.tracks_of_empty (by norm_num) _
  have hwin : (PriceHistory.addAll ({} : PriceHistory 32) (breakoutPrices.take 11)).add 152 =
      PriceHistory.addAll ({} : PriceHistory 32) breakoutPrices := rfl
  have h := vol_signal_never_votes (fun q => q / 2) (fun q => q) (fun k => (k : Int))
    breakoutFeed 10 breakoutFeed_ids ⟨0, 152, 0⟩ _ _ hw 0 0
  ⟨breakoutFeed_ids, hw, by rw [hwin, breakoutWindow_eq],
    by rw [hwin]; exact (breakoutWindow_stats (fun q => q / 2) (by norm_num)).1, h.2.1,
    match h.2.2 with
    | ⟨e1, e0, h1, h2, h3, _, _, _, h7⟩ => ⟨e1, e0, h1, h2, h3, h7⟩⟩

end TradeEngine

/-! ## Votes and mask bits -/

theorem vote_of_cases (r : SignalResult) (b s : Int)
    (h : r = ⟨true, b + 1, s⟩ ∨ r = ⟨true, b, s + 1⟩ ∨ r = ⟨false, b, s⟩) :
    r.buy + r.sell = b + s + (if r.fired then 1 else 0) := by
  rcases h with h | h | h <;> rw [h] <;> simp <;> ring

theorem signal1_cases (tick : MarketData) (b s : Int) :
    signal1 tick b s = ⟨true, b + 1, s⟩ ∨ signal1 tick b s = ⟨true, b, s + 1⟩ ∨
      signal1 tick b s = ⟨false, b, s⟩ := by
  unfold signal1; split_ifs <;> simp

theorem signal2_cases (tick : MarketData) (b s : Int) (hist : PriceHistory 32) :
    signal2 tick b s hist = ⟨true, b + 1, s⟩ ∨ signal2 tick b s hist = ⟨true, b, s + 1⟩ ∨
      signal2 tick b s hist = ⟨false, b, s⟩ := by
  unfold signal2; simp only; split_ifs <;> simp

theorem signal3_cases (tick : MarketData) (b s : Int) (hist : PriceHistory 32) :
    signal3 tick b s hist = ⟨true, b + 1, s⟩ ∨ signal3 tick b s hist = ⟨true, b, s + 1⟩ ∨
      signal3 tick b s hist = ⟨false, b, s⟩ := by
  unfold signal3
  split
  · simp
  · simp only; split_ifs <;> simp

theorem signal4_cases (sqrt : ℚ → ℚ) (tick : MarketData) (b s : Int)
    (hist : PriceHistory 32) :
    signal4_vol_breakout sqrt tick b s hist = ⟨true, b + 1, s⟩ ∨
      signal4_vol_breakout sqrt tick b s hist = ⟨true, b, s + 1⟩ ∨
      signal4_vol_breakout sqrt tick b s hist = ⟨false, b, s⟩ := by
  unfold signal4_vol_breakout
  split_ifs
  · simp
  · split
    · simp
    · simp only; split_ifs <;> simp

theorem signal1_one_vote (tick : MarketData) (b s : Int) :
    (signal1 tick b s).buy + (signal1 tick b s).sell =
      b + s + (if (signal1 tick b s).fired then 1 else 0) :=
  vote_of_cases _ b s (signal1_cases tick b s)

theorem signal2_one_vote (tick : MarketData) (b s : Int) (hist : PriceHistory 32) :
    (signal2 tick b s hist).buy + (signal2 tick b s hist).sell =
      b + s + (if (signal2 tick b s hist).fired then 1 else 0) :=
  vote_of_cases _ b s (signal2_cases tick b s hist)

theorem signal3_one_vote (tick : MarketData) (b s : Int) (hist : PriceHistory 32) :
    (signal3 tick b s hist).buy + (signal3 tick b s hist).sell =
      b + s + (if (signal3 tick b s hist).fired then 1 else 0) :=
  vote_of_cases _ b s (signal3_cases tick b s hist)

theorem signal4_one_vote (sqrt : ℚ → ℚ) (tick : MarketData) (b s : Int)
    (hist : PriceHistory 32) :
    (signal4_vol_breakout sqrt tick b s hist).buy + (signal4_vol_breakout sqrt tick b s hist).sell =
      b + s + (if (signal4_vol_breakout sqrt tick b s hist).fired then 1 else 0) :=
  vote_of_cases _ b s (signal4_cases sqrt tick b s hist)

theorem maskOf_bits (f1 f2 f3 f4 : Bool) :
    setBits (maskOf f1 f2 f3 f4) =
        (if f1 then 1 else 0) + (if f2 then 1 else 0) + (if f3 then 1 else 0) +
          (if f4 then 1 else 0) ∧
      maskOf f1 f2 f3 f4 ≤ 15 ∧
      (maskOf f1 f2 f3 f4 &&& (1 <<< 0) ≠ 0 ↔ f1 = true) ∧
      (maskOf f1 f2 f3 f4 &&& (1 <<< 1) ≠ 0 ↔ f2 = true) ∧
      (maskOf f1 f2 f3 f4 &&& (1 <<< 2) ≠ 0 ↔ f3 = true) ∧
      (maskOf f1 f2 f3 f4 &&& (1 <<< 3) ≠ 0 ↔ f4 = true) := by
  cases f1 <;> cases f2 <;> cases f3 <;> cases f4 <;> decide

theorem signal2_fired (tick : MarketData) (b s : Int) (hist : PriceHistory 32) :
    (signal2 tick b s hist).fired = (signal2 tick 0 0 hist).fired := by
  unfold signal2; simp only; split_ifs <;> rfl

theorem signal3_fired (tick : MarketData) (b s : Int) (hist : PriceHistory 32) :
    (signal3 tick b s hist).fired = (signal3 tick 0 0 hist).fired := by
  unfold signal3
  split
  · rfl
  · simp only; split_ifs <;> rfl

theorem signal4_fired (sqrt : ℚ → ℚ) (tick : MarketData) (b s : Int)
    (hist : PriceHistory 32) :
    (signal4_vol_breakout sqrt tick b s hist).fired =
      (signal4_vol_breakout sqrt tick 0 0 hist).fired := by
  unfold signal4_vol_breakout
  split_ifs
  · rfl
  · split
    · rfl
    · simp only; split_ifs <;> rfl

theorem castVotes_mask_eq (sqrt : ℚ → ℚ) (vol : Bool) (tick : MarketData)
    (hist : PriceHistory 32) :
    (castVotes sqrt vol tick hist).mask =
      maskOf (signal1 tick 0 0).fired (signal2 tick 0 0 hist).fired
        (signal3 tick 0 0 hist).fired (vol && (signal4_vol_breakout sqrt tick 0 0 hist).fired) := by
  rw [← signal2_fired tick (signal1 tick 0 0).buy (signal1 tick 0 0).sell hist,
    ← signal3_fired tick
      (signal2 tick (signal1 tick 0 0).buy (signal1 tick 0 0).sell hist).buy
      (signal2 tick (signal1 tick 0 0).buy (signal1 tick 0 0).sell hist).sell hist,
    ← signal4_fired sqrt tick
      (signal3 tick (signal2 tick (signal1 tick 0 0).buy (signal1 tick 0 0).sell hist).buy
        (signal2 tick (signal1 tick 0 0).buy (signal1 tick 0 0).sell hist).sell hist).buy
      (signal3 tick (signal2 tick (signal1 tick 0 0).buy (signal1 tick 0 0).sell hist).buy
        (signal2 tick (signal1 tick 0 0).buy (signal1 tick 0 0).sell hist).sell hist).sell hist]
  cases vol <;> rfl

theorem castVotes_sum (sqrt : ℚ → ℚ) (vol : Bool) (tick : MarketData) (hist : PriceHistory 32) :
    (castVotes sqrt vol tick hist).buy_votes + (castVotes sqrt vol tick hist).sell_votes =
      (setBits (castVotes sqrt vol tick hist).mask : Int) := by
  have h1 := signal1_one_vote tick 0 0
  have h2 := signal2_one_vote tick (signal1 tick 0 0).buy (signal1 tick 0 0).sell hist
  have h3 := signal3_one_vote tick
    (signal2 tick (signal1 tick 0 0).buy (signal1 tick 0 0).sell hist).buy
    (signal2 tick (signal1 tick 0 0).buy (signal1 tick 0 0).sell hist).sell hist
  have h4 := signal4_one_vote sqrt tick
    (signal3 tick (signal2 tick (signal1 tick 0 0).buy (signal1 tick 0 0).sell hist).buy
      (signal2 tick (signal1 tick 0 0).buy (signal1 tick 0 0).sell hist).sell hist).buy
    (signal3 tick (signal2 tick (signal1 tick 0 0).buy (signal1 tick 0 0).sell hist).buy
      (signal2 tick (signal1 tick 0 0).buy (signal1 tick 0 0).sell hist).sell hist).sell hist
  rw [signal2_fired] at h2
  rw [signal3_fired] at h3
  rw [signal4_fired] at h4
  rw [castVotes_mask_eq, (maskOf_bits _ _ _ _).1]
  unfold castVotes
  cases vol
  · simp only [Bool.false_eq_true, if_false, Bool.false_and]
    rw [h3, h2, h1]
    push_cast
    ring
  · simp only [if_true, Bool.true_and]
    rw [h4, h3, h2, h1]
    push_cast
    ring

theorem setBits_pos (m : Nat) (hm : m ≤ 15) : 1 ≤ setBits m ↔ m ≠ 0 := by
  interval_cases m <;> decide

namespace TradeEngine

/-- C23: every signal returns with at most one vote added, and returns true
exactly when it added one.  In `process` bit `k` of the mask is set exactly when
signal `k` returned true, so `buy_votes + sell_votes` is the number of set bits
of the mask, which is at most 15, and a tick has a vote exactly when its mask is
not 0.  Hence, from a fresh engine and a feed whose ids all have a window, every
emitted order has a `signal_mask` between 1 and 15. -/
theorem votes_count_mask_bits (sqrt : ℚ → ℚ) (volSignal : Bool) (tick : MarketData)
    (hist : PriceHistory 32) (b s : Int) (clock : Nat → Int) (feed : List MarketData) (n : Nat)
    (hids : ∀ t ∈ feed, 0 ≤ t.instrument_id ∧ t.instrument_id < (n : Int)) :
    ((signal1 tick b s).buy + (signal1 tick b s).sell =
      b + s + (if (signal1 tick b s).fired then 1 else 0)) ∧
    ((signal2 tick b s hist).buy + (signal2 tick b s hist).sell =
      b + s + (if (signal2 tick b s hist).fired then 1 else 0)) ∧
    ((signal3 tick b s hist).buy + (signal3 tick b s hist).sell =
      b + s + (if (signal3 tick b s hist).fired then 1 else 0)) ∧
    ((signal4_vol_breakout sqrt tick b s hist).buy +
        (signal4_vol_breakout sqrt tick b s hist).sell =
      b + s + (if (signal4_vol_breakout sqrt tick b s hist).fired then 1 else 0)) ∧
    ((castVotes sqrt volSignal tick hist).mask &&& (1 <<< 0) ≠ 0 ↔
      (signal1 tick 0 0).fired = true) ∧
    ((castVotes sqrt volSignal tick hist).mask &&& (1 <<< 1) ≠ 0 ↔
      (signal2 tick 0 0 hist).fired = true) ∧
    ((castVotes sqrt volSignal tick hist).mask &&& (1 <<< 2) ≠ 0 ↔
      (signal3 tick 0 0 hist).fired = true) ∧
    ((castVotes sqrt volSignal tick hist).mask &&& (1 <<< 3) ≠ 0 ↔
      (volSignal = true ∧ (signal4_vol_breakout sqrt tick 0 0 hist).fired = true)) ∧
    (castVotes sqrt volSignal tick hist).buy_votes +
        (castVotes sqrt volSignal tick hist).sell_votes =
      (setBits (castVotes sqrt volSignal tick hist).mask : Int) ∧
    (castVotes sqrt volSignal tick hist).mask ≤ 15 ∧
    (1 ≤ (castVotes sqrt volSignal tick hist).buy_votes +
        (castVotes sqrt volSignal tick hist).sell_votes ↔
      (castVotes sqrt volSignal tick hist).mask ≠ 0) ∧
    ∃ e', process sqrt volSignal clock (new feed n) = some e' ∧
      ∀ o ∈ e'.orders, 1 ≤ o.signal_mask ∧ o.signal_mask ≤ 15 := by
  have hbits := maskOf_bits (signal1 tick 0 0).fired (signal2 tick 0 0 hist).fired
    (signal3 tick 0 0 hist).fired (volSignal && (signal4_vol_breakout sqrt tick 0 0 hist).fired)
  have hle : ∀ (t : MarketData) (h : PriceHistory 32), (castVotes sqrt volSignal t h).mask ≤ 15 := by
    intro t h
    rw [castVotes_mask_eq]
    exact (maskOf_bits _ _ _ _).2.1
  have hpos : ∀ (t : MarketData) (h : PriceHistory 32),
      1 ≤ (castVotes sqrt volSignal t h).buy_votes + (castVotes sqrt volSignal t h).sell_votes ↔
        (castVotes sqrt volSignal t h).mask ≠ 0 := by
    intro t h
    rw [castVotes_sum, ← setBits_pos _ (hle t h)]
    exact_mod_cast Iff.rfl
  refine ⟨signal1_one_vote tick b s, signal2_one_vote tick b s hist,
    signal3_one_vote tick b s hist, signal4_one_vote sqrt tick b s hist, ?_, ?_, ?_, ?_,
    castVotes_sum sqrt volSignal tick hist, hle tick hist, hpos tick hist, ?_⟩
  · rw [castVotes_mask_eq]; exact hbits.2.2.1
  · rw [castVotes_mask_eq]; exact hbits.2.2.2.1
  · rw [castVotes_mask_eq]; exact hbits.2.2.2.2.1
  · rw [castVotes_mask_eq, hbits.2.2.2.2.2, Bool.and_eq_true]
  · obtain ⟨e', hrun, hord, -⟩ := process_new_spec sqrt volSignal clock feed n hids
    refine ⟨e', hrun, ?_⟩
    intro o ho
    rw [hord] at ho
    obtain ⟨r, hr, rfl⟩ := List.mem_map.1 ho
    obtain ⟨h, hv⟩ := voteTrace_votes sqrt volSignal feed 0 _ r (List.mem_of_mem_filter hr)
    have hvoted : 1 ≤ r.votes.buy_votes + r.votes.sell_votes := by
      have := (List.mem_filter.1 hr).2
      simpa using this
    show 1 ≤ r.votes.mask ∧ r.votes.mask ≤ 15
    rw [hv] at hvoted ⊢
    exact ⟨Nat.one_le_iff_ne_zero.2 ((hpos r.tick h).1 hvoted), hle r.tick h⟩

/-- C23, witness: the three-tick scenario feed on ten instruments. -/
theorem votes_count_mask_bits_witness :
    (∀ t ∈ scenarioFeed 0 0 0, 0 ≤ t.instrument_id ∧ t.instrument_id < ((10 : Nat) : Int)) ∧
      ∃ e', process (fun q => q) true (fun k => (k : Int)) (new (scenarioFeed 0 0 0) 10) =
          some e' ∧
        ∀ o ∈ e'.orders, 1 ≤ o.signal_mask ∧ o.signal_mask ≤ 15 :=
  ⟨scenarioFeed_ids 0 0 0,
    (votes_count_mask_bits (fun q => q) true ⟨0, 104.0, 0⟩ {} 0 0 (fun k => (k : Int))
      (scenarioFeed 0 0 0) 10 (scenarioFeed_ids 0 0 0)).2.2.2.2.2.2.2.2.2.2.2⟩

end TradeEngine

end HftSim

/-! # Properties of the linear-algebra kernels -/

namespace MatMul

theorem foldl_range_induction {β : Type} (P : Nat → β → Prop) (f : β → Nat → β) (b0 : β)
    (n : Nat) (h0 : P 0 b0) (hstep : ∀ t b, t < n → P t b → P (t + 1) (f b t)) :
    P n ((List.range n).foldl f b0) := by
  induction n with
  | zero => simpa using h0
  | succ m ih =>
    rw [List.range_succ, List.foldl_append]
    simp only [List.foldl_cons, List.foldl_nil]
    exact hstep m _ (Nat.lt_succ_self m)
      (ih (fun t b ht hP => hstep t b (Nat.lt_succ_of_lt ht) hP))

theorem foldl_add_eq_sum (g : Nat → ℚ) (n : Nat) :
    (List.range n).foldl (fun sum k => sum + g k) 0 = ∑ k in Finset.range n, g k := by
  apply foldl_range_induction (fun t s => s = ∑ k in Finset.range t, g k)
  · simp
  · intro t b _ hb
    rw [hb, Finset.sum_range_succ]

theorem getD_set_eq (l : List ℚ) (i : Nat) (a : ℚ) (h : i < l.length) :
    (l.set i a).getD i 0 = a := by
  rw [List.getD_eq_getElem?_getD, List.getElem?_set_self h]; rfl

theorem getD_set_ne (l : List ℚ) (i j : Nat) (a : ℚ) (h : i ≠ j) :
    (l.set i a).getD j 0 = l.getD j 0 := by
  rw [List.getD_eq_getElem?_getD, List.getD_eq_getElem?_getD, List.getElem?_set_ne h]

/-- A loop that updates the entries `o, o + 1, ..., o + n - 1` in turn, each
from its own old value. -/
theorem foldl_update_block (g : Nat → ℚ → ℚ) (o n : Nat) (r0 : List ℚ)
    (hn : o + n ≤ r0.length) :
    ((List.range n).foldl (fun r j => r.set (o + j) (g j (r.getD (o + j) 0))) r0).length =
        r0.length ∧
      ∀ p, ((List.range n).foldl (fun r j => r.set (o + j) (g j (r.getD (o + j) 0))) r0).getD p 0 =
        if o ≤ p ∧ p < o + n then g (p - o) (r0.getD p 0) else r0.getD p 0 := by
  refine foldl_range_induction
    (fun t r => t ≤ n → (r.length = r0.length ∧
      ∀ p, r.getD p 0 = if o ≤ p ∧ p < o + t then g (p - o) (r0.getD p 0) else r0.getD p 0))
    (fun r j => r.set (o + j) (g j (r.getD (o + j) 0))) r0 n ?_ ?_ (le_refl n)
  · intro _
    refine ⟨rfl, fun p => ?_⟩
    rw [if_neg (by omega)]
  · intro t r ht hP _
    obtain ⟨hlen, hval⟩ := hP (by omega)
    refine ⟨by rw [List.length_set, hlen], fun p => ?_⟩
    by_cases hp : p = o + t
    · subst hp
      rw [getD_set_eq _ _ _ (by rw [hlen]; omega), hval, if_neg (by omega),
        if_pos (by omega), Nat.add_sub_cancel_left]
    · rw [getD_set_ne _ _ _ _ (Ne.symm hp), hval]
      by_cases h1 : o ≤ p ∧ p < o + t
      · rw [if_pos h1, if_pos (by omega)]
      · rw [if_neg h1, if_neg (by omega)]

theorem foldl_update_prefix (g : Nat → ℚ → ℚ) (n : Nat) (r0 : List ℚ) (hn : n ≤ r0.length) :
    ((List.range n).foldl (fun r j => r.set j (g j (r.getD j 0))) r0).length = r0.length ∧
      ∀ p, ((List.range n).foldl (fun r j => r.set j (g j (r.getD j 0))) r0).getD p 0 =
        if p < n then g p (r0.getD p 0) else r0.getD p 0 := by
  have h := foldl_update_block g 0 n r0 (by omega)
  simpa using h

theorem foldl_write_matrix (dot : Nat → Nat → ℚ) (rA cB : Nat) (C : List ℚ)
    (hC : rA * cB ≤ C.length) :
    ((List.range rA).foldl
        (fun C i => (List.range cB).foldl (fun C j => C.set (i * cB + j) (dot i j)) C) C).length =
      C.length ∧
    (∀ i j, i < rA → j < cB →
      ((List.range rA).foldl
        (fun C i => (List.range cB).foldl (fun C j => C.set (i * cB + j) (dot i j)) C) C).getD
          (i * cB + j) 0 = dot i j) ∧
    (∀ p, rA * cB ≤ p →
      ((List.range rA).foldl
        (fun C i => (List.range cB).foldl (fun C j => C.set (i * cB + j) (dot i j)) C) C).getD
          p 0 = C.getD p 0) := by
  refine foldl_range_induction
    (fun t r => t ≤ rA → (r.length = C.length ∧
      (∀ i j, i < t → j < cB → r.getD (i * cB + j) 0 = dot i j) ∧
      (∀ p, t * cB ≤ p → r.getD p 0 = C.getD p 0)))
    (fun C i => (List.range cB).foldl (fun C j => C.set (i * cB + j) (dot i j)) C) C rA
    ?_ ?_ (le_refl rA)
  · intro _
    exact ⟨rfl, fun i j hi _ => absurd hi (Nat.not_lt_zero i), fun p _ => rfl⟩
  · intro t r ht hP _
    obtain ⟨hlen, hdone, hrest⟩ := hP (by omega)
    have hmul : (t + 1) * cB ≤ rA * cB := Nat.mul_le_mul_right cB ht
    have hsucc : (t + 1) * cB = t * cB + cB := Nat.succ_mul t cB
    obtain ⟨hlen2, hval⟩ := foldl_update_block (fun j _ => dot t j) (t * cB) cB r
      (by rw [hlen]; omega)
    refine ⟨by rw [hlen2, hlen], ?_, ?_⟩
    · intro i j hi hj
      rw [hval]
      by_cases hit : i = t
      · subst hit
        rw [if_pos (by omega), Nat.add_sub_cancel_left]
      · have hlt : i < t := by omega
        have h1 : (i + 1) * cB ≤ t * cB := Nat.mul_le_mul_right cB hlt
        have h2 : (i + 1) * cB = i * cB + cB := Nat.succ_mul i cB
        rw [if_neg (by omega)]
        exact hdone i j hlt hj
    · intro p hp
      rw [hval, if_neg (by omega)]
      exact hrest p (by omega)

theorem mv_row_major_sums (M v res : List ℚ) (rows cols : Nat) (hres : rows ≤ res.length) :
    ∃ r, multiply_mv_row_major (some M) rows cols (some v) (some res) = some r ∧
      r.length = res.length ∧
      (∀ i, i < rows →
        r.getD i 0 = ∑ j in Finset.range cols, M.getD (i * cols + j) 0 * v.getD j 0) ∧
      (∀ i, rows ≤ i → r.getD i 0 = res.getD i 0) := by
  obtain ⟨hlen, hval⟩ := foldl_update_prefix
    (fun i _ => (List.range cols).foldl
      (fun sum j => sum + M.getD (i * cols + j) 0 * v.getD j 0) 0) rows res hres
  refine ⟨_, rfl, hlen, ?_, ?_⟩
  · intro i hi
    rw [hval, if_pos hi, foldl_add_eq_sum]
  · intro i hi
    rw [hval, if_neg (by omega)]

/-- C19: `multiply_mv_row_major` overwrites `res[i]`, for every `i < rows`,
with the sum over `j < cols` of `M[i*cols + j] * v[j]`, whatever `res` held
before, and leaves the rest of `res` alone; for `M = [[1,2,3],[4,5,6]]` and
`v = [1,1,1]` the result is `[6, 15]`. -/
theorem mv_row_major_computes_products (M v res : List ℚ) (rows cols : Nat)
    (hres : rows ≤ res.length) (r0 r1 : ℚ) :
    (∃ r, multiply_mv_row_major (some M) rows cols (some v) (some res) = some r ∧
      r.length = res.length ∧
      (∀ i, i < rows →
        r.getD i 0 = ∑ j in Finset.range cols, M.getD (i * cols + j) 0 * v.getD j 0) ∧
      (∀ i, rows ≤ i → r.getD i 0 = res.getD i 0)) ∧
    multiply_mv_row_major (some [1, 2, 3, 4, 5, 6]) 2 3 (some [1, 1, 1]) (some [r0, r1]) =
      some [6, 15] := by
  constructor
  · exact mv_row_major_sums M v res rows cols hres
  · norm_num [multiply_mv_row_major, List.range_succ]

/-- C19, witness: a 2 × 3 matrix into a result buffer of length 3. -/
theorem mv_row_major_computes_products_witness :
    2 ≤ ([7, 8, 9] : List ℚ).length ∧
      ∃ r, multiply_mv_row_major (some [1, 2, 3, 4, 5, 6]) 2 3 (some [1, 1, 1])
          (some [7, 8, 9]) = some r ∧
        r.length = ([7, 8, 9] : List ℚ).length ∧
        (∀ i, i < 2 →
          r.getD i 0 = ∑ j in Finset.range 3,
            ([1, 2, 3, 4, 5, 6] : List ℚ).getD (i * 3 + j) 0 * ([1, 1, 1] : List ℚ).getD j 0) ∧
        (∀ i, 2 ≤ i → r.getD i 0 = ([7, 8, 9] : List ℚ).getD i 0) :=
  ⟨by decide,
    (mv_row_major_computes_products [1, 2, 3, 4, 5, 6] [1, 1, 1] [7, 8, 9] 2 3 (by decide)
      0 0).1⟩

theorem mv_col_major_sums (Mcol v res : List ℚ) (rows cols : Nat) (hres : rows ≤ res.length) :
    ∃ r, multiply_mv_col_major (some Mcol) rows cols (some v) (some res) = some r ∧
      r.length = res.length ∧
      ∀ i, r.getD i 0 =
        if i < rows then ∑ j in Finset.range cols, Mcol.getD (j * rows + i) 0 * v.getD j 0
        else res.getD i 0 := by
  obtain ⟨hlen0, hval0⟩ := foldl_update_prefix (fun _ _ => 0) rows res hres
  refine ⟨_, rfl, ?_⟩
  refine foldl_range_induction
    (fun (t : Nat) (r : List ℚ) => r.length = res.length ∧
      ∀ i, r.getD i 0 =
        if i < rows then ∑ j in Finset.range t, Mcol.getD (j * rows + i) 0 * v.getD j 0
        else res.getD i 0)
    (fun (res : List ℚ) (j : Nat) =>
        let vj := v.getD j 0
        (List.range rows).foldl
          (fun res i => res.set i (res.getD i 0 + Mcol.getD (j * rows + i) 0 * vj)) res)
    _ cols ?_ ?_
  · refine ⟨hlen0, fun i => ?_⟩
    rw [hval0]
    by_cases hi : i < rows
    · rw [if_pos hi, if_pos hi]; simp
    · rw [if_neg hi, if_neg hi]
  · intro t r _ hP
    obtain ⟨hlen, hval⟩ := hP
    obtain ⟨hlen2, hval2⟩ := foldl_update_prefix
      (fun i x => x + Mcol.getD (t * rows + i) 0 * v.getD t 0) rows r (by rw [hlen]; exact hres)
    refine ⟨by rw [hlen2, hlen], fun i => ?_⟩
    rw [hval2, hval]
    by_cases hi : i < rows
    · rw [if_pos hi, if_pos hi, if_pos hi, Finset.sum_range_succ]
    · rw [if_neg hi, if_neg hi, if_neg hi]

/-- C20: when `Mcol` is the column-major layout and `Mrow` the row-major layout
of the same `rows × cols` matrix, `multiply_mv_col_major` on `Mcol` and
`multiply_mv_row_major` on `Mrow` leave the same first `rows` entries in their
result buffers, whatever the buffers held before, and the same buffer when both
have length `rows`; for `Mcol = [1,4,2,5,3,6]`, `rows = 2`, `cols = 3`,
`v = [1,1,1]` the result is `[6, 15]`. -/
theorem mv_col_major_agrees_with_row_major (Mcol Mrow v res1 res2 : List ℚ)
    (rows cols : Nat)
    (hlayout : ∀ i j, i < rows → j < cols →
      Mcol.getD (idx_col i j rows) 0 = Mrow.getD (idx_row i j cols) 0)
    (h1 : rows ≤ res1.length) (h2 : rows ≤ res2.length) (r0 r1 : ℚ) :
    (∃ c r, multiply_mv_col_major (some Mcol) rows cols (some v) (some res1) = some c ∧
      multiply_mv_row_major (some Mrow) rows cols (some v) (some res2) = some r ∧
      (∀ i, i < rows → c.getD i 0 = r.getD i 0) ∧
      (res1.length = rows → res2.length = rows → c = r)) ∧
    multiply_mv_col_major (some [1, 4, 2, 5, 3, 6]) 2 3 (some [1, 1, 1]) (some [r0, r1]) =
      some [6, 15] := by
  constructor
  · obtain ⟨c, hc, hclen, hcval⟩ := mv_col_major_sums Mcol v res1 rows cols h1
    obtain ⟨r, hr, hrlen, hrval, -⟩ := mv_row_major_sums Mrow v res2 rows cols h2
    have hpt : ∀ i, i < rows → c.getD i 0 = r.getD i 0 := by
      intro i hi
      rw [hcval, if_pos hi, hrval i hi]
      apply Finset.sum_congr rfl
      intro j hj
      have := hlayout i j hi (Finset.mem_range.1 hj)
      unfold idx_col idx_row at this
      rw [this]
    refine ⟨c, r, hc, hr, hpt, ?_⟩
    intro hl1 hl2
    apply List.ext_getElem?
    intro k
    by_cases hk : k < rows
    · have := hpt k hk
      rw [List.getD_eq_getElem?_getD, List.getD_eq_getElem?_getD,
        List.getElem?_eq_getElem (by omega), List.getElem?_eq_getElem (by omega)] at this
      rw [List.getElem?_eq_getElem (by omega), List.getElem?_eq_getElem (by omega)]
      exact congrArg some this
    · rw [List.getElem?_eq_none (by omega), List.getElem?_eq_none (by omega)]
  · norm_num [multiply_mv_col_major, List.range_succ]

theorem layout_example :
    ∀ i j, i < 2 → j < 3 →
      ([1, 4, 2, 5, 3, 6] : List ℚ).getD (idx_col i j 2) 0 =
        ([1, 2, 3, 4, 5, 6] : List ℚ).getD (idx_row i j 3) 0 := by
  intro i j hi hj
  interval_cases i <;> interval_cases j <;> rfl

/-- C20, witness: the 2 × 3 matrix of `test_small` in both layouts. -/
theorem mv_col_major_agrees_with_row_major_witness :
    (∀ i j, i < 2 → j < 3 →
      ([1, 4, 2, 5, 3, 6] : List ℚ).getD (idx_col i j 2) 0 =
        ([1, 2, 3, 4, 5, 6] : List ℚ).getD (idx_row i j 3) 0) ∧
      2 ≤ ([7, 8] : List ℚ).length ∧ 2 ≤ ([0, 0] : List ℚ).length ∧
      ∃ c r, multiply_mv_col_major (some [1, 4, 2, 5, 3, 6]) 2 3 (some [1, 1, 1])
          (some [7, 8]) = some c ∧
        multiply_mv_row_major (some [1, 2, 3, 4, 5, 6]) 2 3 (some [1, 1, 1])
          (some [0, 0]) = some r ∧
        (∀ i, i < 2 → c.getD i 0 = r.getD i 0) ∧
        (([7, 8] : List ℚ).length = 2 → ([0, 0] : List ℚ).length = 2 → c = r) :=
  ⟨layout_example, by decide, by decide,
    (mv_col_major_agrees_with_row_major [1, 4, 2, 5, 3, 6] [1, 2, 3, 4, 5, 6] [1, 1, 1]
      [7, 8] [0, 0] 2 3 layout_example (by decide) (by decide) 0 0).1⟩

theorem mm_naive_sums (A B C : List ℚ) (rA cA cB : Nat) (hC : rA * cB ≤ C.length) :
    ∃ c, multiply_mm_naive (some A) rA cA (some B) cA cB (some C) = some c ∧
      c.length = C.length ∧
      ∀ i j, i < rA → j < cB →
        c.getD (idx_row i j cB) 0 =
          ∑ k in Finset.range cA, A.getD (idx_row i k cA) 0 * B.getD (idx_row k j cB) 0 := by
  obtain ⟨hlen, hval, -⟩ := foldl_write_matrix
    (fun i j => (List.range cA).foldl
      (fun sum k => sum + A.getD (i * cA + k) 0 * B.getD (k * cB + j) 0) 0) rA cB C hC
  refine ⟨_, by simp only [multiply_mm_naive, ne_eq, not_true_eq_false, if_false]; rfl, hlen, ?_⟩
  intro i j hi hj
  unfold idx_row
  rw [hval i j hi hj, foldl_add_eq_sum]

theorem mm_transposed_sums (A BT C : List ℚ) (rA cA cB : Nat) (hC : rA * cB ≤ C.length) :
    ∃ c, multiply_mm_transposed_b (some A) rA cA (some BT) cA cB (some C) = some c ∧
      c.length = C.length ∧
      ∀ i j, i < rA → j < cB →
        c.getD (idx_row i j cB) 0 =
          ∑ k in Finset.range cA, A.getD (idx_row i k cA) 0 * BT.getD (idx_row j k cA) 0 := by
  obtain ⟨hlen, hval, -⟩ := foldl_write_matrix
    (fun i j => (List.range cA).foldl
      (fun sum k => sum + A.getD (i * cA + k) 0 * BT.getD (j * cA + k) 0) 0) rA cB C hC
  refine ⟨_, by simp only [multiply_mm_transposed_b, ne_eq, not_true_eq_false, if_false]; rfl,
    hlen, ?_⟩
  intro i j hi hj
  unfold idx_row
  rw [hval i j hi hj, foldl_add_eq_sum]

theorem index_split (p rA cB : Nat) (hp : p < rA * cB) :
    p / cB < rA ∧ p % cB < cB ∧ p = idx_row (p / cB) (p % cB) cB := by
  have hcB : 0 < cB := by
    rcases Nat.eq_zero_or_pos cB with h | h
    · subst h; simp at hp
    · exact h
  refine ⟨?_, Nat.mod_lt _ hcB, ?_⟩
  · exact Nat.div_lt_of_lt_mul (by rwa [Nat.mul_comm] at hp)
  · unfold idx_row
    rw [Nat.mul_comm]
    exact (Nat.div_add_mod p cB).symm

/-- C18: with `rB = cA`, `multiply_mm_naive` writes into `C[i*cB + j]`, for
every `i < rA` and `j < cB`, the sum over `k < cA` of
`A[i*cA + k] * B[k*cB + j]`; `multiply_mm_transposed_b`, given the row-major
transpose `BT` of `B`, writes the same values, and the same array when both
output arrays have `rA * cB` entries.  For `A = [[1,2,3],[4,5,6]]` and
`B = [[7,8],[9,10],[11,12]]` both give `[58, 64, 139, 154]`. -/
theorem mm_naive_and_transposed_agree (A B BT C1 C2 : List ℚ) (rA cA rB cB : Nat)
    (hdim : rB = cA)
    (hBT : ∀ k j, k < rB → j < cB →
      BT.getD (idx_row j k rB) 0 = B.getD (idx_row k j cB) 0)
    (hC1 : rA * cB ≤ C1.length) (hC2 : rA * cB ≤ C2.length) (c0 c1 c2 c3 : ℚ) :
    (∃ c t, multiply_mm_naive (some A) rA cA (some B) rB cB (some C1) = some c ∧
      multiply_mm_transposed_b (some A) rA cA (some BT) rB cB (some C2) = some t ∧
      (∀ i j, i < rA → j < cB →
        c.getD (idx_row i j cB) 0 =
          ∑ k in Finset.range cA, A.getD (idx_row i k cA) 0 * B.getD (idx_row k j cB) 0) ∧
      (∀ i j, i < rA → j < cB → t.getD (idx_row i j cB) 0 = c.getD (idx_row i j cB) 0) ∧
      (C1.length = rA * cB → C2.length = rA * cB → t = c)) ∧
    multiply_mm_naive (some [1, 2, 3, 4, 5, 6]) 2 3 (some [7, 8, 9, 10, 11, 12]) 3 2
      (some [c0, c1, c2, c3]) = some [58, 64, 139, 154] ∧
    multiply_mm_transposed_b (some [1, 2, 3, 4, 5, 6]) 2 3
      (some (transposeRowMajor [7, 8, 9, 10, 11, 12] 3 2)) 3 2
      (some [c0, c1, c2, c3]) = some [58, 64, 139, 154] := by
  refine ⟨?_, ?_, ?_⟩
  · subst hdim
    obtain ⟨c, hc, hclen, hcval⟩ := mm_naive_sums A B C1 rA rB cB hC1
    obtain ⟨t, ht, htlen, htval⟩ := mm_transposed_sums A BT C2 rA rB cB hC2
    have hpt : ∀ i j, i < rA → j < cB →
        t.getD (idx_row i j cB) 0 = c.getD (idx_row i j cB) 0 := by
      intro i j hi hj
      rw [htval i j hi hj, hcval i j hi hj]
      apply Finset.sum_congr rfl
      intro k hk
      rw [hBT k j (Finset.mem_range.1 hk) hj]
    refine ⟨c, t, hc, ht, hcval, hpt, ?_⟩
    intro hl1 hl2
    apply List.ext_getElem?
    intro p
    by_cases hp : p < rA * cB
    · obtain ⟨hi, hj, hpe⟩ := index_split p rA cB hp
      have := hpt _ _ hi hj
      rw [← hpe, List.getD_eq_getElem?_getD, List.getD_eq_getElem?_getD,
        List.getElem?_eq_getElem (by omega), List.getElem?_eq_getElem (by omega)] at this
      rw [List.getElem?_eq_getElem (by omega), List.getElem?_eq_getElem (by omega)]
      exact congrArg some this
    · rw [List.getElem?_eq_none (by omega), List.getElem?_eq_none (by omega)]
  · norm_num [multiply_mm_naive, idx_row, List.range_succ]
  · norm_num [multiply_mm_transposed_b, transposeRowMajor, idx_row, List.range_succ,
      List.replicate]

theorem transpose_example :
    ∀ k j, k < 3 → j < 2 →
      (transposeRowMajor [7, 8, 9, 10, 11, 12] 3 2).getD (idx_row j k 3) 0 =
        ([7, 8, 9, 10, 11, 12] : List ℚ).getD (idx_row k j 2) 0 := by
  have h : transposeRowMajor [7, 8, 9, 10, 11, 12] 3 2 = [7, 9, 11, 8, 10, 12] := by
    norm_num [transposeRowMajor, idx_row, List.range_succ, List.replicate]
  intro k j hk hj
  rw [h]
  interval_cases k <;> interval_cases j <;> rfl

/-- C18, witness: the matrices of `test_small`, the transpose built by its
loop, and two output arrays with different prior content. -/
theorem mm_naive_and_transposed_agree_witness :
    3 = 3 ∧
      (∀ k j, k < 3 → j < 2 →
        (transposeRowMajor [7, 8, 9, 10, 11, 12] 3 2).getD (idx_row j k 3) 0 =
          ([7, 8, 9, 10, 11, 12] : List ℚ).getD (idx_row k j 2) 0) ∧
      2 * 2 ≤ ([0, 0, 0, 0] : List ℚ).length ∧ 2 * 2 ≤ ([5, 5, 5, 5] : List ℚ).length ∧
      ∃ c t, multiply_mm_naive (some [1, 2, 3, 4, 5, 6]) 2 3 (some [7, 8, 9, 10, 11, 12]) 3 2
          (some [0, 0, 0, 0]) = some c ∧
        multiply_mm_transposed_b (some [1, 2, 3, 4, 5, 6]) 2 3
          (some (transposeRowMajor [7, 8, 9, 10, 11, 12] 3 2)) 3 2 (some [5, 5, 5, 5]) =
            some t ∧
        t = c :=
  ⟨rfl, transpose_example, by decide, by decide,
    match (mm_naive_and_transposed_agree [1, 2, 3, 4, 5, 6] [7, 8, 9, 10, 11, 12]
      (transposeRowMajor [7, 8, 9, 10, 11, 12] 3 2) [0, 0, 0, 0] [5, 5, 5, 5] 2 3 3 2 rfl
      transpose_example (by decide) (by decide) 0 0 0 0).1 with
    | ⟨c, t, hc, ht, _, _, heq⟩ => ⟨c, t, hc, ht, heq rfl rfl⟩⟩

/-! ## The blocked kernel -/

theorem flatMap_congr_mem {α β : Type} (f g : α → List β) :
    ∀ (l : List α), (∀ x ∈ l, f x = g x) → l.flatMap f = l.flatMap g := by
  intro l
  induction l with
  | nil => intro _; rfl
  | cons a l ih =>
    intro h
    simp only [List.flatMap_cons]
    rw [h a (List.mem_cons_self _ _), ih (fun x hx => h x (List.mem_cons_of_mem _ hx))]

end MatMul

/-! # Properties of the matrix sums -/

namespace MatSum

theorem abs_sum_range_le (g : Nat → Int) (c : Int) (hg : ∀ k, |g k| ≤ c) (n : Nat) :
    |∑ k in Finset.range n, g k| ≤ c * n := by
  induction n with
  | zero => simp
  | succ n ih =>
    rw [Finset.sum_range_succ]
    have := abs_add (∑ k in Finset.range n, g k) (g n)
    have := hg n
    push_cast
    linarith

/-- A checked accumulation loop over `a, a + 1, ..., a + n - 1` whose steps
add `v k`, each at most `c` in size, succeeds and returns the exact sum as
long as the bound `L` leaves room for `c * n` more. -/
theorem foldlM_range_sum (f : Int → Nat → Option Int) (v : Nat → Int) (c L : Int)
    (hv : ∀ k, |v k| ≤ c) :
    ∀ (n a : Nat) (init : Int),
      (∀ acc k, a ≤ k → k < a + n → |acc| + c ≤ L → f acc k = some (acc + v k)) →
      |init| + c * n ≤ L →
      (List.range' a n).foldlM f init = some (init + ∑ k in Finset.range n, v (a + k)) := by
  intro n
  induction n with
  | zero => intro a init _ _; simp
  | succ n ih =>
    intro a init hstep hinit
    have hc : 0 ≤ c := le_trans (abs_nonneg _) (hv 0)
    push_cast at hinit
    have h0 : f init a = some (init + v a) :=
      hstep init a (le_refl _) (by omega) (by nlinarith)
    have hva := hv a
    have habs := abs_add init (v a)
    rw [List.range'_succ, List.foldlM_cons, h0]
    simp only [Option.bind_eq_bind, Option.some_bind]
    rw [ih (a + 1) (init + v a) (fun acc k h1 h2 h3 => hstep acc k (by omega) (by omega) h3)
      (by linarith), Finset.sum_range_succ']
    congr 1
    have : ∀ k, v (a + 1 + k) = v (a + (k + 1)) := fun k => by
      rw [Nat.add_assoc, Nat.add_comm 1 k]
    simp only [this, Nat.add_zero]
    ring
theorem checkedAdd_ok (w : Nat) (a b : Int) (h : |a + b| ≤ 2 ^ (w - 1) - 1) :
    checkedAdd w a b = some (a + b) := by
  unfold checkedAdd
  rw [if_pos]
  have := abs_le.1 h
  constructor <;> linarith

theorem toInt_of_small (x : Int) (h : |x| ≤ 2 ^ 31 - 1) : toInt x = x := by
  unfold toInt
  have := abs_le.1 h
  omega

theorem basic_step (L : Int) (hL : L ≤ 2 ^ 31 - 1) (m : List (List Int)) (i : Nat)
    (v : Nat → Int) (hv : ∀ k, |v k| ≤ 100) (acc : Int) (j : Nat)
    (hget : getElement m i j = some (v j)) (hacc : |acc| + 100 ≤ L) :
    ((getElement m i j).bind fun e => add (toInt acc) e) = some (acc + v j) := by
  have h1 := hv j
  have h2 := abs_add acc (v j)
  have h3 := abs_nonneg (v j)
  rw [hget, Option.some_bind, toInt_of_small acc (by linarith), add,
    checkedAdd_ok 32 _ _ (by norm_num; linarith)]

theorem read_step (w : Nat) (L : Int) (hL : L ≤ 2 ^ (w - 1) - 1) (p : List Int)
    (v : Nat → Int) (hv : ∀ k, |v k| ≤ 100) (acc : Int) (k : Nat)
    (hget : p[k]? = some (v k)) (hacc : |acc| + 100 ≤ L) :
    ((p[k]?).bind fun e => checkedAdd w acc e) = some (acc + v k) := by
  have h1 := hv k
  have h2 := abs_add acc (v k)
  rw [hget, Option.some_bind, checkedAdd_ok w _ _ (by linarith)]

theorem unrolledSum_spec (p : List Int) (v : Nat → Int) (hv : ∀ k, |v k| ≤ 100)
    (pos n : Nat) (hn : 0 < n) (hn32 : 100 * (n : Int) ≤ 2 ^ 31 - 1)
    (hp : ∀ k, pos ≤ k → k < pos + n → p[k]? = some (v k)) :
    unrolledSum p pos n = some (∑ k in Finset.Ico pos (pos + n), v k) := by
  unfold unrolledSum
  rw [hp pos (le_refl _) (by omega), Option.some_bind,
    foldlM_range_sum _ v 100 (2 ^ 31 - 1) hv (n - 1) (pos + 1) (v pos)
      (fun acc k h1 h2 h3 =>
        read_step 32 (2 ^ 31 - 1) (by norm_num) p v hv acc k (hp k (by omega) (by omega)) h3)
      (by
        have := hv pos
        have hcast : ((n - 1 : Nat) : Int) = (n : Int) - 1 := by omega
        rw [hcast]; linarith)]
  rw [Finset.sum_Ico_eq_sum_range, Nat.add_sub_cancel_left]
  obtain ⟨n, rfl⟩ : ∃ n1, n = n1 + 1 := ⟨n - 1, by omega⟩
  rw [Finset.sum_range_succ', Nat.add_sub_cancel]
  have : ∀ k, v (pos + 1 + k) = v (pos + (k + 1)) := fun k => by
    rw [Nat.add_assoc, Nat.add_comm 1 k]
  simp only [this, Nat.add_zero]
  rw [add_comm]

theorem abs_sum_Ico_le (v : Nat → Int) (hv : ∀ k, |v k| ≤ 100) (a n : Nat) :
    |∑ k in Finset.Ico a (a + n), v k| ≤ 100 * n := by
  rw [Finset.sum_Ico_eq_sum_range, Nat.add_sub_cancel_left]
  exact abs_sum_range_le (fun k => v (a + k)) 100 (fun k => hv _) n

theorem unrolledLoop_spec (n stop : Nat) (p : List Int) (v : Nat → Int)
    (hv : ∀ k, |v k| ≤ 100) (hn32 : 100 * (n : Int) ≤ 2 ^ 31 - 1)
    (hp : ∀ k, k < stop → p[k]? = some (v k)) :
    ∀ (d pos : Nat) (sum : Int), stop - pos = d → pos ≤ stop →
      |sum| + 100 * ((stop - pos : Nat) : Int) ≤ 2 ^ 63 - 1 →
      ∃ pos1, unrolledLoop n stop p pos sum =
          some (pos1, sum + ∑ k in Finset.Ico pos pos1, v k) ∧
        pos ≤ pos1 ∧ pos1 ≤ stop := by
  intro d
  induction d using Nat.strong_induction_on with
  | _ d ih =>
    intro pos sum hd hpos hsum
    rw [unrolledLoop]
    by_cases h : pos + (n - 1) < stop ∧ 0 < n
    · rw [dif_pos h, unrolledSum_spec p v hv pos n h.2 hn32 (fun k _ h2 => hp k (by omega))]
      have hs := abs_sum_Ico_le v hv pos n
      have habs := abs_add sum (∑ k in Finset.Ico pos (pos + n), v k)
      have hcast : ((stop - pos : Nat) : Int) = ((stop - (pos + n) : Nat) : Int) + n := by omega
      simp only
      rw [checkedAdd_ok 64 _ _ (by norm_num; linarith)]
      simp only
      obtain ⟨pos1, hres, h1, h2⟩ := ih (stop - (pos + n)) (by omega) (pos + n)
        (sum + ∑ k in Finset.Ico pos (pos + n), v k) rfl (by omega) (by linarith)
      refine ⟨pos1, ?_, by omega, h2⟩
      rw [hres, add_assoc, Finset.sum_Ico_consecutive v (by omega) h1]
    · rw [dif_neg h]
      exact ⟨pos, by simp, le_refl _, hpos⟩

theorem tailLoop_spec (stop : Nat) (p : List Int) (v : Nat → Int)
    (hv : ∀ k, |v k| ≤ 100) (hp : ∀ k, k < stop → p[k]? = some (v k))
    (pos : Nat) (sum : Int) (hpos : pos ≤ stop)
    (hsum : |sum| + 100 * ((stop - pos : Nat) : Int) ≤ 2 ^ 63 - 1) :
    tailLoop stop p pos sum = some (sum + ∑ k in Finset.Ico pos stop, v k) := by
  unfold tailLoop
  rw [foldlM_range_sum _ v 100 (2 ^ 63 - 1) hv (stop - pos) pos sum
      (fun acc k h1 h2 h3 =>
        read_step 64 (2 ^ 63 - 1) (by norm_num) p v hv acc k (hp k (by omega)) h3) hsum,
    Finset.sum_Ico_eq_sum_range]

/-- The two loops over one vector, blocks of `n` and then the rest, add the
entries `pos, ..., stop - 1` exactly. -/
theorem blocks_then_tail (n stop : Nat) (p : List Int) (v : Nat → Int)
    (hv : ∀ k, |v k| ≤ 100) (hn32 : 100 * (n : Int) ≤ 2 ^ 31 - 1)
    (hp : ∀ k, k < stop → p[k]? = some (v k)) (sum : Int)
    (hsum : |sum| + 100 * (stop : Int) ≤ 2 ^ 63 - 1) :
    ((unrolledLoop n stop p 0 sum).bind fun r => tailLoop stop p r.1 r.2) =
      some (sum + ∑ k in Finset.range stop, v k) := by
  obtain ⟨pos1, hres, h1, h2⟩ := unrolledLoop_spec n stop p v hv hn32 hp stop 0 sum rfl
    (Nat.zero_le _) (by simpa using hsum)
  have hs := abs_sum_Ico_le v hv 0 pos1
  have habs := abs_add sum (∑ k in Finset.Ico 0 pos1, v k)
  rw [Nat.zero_add] at hs
  have hcast : (stop : Int) = ((stop - pos1 : Nat) : Int) + pos1 := by omega
  rw [hres, Option.some_bind]
  simp only
  rw [tailLoop_spec stop p v hv hp pos1 _ h2 (by linarith), add_assoc,
    Finset.sum_Ico_consecutive v h1 h2, Finset.range_eq_Ico]
theorem sumMatrixBasic_spec (SIZE : Nat) (m : List (List Int)) (v : Nat → Int)
    (hv : ∀ k, |v k| ≤ 100) (hS : 100 * (SIZE : Int) * SIZE ≤ 2 ^ 31 - 1)
    (hget : ∀ i j, i < SIZE → j < SIZE → getElement m i j = some (v (i * SIZE + j))) :
    sumMatrixBasic SIZE m =
      some (∑ i in Finset.range SIZE, ∑ j in Finset.range SIZE, v (i * SIZE + j)) := by
  unfold sumMatrixBasic
  rw [List.range_eq_range']
  rw [foldlM_range_sum _ (fun i => ∑ j in Finset.range SIZE, v (i * SIZE + j))
    (100 * SIZE) (2 ^ 31 - 1)
    (fun i => abs_sum_range_le (fun j => v (i * SIZE + j)) 100 (fun j => hv _) SIZE)
    SIZE 0 0 ?_ (by simpa using hS)]
  · simp
  · intro acc i _ hi hacc
    rw [foldlM_range_sum _ (fun j => v (i * SIZE + j)) 100 (2 ^ 31 - 1) (fun j => hv _)
      SIZE 0 acc ?_ hacc]
    · simp
    · intro a j _ hj ha
      exact basic_step (2 ^ 31 - 1) (le_refl _) m i (fun j => v (i * SIZE + j))
        (fun j => hv _) a j (hget i j (by omega) (by omega)) ha

theorem sumMatrixOptimizedRows_spec (SIZE : Nat) (m : List (List Int)) (v : Nat → Int)
    (hv : ∀ k, |v k| ≤ 100) (hS : 100 * (SIZE : Int) * SIZE ≤ 2 ^ 63 - 1)
    (hrow : ∀ i, i < SIZE →
      ∃ p, m[i]? = some p ∧ ∀ j, j < SIZE → p[j]? = some (v (i * SIZE + j))) :
    sumMatrixOptimizedRows SIZE m =
      some (∑ i in Finset.range SIZE, ∑ j in Finset.range SIZE, v (i * SIZE + j)) := by
  unfold sumMatrixOptimizedRows
  rw [List.range_eq_range']
  rw [foldlM_range_sum _ (fun i => ∑ j in Finset.range SIZE, v (i * SIZE + j))
    (100 * SIZE) (2 ^ 63 - 1)
    (fun i => abs_sum_range_le (fun j => v (i * SIZE + j)) 100 (fun j => hv _) SIZE)
    SIZE 0 0 ?_ (by simpa using hS)]
  · simp
  · intro acc i _ hi hacc
    obtain ⟨p, hp, hpj⟩ := hrow i (by omega)
    rw [hp, Option.some_bind]
    exact blocks_then_tail 8 SIZE p (fun j => v (i * SIZE + j)) (fun j => hv _) (by norm_num)
      hpj acc hacc

theorem sumMatrixOptimizedFlat_spec (SIZE : Nat) (flat : List Int) (v : Nat → Int)
    (hv : ∀ k, |v k| ≤ 100) (hS : 100 * SIZE * SIZE < 2 ^ 31)
    (hflat : ∀ k, k < SIZE * SIZE → flat[k]? = some (v k)) :
    sumMatrixOptimizedFlat SIZE flat = some (∑ k in Finset.range (SIZE * SIZE), v k) := by
  unfold sumMatrixOptimizedFlat
  have h1 : SIZE * SIZE < 2 ^ 31 := by nlinarith
  rw [if_pos h1, blocks_then_tail 16 (SIZE * SIZE) flat v hv (by norm_num) hflat 0
    (by
      have : ((100 * SIZE * SIZE : Nat) : Int) < 2 ^ 31 := by exact_mod_cast hS
      push_cast at this ⊢
      simp only [abs_zero, zero_add]
      nlinarith)]
  simp

theorem sum_range_mul (v : Nat → Int) (S : Nat) (n : Nat) :
    ∑ k in Finset.range (n * S), v k =
      ∑ i in Finset.range n, ∑ j in Finset.range S, v (i * S + j) := by
  induction n with
  | zero => simp
  | succ n ih =>
    rw [Finset.sum_range_succ, ← ih, Nat.succ_mul, Finset.sum_range_add]
theorem list_sum_getD (l : List Int) :
    l.sum = ∑ k in Finset.range l.length, l.getD k 0 := by
  induction l with
  | nil => simp
  | cons a t ih =>
    rw [List.sum_cons, List.length_cons, Finset.sum_range_succ', ih, add_comm]
    rfl

theorem flat_index_lt (S i j : Nat) (hi : i < S) (hj : j < S) : i * S + j < S * S := by
  calc i * S + j < i * S + S := by omega
    _ = (i + 1) * S := by ring
    _ ≤ S * S := Nat.mul_le_mul_right _ hi

theorem flat_index_split (S k : Nat) (hk : k < S * S) :
    k / S < S ∧ k % S < S ∧ k / S * S + k % S = k := by
  have hS : 0 < S := by
    rcases Nat.eq_zero_or_pos S with h | h
    · subst h; simp at hk
    · exact h
  refine ⟨Nat.div_lt_of_lt_mul hk, Nat.mod_lt _ hS, ?_⟩
  rw [Nat.mul_comm]
  exact Nat.div_add_mod k S

/-- What the hypotheses on a matrix and its row-major flattening give the
loops: every read succeeds with the value at the flat index, and all values
are at most 100 in size. -/
theorem matrix_facts (SIZE : Nat) (m : List (List Int)) (flat : List Int)
    (hb : ∀ row ∈ m, ∀ x ∈ row, -100 ≤ x ∧ x ≤ 100)
    (hlen : flat.length = SIZE * SIZE)
    (hflat : ∀ i j, i < SIZE → j < SIZE → flat[i * SIZE + j]? = getElement m i j) :
    (∀ k, k < SIZE * SIZE → flat[k]? = some (flat.getD k 0)) ∧
    (∀ i j, i < SIZE → j < SIZE → getElement m i j = some (flat.getD (i * SIZE + j) 0)) ∧
    (∀ k, |flat.getD k 0| ≤ 100) := by
  have h1 : ∀ k, k < SIZE * SIZE → flat[k]? = some (flat.getD k 0) := by
    intro k hk
    rw [List.getD_eq_getElem?_getD, List.getElem?_eq_getElem (by omega)]
    rfl
  have h2 : ∀ i j, i < SIZE → j < SIZE →
      getElement m i j = some (flat.getD (i * SIZE + j) 0) := by
    intro i j hi hj
    rw [← hflat i j hi hj, h1 _ (flat_index_lt SIZE i j hi hj)]
  refine ⟨h1, h2, ?_⟩
  intro k
  by_cases hk : k < SIZE * SIZE
  · obtain ⟨hi, hj, hke⟩ := flat_index_split SIZE k hk
    have hg := h2 _ _ hi hj
    rw [hke] at hg
    unfold getElement at hg
    cases hrow : m[k / SIZE]? with
    | none => rw [hrow] at hg; simp at hg
    | some row =>
      rw [hrow, Option.some_bind] at hg
      have hmem : row ∈ m := List.getElem?_mem hrow
      have hx : flat.getD k 0 ∈ row := List.getElem?_mem hg
      have := hb row hmem _ hx
      exact abs_le.2 this
  · rw [List.getD_eq_default _ _ (by omega)]
    norm_num

theorem rows_of_getElement (SIZE : Nat) (m : List (List Int)) (v : Nat → Int)
    (hm : m.length = SIZE)
    (hget : ∀ i j, i < SIZE → j < SIZE → getElement m i j = some (v (i * SIZE + j))) :
    ∀ i, i < SIZE →
      ∃ p, m[i]? = some p ∧ ∀ j, j < SIZE → p[j]? = some (v (i * SIZE + j)) := by
  intro i hi
  refine ⟨m[i], List.getElem?_eq_getElem (by omega), ?_⟩
  intro j hj
  have := hget i j hi hj
  unfold getElement at this
  rwa [List.getElem?_eq_getElem (by omega), Option.some_bind] at this

theorem matrix_sum_eq (SIZE : Nat) (m : List (List Int)) (v : Nat → Int)
    (hm : m.length = SIZE) (hrows : ∀ row ∈ m, row.length = SIZE)
    (hget : ∀ i j, i < SIZE → j < SIZE → getElement m i j = some (v (i * SIZE + j))) :
    (m.map List.sum).sum =
      ∑ i in Finset.range SIZE, ∑ j in Finset.range SIZE, v (i * SIZE + j) := by
  rw [list_sum_getD, List.length_map, hm]
  apply Finset.sum_congr rfl
  intro i hi
  have hi := Finset.mem_range.1 hi
  obtain ⟨p, hp, hpj⟩ := rows_of_getElement SIZE m v hm hget i hi
  have hplen : p.length = SIZE := hrows p (List.getElem?_mem hp)
  rw [List.getD_eq_getElem?_getD, List.getElem?_map, hp]
  show p.sum = _
  rw [list_sum_getD, hplen]
  apply Finset.sum_congr rfl
  intro j hj
  rw [List.getD_eq_getElem?_getD, hpj j (Finset.mem_range.1 hj)]
  rfl

theorem build2DFromFlat_eq (SIZE : Nat) (m : List (List Int)) (flat : List Int)
    (hm : m.length = SIZE) (hrows : ∀ row ∈ m, row.length = SIZE)
    (hflat : ∀ i j, i < SIZE → j < SIZE → flat[i * SIZE + j]? = getElement m i j) :
    build2DFromFlat SIZE flat = m := by
  apply List.ext_getElem?
  intro i
  unfold build2DFromFlat
  by_cases hi : i < SIZE
  · rw [List.getElem?_map, List.getElem?_range hi, Option.map_some',
      List.getElem?_eq_getElem (by omega)]
    congr 1
    have hplen : m[i].length = SIZE := hrows _ (List.getElem_mem _)
    apply List.ext_getElem?
    intro j
    by_cases hj : j < SIZE
    · have hmi : m[i]? = some m[i] := List.getElem?_eq_getElem (by omega)
      have := hflat i j hi hj
      unfold getElement at this
      rw [hmi, Option.some_bind] at this
      rw [List.getElem?_take_of_lt hj, List.getElem?_drop, this]
    · have h1 : ((flat.drop (i * SIZE)).take SIZE).length ≤ j := by
        rw [List.length_take]; omega
      rw [List.getElem?_eq_none h1, List.getElem?_eq_none (by omega)]
  · rw [List.getElem?_eq_none (by rw [List.length_map, List.length_range]; omega),
      List.getElem?_eq_none (by omega)]
/-- C21: for every `SIZE` with `100·SIZE² < 2^31` (4096 is one), every
`SIZE × SIZE` matrix with entries in `[-100, 100]` and its row-major
flattening, `sumMatrixBasic` and `sumMatrixOptimizedRows` on the matrix and
`sumMatrixOptimizedFlat` on the flattening all return the exact sum of the
entries.  In particular no `int` addition overflows, neither in `add` nor in
the unrolled partial sums, since an overflow would make the result `none`; and
the matrix `build2DFromFlat` makes of the flattening is the matrix itself. -/
theorem matrix_sums_agree_and_are_exact (SIZE : Nat) (m : List (List Int)) (flat : List Int)
    (hS : 100 * SIZE * SIZE < 2 ^ 31)
    (hm : m.length = SIZE) (hrows : ∀ row ∈ m, row.length = SIZE)
    (hb : ∀ row ∈ m, ∀ x ∈ row, -100 ≤ x ∧ x ≤ 100)
    (hlen : flat.length = SIZE * SIZE)
    (hflat : ∀ i j, i < SIZE → j < SIZE → flat[i * SIZE + j]? = getElement m i j) :
    sumMatrixBasic SIZE m = some (m.map List.sum).sum ∧
    sumMatrixOptimizedRows SIZE m = some (m.map List.sum).sum ∧
    sumMatrixOptimizedFlat SIZE flat = some (m.map List.sum).sum ∧
    flat.sum = (m.map List.sum).sum ∧
    build2DFromFlat SIZE flat = m ∧
    100 * 4096 * 4096 < 2 ^ 31 := by
  obtain ⟨hread, hget, hv⟩ := matrix_facts SIZE m flat hb hlen hflat
  have hS32 : 100 * (SIZE : Int) * SIZE ≤ 2 ^ 31 - 1 := by
    have : ((100 * SIZE * SIZE : Nat) : Int) < 2 ^ 31 := by exact_mod_cast hS
    push_cast at this
    linarith
  have hsum := matrix_sum_eq SIZE m (fun k => flat.getD k 0) hm hrows hget
  have hflatsum := sum_range_mul (fun k => flat.getD k 0) SIZE SIZE
  refine ⟨?_, ?_, ?_, ?_, build2DFromFlat_eq SIZE m flat hm hrows hflat, by norm_num⟩
  · rw [hsum]
    exact sumMatrixBasic_spec SIZE m (fun k => flat.getD k 0) hv hS32 hget
  · have hS64 : 100 * (SIZE : Int) * SIZE ≤ 2 ^ 63 - 1 := by linarith
    rw [hsum]
    exact sumMatrixOptimizedRows_spec SIZE m (fun k => flat.getD k 0) hv hS64
      (rows_of_getElement SIZE m (fun k => flat.getD k 0) hm hget)
  · rw [hsum, ← hflatsum]
    exact sumMatrixOptimizedFlat_spec SIZE flat (fun k => flat.getD k 0) hv hS hread
  · rw [hsum, ← hflatsum, list_sum_getD, hlen]

theorem sampleFlat_index :
    ∀ i j, i < 9 → j < 9 → sampleFlat[i * 9 + j]? = getElement sampleMatrix i j := by
  have h : ∀ i, i < 9 → ∀ j, j < 9 →
      sampleFlat[i * 9 + j]? = getElement sampleMatrix i j := by
    decide
  exact fun i j hi hj => h i hi j hj

/-- C21, witness: `sampleMatrix` and `sampleFlat`, of size 9, whose entries add
up to 24. -/
theorem matrix_sums_agree_and_are_exact_witness :
    100 * 9 * 9 < 2 ^ 31 ∧ sampleMatrix.length = 9 ∧
      (∀ row ∈ sampleMatrix, row.length = 9) ∧
      (∀ row ∈ sampleMatrix, ∀ x ∈ row, -100 ≤ x ∧ x ≤ 100) ∧
      sampleFlat.length = 9 * 9 ∧
      (∀ i j, i < 9 → j < 9 → sampleFlat[i * 9 + j]? = getElement sampleMatrix i j) ∧
      sumMatrixBasic 9 sampleMatrix = some 24 ∧
      sumMatrixOptimizedRows 9 sampleMatrix = some 24 ∧
      sumMatrixOptimizedFlat 9 sampleFlat = some 24 :=
  have hsum : (sampleMatrix.map List.sum).sum = 24 := by decide
  have h := matrix_sums_agree_and_are_exact 9 sampleMatrix sampleFlat (by decide) (by decide)
    (by decide) (by decide) (by decide) sampleFlat_index
  ⟨by decide, by decide, by decide, by decide, by decide, sampleFlat_index,
    hsum ▸ h.1, hsum ▸ h.2.1, hsum ▸ h.2.2.1⟩

end MatSum
